import Mathlib

/-!
# LearnCPP: the hand-written `Vector<T>` of `dsa_lib/dynamic_array-vector/vector.h`
and the line counter of `cli_code_inspector/main.cpp`

The container manages raw storage itself (`::operator new`, placement new,
explicit destructor calls, `::operator delete`), so the embedding is an
abstract machine with an explicit heap:

* the heap is a list of blocks, a block address is its index; a freed block is
  `none`, an allocated block is the list of its slots;
* a slot is `none` while it is raw storage and `some x` while it holds a
  constructed object of value `x`;
* every construction, destruction, allocation and release is appended to a
  trace, which is what an instrumented element type (`DebugObj` in `main.cpp`)
  prints;
* reading or destroying a slot that holds no object, touching a freed block and
  dereferencing `nullptr` are undefined behaviour (`Outcome.ub` / `none`);
* `::operator new` and the element constructors may throw; whether they do is
  decided by the environment `Env`.

`size_t` is modelled by `Nat`. The only arithmetic on sizes is `m_size++` and
`m_capacity * 2`, and a capacity is the slot count of a block that
`::operator new` has returned, so a wrap-around would need a block of at least
`2^63` elements; the model does not bound block sizes, and statements about
runs in which no allocation fails are about sizes below that bound.
The element constructors preserve the value (`T(x)` and `T(std::move(x))` both
yield an object equal to `x`); a move leaves `residue x` behind in the source.

The line counter is embedded as pure functions: a `std::string` is a list of
characters, a file is the list of lines `std::getline` yields (or `none` when
it cannot be opened), `std::string::npos` is `none`, a path is represented by
its extension string. The counters are 32-bit `int`s: an integer together with
`int_wrap`, which is the identity on `-2^31 ≤ z < 2^31`. Signed overflow is
undefined in the language; outside the range the model takes the two's
complement result that the compiled program computes.
-/

namespace LearnCPP

/-! ## The abstract machine -/

/-- Exceptions the code can raise. -/
inductive Exn
  | bad_alloc
  | elem_throw
  | out_of_range
  deriving DecidableEq, Repr

/-- Observable memory events, in the order an instrumented element type and
allocator would report them. `b` is a block address, `i` a slot index. -/
inductive Event
  | alloc (b n : Nat)
  | free (b : Nat)
  | copy_ctor (b i : Nat)
  | move_ctor (b i : Nat)
  | dtor (b i : Nat)
  deriving DecidableEq, Repr

/-- The heap together with the trace of events so far. -/
structure Mem (T : Type) where
  heap : List (Option (List (Option T)))
  trace : List Event
  deriving DecidableEq, Repr

/-- Result of running a piece of code on a state of type `σ`: it returns `a`,
or throws `e`, in both cases leaving a state behind; or it is undefined. -/
inductive Outcome (σ α : Type)
  | ok (a : α) (s : σ)
  | throw (e : Exn) (s : σ)
  | ub
  deriving DecidableEq, Repr

/-- What the element type and the allocator do.
`allocOk k n`: the request for `n` slots made when `k` blocks have been
allocated so far succeeds; `copyOk x` / `moveOk x`: copy / move construction
from an object of value `x` does not throw; `residue x`: the value left in an
object of value `x` after it has been moved from. -/
structure Env (T : Type) where
  allocOk : Nat → Nat → Bool
  copyOk : T → Bool
  moveOk : T → Bool
  residue : T → T

/-- No allocation and no element construction ever throws. -/
def Env.nofail {T : Type} (env : Env T) : Prop :=
  (∀ k n, env.allocOk k n = true) ∧ (∀ x, env.copyOk x = true) ∧ (∀ x, env.moveOk x = true)

/-- A reference to a `T`: an object outside every buffer (a local, a
temporary) of value `x`, or the object in slot `i` of block `b`. -/
inductive Ref (T : Type)
  | ext (x : T)
  | slot (b i : Nat)
  deriving DecidableEq, Repr

/-- Value of the object in slot `i` of block `b`; `none` if there is none. -/
def Mem.load {T : Type} (m : Mem T) (b i : Nat) : Option T :=
  match m.heap[b]? with
  | some (some blk) =>
    match blk[i]? with
    | some (some x) => some x
    | _ => none
  | _ => none

/-- Heap after putting an object of value `x` into slot `i` of block `b`;
`none` if the block is not allocated or has no such slot. -/
def Mem.put {T : Type} (m : Mem T) (b i : Nat) (x : T) :
    Option (List (Option (List (Option T)))) :=
  match m.heap[b]? with
  | some (some blk) =>
    if i < blk.length then some (m.heap.set b (some (blk.set i (some x)))) else none
  | _ => none

/-- Value seen through a reference. -/
def Ref.read {T : Type} (m : Mem T) : Ref T → Option T
  | .ext x => some x
  | .slot b i => m.load b i

/-- `static_cast<T*>(::operator new(n * sizeof(T)))`: a fresh block of `n` raw
slots, or `std::bad_alloc`. -/
def operator_new {T : Type} (env : Env T) (n : Nat) (m : Mem T) : Outcome (Mem T) Nat :=
  if env.allocOk m.heap.length n then
    .ok m.heap.length
      { heap := m.heap ++ [some (List.replicate n none)],
        trace := m.trace ++ [Event.alloc m.heap.length n] }
  else .throw .bad_alloc m

/-- `::operator delete(p)`: nothing for `nullptr`, otherwise releases the
block, which must be allocated. -/
def operator_delete {T : Type} (p : Option Nat) (m : Mem T) : Option (Mem T) :=
  match p with
  | none => some m
  | some b =>
    match m.heap[b]? with
    | some (some _) => some { heap := m.heap.set b none, trace := m.trace ++ [Event.free b] }
    | _ => none

/-- `new (&dst[i]) T(src)`: copy construction into slot `i` of block `dst`. -/
def placement_copy {T : Type} (env : Env T) (dst i : Nat) (src : Ref T) (m : Mem T) :
    Outcome (Mem T) Unit :=
  match src.read m with
  | none => .ub
  | some x =>
    if env.copyOk x then
      match m.put dst i x with
      | none => .ub
      | some h => .ok () { heap := h, trace := m.trace ++ [Event.copy_ctor dst i] }
    else .throw .elem_throw m

/-- `new (&dst[i]) T(std::move(src))`: move construction into slot `i` of block
`dst`; the new object takes the value, then the source is left with its
residue (as `DebugObj(DebugObj&&)` does: `id(other.id)`, then `other.id = -1`). -/
def placement_move {T : Type} (env : Env T) (dst i : Nat) (src : Ref T) (m : Mem T) :
    Outcome (Mem T) Unit :=
  match src.read m with
  | none => .ub
  | some x =>
    if env.moveOk x then
      match m.put dst i x with
      | none => .ub
      | some h =>
        match src with
        | .ext _ => .ok () { heap := h, trace := m.trace ++ [Event.move_ctor dst i] }
        | .slot sb si =>
          match Mem.put { heap := h, trace := m.trace } sb si (env.residue x) with
          | none => .ub
          | some h2 => .ok () { heap := h2, trace := m.trace ++ [Event.move_ctor dst i] }
    else .throw .elem_throw m

/-- `p[i].~T()`: ends the object in slot `i` of block `b`, which must exist. -/
def destroy_at {T : Type} (b i : Nat) (m : Mem T) : Option (Mem T) :=
  match m.heap[b]? with
  | some (some blk) =>
    match blk[i]? with
    | some (some _) =>
      some { heap := m.heap.set b (some (blk.set i none)), trace := m.trace ++ [Event.dtor b i] }
    | _ => none
  | _ => none

/-- `*p = x` for a reference `p` to slot `i` of block `b`: assignment to an
existing object. -/
def assign_at {T : Type} (b i : Nat) (x : T) (m : Mem T) : Option (Mem T) :=
  match m.load b i with
  | none => none
  | some _ =>
    match m.put b i x with
    | none => none
    | some h => some { heap := h, trace := m.trace }

/-! ## `Vector<T>` -/

/-- The three data members of `Vector<T>`; `data` is `none` for `nullptr`. -/
structure Vector where
  data : Option Nat
  m_size : Nat
  m_capacity : Nat
  deriving DecidableEq, Repr

/-- `for (i = i0; i < m_size; i++) new (&new_block[i]) T(std::move(data[i]));`
with `n` iterations to go. -/
def move_loop {T : Type} (env : Env T) (data : Option Nat) (new_block : Nat) :
    Nat → Nat → Mem T → Outcome (Mem T) Unit
  | 0, _, m => .ok () m
  | n + 1, i, m =>
    match data with
    | none => .ub
    | some d =>
      match placement_move env new_block i (Ref.slot d i) m with
      | .ok _ m1 => move_loop env data new_block n (i + 1) m1
      | .throw e m1 => .throw e m1
      | .ub => .ub

/-- `for (i = i0; i < m_size; ++i) data[i].~T();` with `n` iterations to go. -/
def destroy_loop {T : Type} (data : Option Nat) : Nat → Nat → Mem T → Option (Mem T)
  | 0, _, m => some m
  | n + 1, i, m =>
    match data with
    | none => none
    | some d =>
      match destroy_at d i m with
      | some m1 => destroy_loop data n (i + 1) m1
      | none => none

/-- `for (i = i0; i < m_size; ++i) new (&data[i]) T(other.data[i]);` with `n`
iterations to go. -/
def copy_loop {T : Type} (env : Env T) (other_data : Option Nat) (data : Nat) :
    Nat → Nat → Mem T → Outcome (Mem T) Unit
  | 0, _, m => .ok () m
  | n + 1, i, m =>
    match other_data with
    | none => .ub
    | some d =>
      match placement_copy env data i (Ref.slot d i) m with
      | .ok _ m1 => copy_loop env other_data data n (i + 1) m1
      | .throw e m1 => .throw e m1
      | .ub => .ub

/-- `Vector()`. -/
def Vector.default_ctor : Vector := { data := none, m_size := 0, m_capacity := 0 }

/-- `void reallocate(size_t new_capacity)`. -/
def Vector.reallocate {T : Type} (env : Env T) (new_capacity : Nat) (self : Vector)
    (m : Mem T) : Outcome (Vector × Mem T) Unit :=
  match operator_new env new_capacity m with
  | .throw e m1 => .throw e (self, m1)
  | .ub => .ub
  | .ok new_block m1 =>
    match move_loop env self.data new_block self.m_size 0 m1 with
    | .throw e m2 => .throw e (self, m2)
    | .ub => .ub
    | .ok _ m2 =>
      match destroy_loop self.data self.m_size 0 m2 with
      | none => .ub
      | some m3 =>
        match operator_delete self.data m3 with
        | none => .ub
        | some m4 =>
          .ok () ({ self with data := some new_block, m_capacity := new_capacity }, m4)

/-- `Vector(const Vector& other)`. When a constructor throws, the object under
construction never exists and its destructor does not run. -/
def Vector.copy_ctor {T : Type} (env : Env T) (other : Vector) (m : Mem T) :
    Outcome (Mem T) Vector :=
  match operator_new env other.m_capacity m with
  | .throw e m1 => .throw e m1
  | .ub => .ub
  | .ok blk m1 =>
    match copy_loop env other.data blk other.m_size 0 m1 with
    | .throw e m2 => .throw e m2
    | .ub => .ub
    | .ok _ m2 =>
      .ok { data := some blk, m_size := other.m_size, m_capacity := other.m_capacity } m2

/-- `~Vector()`. -/
def Vector.dtor {T : Type} (self : Vector) (m : Mem T) : Option (Mem T) :=
  match destroy_loop self.data self.m_size 0 m with
  | none => none
  | some m1 => operator_delete self.data m1

/-- `Vector& operator=(const Vector& other)`; `this_addr` and `other_addr` are
the addresses of `*this` and `other`. -/
def Vector.copy_assign {T : Type} (env : Env T) (this_addr other_addr : Nat)
    (other : Vector) (self : Vector) (m : Mem T) : Outcome (Vector × Mem T) Unit :=
  if this_addr = other_addr then .ok () (self, m)
  else
    match Vector.copy_ctor env other m with
    | .throw e m1 => .throw e (self, m1)
    | .ub => .ub
    | .ok temp m1 =>
      let self1 : Vector :=
        { data := temp.data, m_size := temp.m_size, m_capacity := temp.m_capacity }
      let temp1 : Vector :=
        { data := self.data, m_size := self.m_size, m_capacity := self.m_capacity }
      match Vector.dtor temp1 m1 with
      | none => .ub
      | some m2 => .ok () (self1, m2)

/-- `Vector(Vector&& other) noexcept`: returns the new object; the state left
behind is `other` and the memory. -/
def Vector.move_ctor {T : Type} (other : Vector) (m : Mem T) :
    Outcome (Vector × Mem T) Vector :=
  .ok { data := other.data, m_size := other.m_size, m_capacity := other.m_capacity }
    ({ data := none, m_size := 0, m_capacity := 0 }, m)

/-- `Vector& operator=(Vector&& other) noexcept`; the state left behind is
`(*this, other)` and the memory. -/
def Vector.move_assign {T : Type} (this_addr other_addr : Nat) (other : Vector)
    (self : Vector) (m : Mem T) : Outcome ((Vector × Vector) × Mem T) Unit :=
  if this_addr = other_addr then .ok () ((self, other), m)
  else
    match destroy_loop self.data self.m_size 0 m with
    | none => .ub
    | some m1 =>
      match operator_delete self.data m1 with
      | none => .ub
      | some m2 =>
        .ok ()
          (({ data := other.data, m_size := other.m_size, m_capacity := other.m_capacity },
            { data := none, m_size := 0, m_capacity := 0 }), m2)

/-- `T& operator[](size_t index)`: the reference `data[index]`, unchecked. -/
def Vector.index (self : Vector) (index : Nat) : Option (Nat × Nat) :=
  match self.data with
  | none => none
  | some d => some (d, index)

/-- `T& at(size_t index)`. -/
def Vector.at_ {T : Type} (self : Vector) (index : Nat) (m : Mem T) :
    Outcome (Mem T) (Nat × Nat) :=
  if index ≥ self.m_size then .throw .out_of_range m
  else
    match self.data with
    | none => .ub
    | some d => .ok (d, index) m

/-- `T* begin()`: the pointer `data`, as block and offset. -/
def Vector.begin_ (self : Vector) : Option Nat × Nat := (self.data, 0)

/-- `T* end()`: the pointer `data + m_size`. -/
def Vector.end_ (self : Vector) : Option Nat × Nat := (self.data, 0 + self.m_size)

/-- `void push_back(const T& value)`. -/
def Vector.push_back {T : Type} (env : Env T) (value : Ref T) (self : Vector) (m : Mem T) :
    Outcome (Vector × Mem T) Unit :=
  match (if self.m_size ≥ self.m_capacity then
      Vector.reallocate env (if self.m_capacity = 0 then 1 else self.m_capacity * 2) self m
    else .ok () (self, m)) with
  | .throw e s => .throw e s
  | .ub => .ub
  | .ok _ (self1, m1) =>
    match self1.data with
    | none => .ub
    | some d =>
      match placement_copy env d self1.m_size value m1 with
      | .throw e m2 => .throw e (self1, m2)
      | .ub => .ub
      | .ok _ m2 => .ok () ({ self1 with m_size := self1.m_size + 1 }, m2)

/-- `void push_back(T&& value)`. -/
def Vector.push_back_move {T : Type} (env : Env T) (value : Ref T) (self : Vector)
    (m : Mem T) : Outcome (Vector × Mem T) Unit :=
  match (if self.m_size ≥ self.m_capacity then
      Vector.reallocate env (if self.m_capacity = 0 then 1 else self.m_capacity * 2) self m
    else .ok () (self, m)) with
  | .throw e s => .throw e s
  | .ub => .ub
  | .ok _ (self1, m1) =>
    match self1.data with
    | none => .ub
    | some d =>
      match placement_move env d self1.m_size value m1 with
      | .throw e m2 => .throw e (self1, m2)
      | .ub => .ub
      | .ok _ m2 => .ok () ({ self1 with m_size := self1.m_size + 1 }, m2)

/-- The loop `for (T* it = first; it != last; ++it) visit(*it);` that a
range-based `for` over the container expands to, with `fuel` bounding the
number of iterations: the offsets and values visited, or `none` when `*it` is
not an object or the fuel runs out. -/
def traverse {T : Type} (m : Mem T) (last : Option Nat × Nat) :
    Nat → Option Nat × Nat → Option (List (Nat × T))
  | 0, it => if it = last then some [] else none
  | fuel + 1, it =>
    if it = last then some []
    else
      match it.1 with
      | none => none
      | some b =>
        match m.load b it.2 with
        | none => none
        | some x =>
          match traverse m last fuel (it.1, it.2 + 1) with
          | none => none
          | some rest => some ((it.2, x) :: rest)

/-! ## Specification vocabulary -/

/-- Slots of a buffer of capacity `cap` whose live objects are `xs`. -/
def blockOf {T : Type} (cap : Nat) (xs : List T) : List (Option T) :=
  xs.map some ++ List.replicate (cap - xs.length) none

/-- The vector `v` is well formed in memory `m` and holds exactly `xs`: its
size is the length of `xs`, its capacity bounds its size, and its buffer (if
any) is an allocated block of `m_capacity` slots whose first `m_size` slots
hold the objects `xs` and whose other slots are raw. -/
def Owns {T : Type} (m : Mem T) (v : Vector) (xs : List T) : Prop :=
  v.m_size = xs.length ∧ xs.length ≤ v.m_capacity ∧
  (match v.data with
   | none => v.m_capacity = 0
   | some b => m.heap[b]? = some (some (blockOf v.m_capacity xs)))

/-- The events of destroying the `n` elements of the buffer `data` in index
order and releasing it; nothing for `nullptr`. -/
def dtor_trace (data : Option Nat) (n : Nat) : List Event :=
  match data with
  | none => []
  | some d => (List.range n).map (fun j => Event.dtor d j) ++ [Event.free d]

/-- The capacity `push_back` asks for when the buffer is full. -/
def grown (cap : Nat) : Nat := if cap = 0 then 1 else cap * 2

/-- The argument of a `push_back` call made with an object outside the
container: an lvalue selects `push_back(const T&)`, an rvalue `push_back(T&&)`. -/
inductive Arg (T : Type)
  | lvalue (x : T)
  | rvalue (x : T)
  deriving DecidableEq, Repr

/-- Value of the argument. -/
def Arg.val {T : Type} : Arg T → T
  | .lvalue x => x
  | .rvalue x => x

/-- The construction event of the element made from the argument. -/
def Arg.event {T : Type} (b i : Nat) : Arg T → Event
  | .lvalue _ => Event.copy_ctor b i
  | .rvalue _ => Event.move_ctor b i

/-- The call `v.push_back(a)`, resolved to its overload. -/
def Vector.push {T : Type} (env : Env T) (a : Arg T) (self : Vector) (m : Mem T) :
    Outcome (Vector × Mem T) Unit :=
  match a with
  | .lvalue x => Vector.push_back env (Ref.ext x) self m
  | .rvalue x => Vector.push_back_move env (Ref.ext x) self m

/-- The calls `v.push_back(a_1); ...; v.push_back(a_N);` in sequence. -/
def push_all {T : Type} (env : Env T) : List (Arg T) → Vector → Mem T →
    Outcome (Vector × Mem T) Unit
  | [], v, m => .ok () (v, m)
  | a :: rest, v, m =>
    match Vector.push env a v m with
    | .ok _ (v1, m1) => push_all env rest v1 m1
    | .throw e s => .throw e s
    | .ub => .ub

/-- The capacities observed after each call of a sequence of `push_back`
calls. -/
def caps_observed {T : Type} (env : Env T) : List (Arg T) → Vector → Mem T → List Nat
  | [], _, _ => []
  | a :: rest, v, m =>
    match Vector.push env a v m with
    | .ok _ (v1, m1) => v1.m_capacity :: caps_observed env rest v1 m1
    | .throw _ _ => []
    | .ub => []

/-- The capacity reached by appending to an empty vector is a power of two
that is less than twice the size. -/
def capInv (size cap : Nat) : Prop :=
  (size = 0 ∧ cap = 0) ∨ ∃ k, cap = 2 ^ k ∧ size ≤ cap ∧ cap < 2 * size

/-- The capacities the growth policy produces over `n` appends, starting from
a vector of the given size and capacity. -/
def capList : Nat → Nat → Nat → List Nat
  | _, _, 0 => []
  | size, cap, n + 1 =>
    (if size ≥ cap then grown cap else cap)
      :: capList (size + 1) (if size ≥ cap then grown cap else cap) n

/-- Plain integers as element type: nothing throws, a moved-from `int` keeps
its value. -/
def intEnv : Env Int :=
  { allocOk := fun _ _ => true, copyOk := fun _ => true, moveOk := fun _ => true,
    residue := fun x => x }

/-- The instrumented element type `DebugObj` of `main.cpp`, identified with
its `id`: nothing throws, the move constructor marks the source with `-1`. -/
def debugObjEnv : Env Int :=
  { allocOk := fun _ _ => true, copyOk := fun _ => true, moveOk := fun _ => true,
    residue := fun _ => -1 }

/-- An element type over the integers whose copy constructor throws exactly
for the values rejected by `ok`. -/
def throwingCopyEnv (ok : Int → Bool) : Env Int :=
  { allocOk := fun _ _ => true, copyOk := ok, moveOk := fun _ => true,
    residue := fun x => x }

/-- An element type over the integers whose move constructor throws exactly
for the values rejected by `ok` and marks the source of a move with `-1`. -/
def throwingMoveEnv (ok : Int → Bool) : Env Int :=
  { allocOk := fun _ _ => true, copyOk := fun _ => true, moveOk := ok,
    residue := fun _ => -1 }

/-! ## Programs over several containers -/

/-- The program state: the memory and the `Vector` objects declared so far,
addressed by their position; a destroyed object is `none`. -/
structure Store (T : Type) where
  mem : Mem T
  vecs : List (Option Vector)
  deriving DecidableEq, Repr

/-- The live `Vector` object at address `p`. -/
def Store.vec? {T : Type} (st : Store T) (p : Nat) : Option Vector :=
  match st.vecs[p]? with
  | some (some v) => some v
  | _ => none

/-- The public operations of `Vector<T>` as statements of a client program;
containers are named by their address. -/
inductive Op (T : Type)
  | decl
  | copy_decl (src : Nat)
  | move_decl (src : Nat)
  | copy_assign (dst src : Nat)
  | move_assign (dst src : Nat)
  | push_back (v : Nat) (a : Arg T)
  | index_store (v i : Nat) (x : T)
  | at_store (v i : Nat) (x : T)
  | end_scope (v : Nat)
  deriving DecidableEq, Repr

/-- One statement: `Vector<T> w;`, `Vector<T> w(v);`, `Vector<T> w(std::move(v));`,
`d = s;`, `d = std::move(s);`, `v.push_back(a);`, `v[i] = x;`, `v.at(i) = x;`
and the end of the scope of `v`. An exception is caught by the program, which
goes on with the state the throwing call left; `none` is undefined behaviour
(which includes naming an object that is not alive). -/
def step {T : Type} (env : Env T) (st : Store T) : Op T → Option (Store T)
  | .decl => some { mem := st.mem, vecs := st.vecs ++ [some Vector.default_ctor] }
  | .copy_decl src =>
    match st.vec? src with
    | none => none
    | some o =>
      match Vector.copy_ctor env o st.mem with
      | .ok v m => some { mem := m, vecs := st.vecs ++ [some v] }
      | .throw _ m => some { mem := m, vecs := st.vecs }
      | .ub => none
  | .move_decl src =>
    match st.vec? src with
    | none => none
    | some o =>
      match Vector.move_ctor o st.mem with
      | .ok v (o1, m) => some { mem := m, vecs := st.vecs.set src (some o1) ++ [some v] }
      | .throw _ (o1, m) => some { mem := m, vecs := st.vecs.set src (some o1) }
      | .ub => none
  | .copy_assign dst src =>
    match st.vec? dst, st.vec? src with
    | some self, some o =>
      match Vector.copy_assign env dst src o self st.mem with
      | .ok _ (self1, m) => some { mem := m, vecs := st.vecs.set dst (some self1) }
      | .throw _ (self1, m) => some { mem := m, vecs := st.vecs.set dst (some self1) }
      | .ub => none
    | _, _ => none
  | .move_assign dst src =>
    match st.vec? dst, st.vec? src with
    | some self, some o =>
      match Vector.move_assign dst src o self st.mem with
      | .ok _ ((self1, o1), m) =>
        some { mem := m, vecs := (st.vecs.set dst (some self1)).set src (some o1) }
      | .throw _ ((self1, o1), m) =>
        some { mem := m, vecs := (st.vecs.set dst (some self1)).set src (some o1) }
      | .ub => none
    | _, _ => none
  | .push_back p a =>
    match st.vec? p with
    | none => none
    | some self =>
      match Vector.push env a self st.mem with
      | .ok _ (self1, m) => some { mem := m, vecs := st.vecs.set p (some self1) }
      | .throw _ (self1, m) => some { mem := m, vecs := st.vecs.set p (some self1) }
      | .ub => none
  | .index_store p i x =>
    match st.vec? p with
    | none => none
    | some self =>
      match Vector.index self i with
      | none => none
      | some (b, j) =>
        match assign_at b j x st.mem with
        | none => none
        | some m => some { mem := m, vecs := st.vecs }
  | .at_store p i x =>
    match st.vec? p with
    | none => none
    | some self =>
      match Vector.at_ self i st.mem with
      | .ok (b, j) m =>
        match assign_at b j x m with
        | none => none
        | some m1 => some { mem := m1, vecs := st.vecs }
      | .throw _ m => some { mem := m, vecs := st.vecs }
      | .ub => none
  | .end_scope p =>
    match st.vec? p with
    | none => none
    | some self =>
      match Vector.dtor self st.mem with
      | none => none
      | some m => some { mem := m, vecs := st.vecs.set p none }

/-- A program: its statements in order. -/
def run {T : Type} (env : Env T) : List (Op T) → Store T → Option (Store T)
  | [], st => some st
  | op :: rest, st =>
    match step env st op with
    | none => none
    | some st1 => run env rest st1

/-- The state before the first statement: nothing allocated, no object. -/
def Store.init {T : Type} : Store T := { mem := { heap := [], trace := [] }, vecs := [] }

/-- Number of element constructions into buffer slots recorded in a trace. -/
def constructions (tr : List Event) : Nat :=
  tr.countP (fun e => match e with
    | Event.copy_ctor _ _ => true
    | Event.move_ctor _ _ => true
    | _ => false)

/-- Number of element destructions recorded in a trace. -/
def destructions (tr : List Event) : Nat :=
  tr.countP (fun e => match e with
    | Event.dtor _ _ => true
    | _ => false)

/-- Number of element move constructions recorded in a trace. -/
def move_constructions (tr : List Event) : Nat :=
  tr.countP (fun e => match e with
    | Event.move_ctor _ _ => true
    | _ => false)

/-- Number of calls of a sequence that go to `push_back(T&&)`, each of which
move-constructs the new element. -/
def rvalue_calls {T : Type} (args : List (Arg T)) : Nat :=
  args.countP (fun a => match a with
    | Arg.rvalue _ => true
    | Arg.lvalue _ => false)

/-- Size of the container in one slot of the object table; a destroyed
container counts for nothing. -/
def live_size (o : Option Vector) : Nat :=
  match o with
  | some v => v.m_size
  | none => 0

/-- Sum of the sizes of the live containers. -/
def Store.live_sizes {T : Type} (st : Store T) : Nat :=
  (st.vecs.map live_size).sum

/-- Addresses of the live containers. -/
def Store.live {T : Type} (st : Store T) : List Nat :=
  (List.range st.vecs.length).filter (fun p => (st.vec? p).isSome)

/-- The statements that end the scope of every live container. -/
def end_all {T : Type} (st : Store T) : List (Op T) :=
  st.live.map Op.end_scope

/-- Well-formed program state: every live container is well formed, no two
live containers share a buffer, every allocated block is the buffer of a live
container, and the constructions so far are the destructions so far plus the
elements now alive. -/
structure WF {T : Type} (st : Store T) : Prop where
  owns : ∀ (p : Nat) (v : Vector), st.vecs[p]? = some (some v) →
    ∃ xs : List T, Owns st.mem v xs
  excl : ∀ (p q : Nat) (v w : Vector) (d : Nat), p ≠ q →
    st.vecs[p]? = some (some v) → st.vecs[q]? = some (some w) →
    v.data = some d → w.data ≠ some d
  noleak : ∀ (c : Nat) (blk : List (Option T)), st.mem.heap[c]? = some (some blk) →
    ∃ (p : Nat) (v : Vector), st.vecs[p]? = some (some v) ∧ v.data = some c
  counts : constructions st.mem.trace = destructions st.mem.trace + st.live_sizes

/-- Every live container of the state has `m_size ≤ m_capacity`. -/
def SizeLeCap {T : Type} (st : Store T) : Prop :=
  ∀ (p : Nat) (v : Vector), st.vecs[p]? = some (some v) → v.m_size ≤ v.m_capacity

/-! ## The line counter of `cli_code_inspector/main.cpp` -/

/-- `enum class Language`. -/
inductive Language
  | CPP
  | JAVA
  | PYTHON
  | UNKOWN
  deriving DecidableEq, Repr

/-- The value a 32-bit `int` holds when the exact result of an arithmetic
operation is `z`: `z` itself when `-2^31 ≤ z < 2^31`. Otherwise the operation
overflows; the language leaves that undefined, and the compiled program keeps
the low 32 bits, which is `z` reduced modulo `2^32` into the range. -/
def int_wrap (z : Int) : Int :=
  (z + 2147483648) % 4294967296 - 2147483648

/-- `x++` on an `int`. -/
def int_inc (x : Int) : Int :=
  int_wrap (x + 1)

/-- `x += y` on `int`s. -/
def int_add (x y : Int) : Int :=
  int_wrap (x + y)

/-- `struct FileStats`; the fields are 32-bit `int`s. -/
structure FileStats where
  totalLines : Int
  blankLines : Int
  commentLines : Int
  codeLines : Int
  deriving DecidableEq, Repr

/-- `struct LanguageStats`. -/
structure LanguageStats where
  files : Int
  stats : FileStats
  deriving DecidableEq, Repr

/-- `bool isSourceFile(const fs::path& path)`, as a function of
`path.extension().string()`. -/
def isSourceFile (ext : String) : Bool :=
  [".cpp", ".h", ".java", ".py", ".c"].contains ext

/-- `Language detectLanguage(const fs::path& path)`, as a function of
`path.extension().string()`. -/
def detectLanguage (ext : String) : Language :=
  if ext = ".cpp" ∨ ext = ".h" then Language.CPP
  else if ext = ".java" then Language.JAVA
  else if ext = ".py" then Language.PYTHON
  else Language.UNKOWN

/-- `s.find_first_not_of(chars)` on the rest `s` of a string that starts at
offset `i`. -/
def find_first_not_of_from (chars : List Char) : List Char → Nat → Option Nat
  | [], _ => none
  | c :: cs, i => if chars.contains c then find_first_not_of_from chars cs (i + 1) else some i

/-- `line.find_first_not_of(chars)`; `none` is `std::string::npos`. -/
def find_first_not_of (line chars : List Char) : Option Nat :=
  find_first_not_of_from chars line 0

/-- The string `s` begins with `pat`. -/
def starts_with : List Char → List Char → Bool
  | [], _ => true
  | _ :: _, [] => false
  | p :: ps, c :: cs => if p = c then starts_with ps cs else false

/-- First offset at which `pat` occurs in the rest `s` of a string that starts
at offset `i`. -/
def find_from (pat : List Char) : List Char → Nat → Option Nat
  | [], i => if pat = [] then some i else none
  | c :: cs, i => if starts_with pat (c :: cs) then some i else find_from pat cs (i + 1)

/-- `line.find(pat, pos)`; `none` is `std::string::npos`. -/
def find (line pat : List Char) (pos : Nat) : Option Nat :=
  if pos > line.length then none else find_from pat (line.drop pos) pos

/-- The body of the `while (std::getline(file, line))` loop of `analyzeFile`:
the counters and `inBlockComment` after one more line. -/
def analyze_line (lang : Language) (stats : FileStats) (inBlockComment : Bool)
    (line : List Char) : FileStats × Bool :=
  let stats1 : FileStats := { stats with totalLines := int_inc stats.totalLines }
  match find_first_not_of line [' ', '\t'] with
  | none => ({ stats1 with blankLines := int_inc stats1.blankLines }, inBlockComment)
  | some firstNonSpace =>
    if lang = Language.PYTHON then
      if line.get? firstNonSpace = some '#' then
        ({ stats1 with commentLines := int_inc stats1.commentLines }, inBlockComment)
      else
        ({ stats1 with codeLines := int_inc stats1.codeLines }, inBlockComment)
    else if inBlockComment = true then
      ({ stats1 with commentLines := int_inc stats1.commentLines },
        if find line ['*', '/'] 0 ≠ none then false else inBlockComment)
    else if find line ['/', '/'] firstNonSpace = some firstNonSpace then
      ({ stats1 with commentLines := int_inc stats1.commentLines }, inBlockComment)
    else if find line ['/', '*'] firstNonSpace = some firstNonSpace then
      ({ stats1 with commentLines := int_inc stats1.commentLines },
        if find line ['*', '/'] (firstNonSpace + 2) = none then true else inBlockComment)
    else
      ({ stats1 with codeLines := int_inc stats1.codeLines }, inBlockComment)

/-- The `while` loop of `analyzeFile` over the lines that `std::getline`
yields. -/
def analyze_lines (lang : Language) : List (List Char) → FileStats → Bool → FileStats
  | [], stats, _ => stats
  | line :: rest, stats, inBlockComment =>
    analyze_lines lang rest (analyze_line lang stats inBlockComment line).1
      (analyze_line lang stats inBlockComment line).2

/-- `FileStats analyzeFile(const fs::path& path, Language lang)` as a function
of the content of the file: its lines, or `none` when it cannot be opened. -/
def analyzeFile (content : Option (List (List Char))) (lang : Language) : FileStats :=
  match content with
  | none => { totalLines := 0, blankLines := 0, commentLines := 0, codeLines := 0 }
  | some lines =>
    analyze_lines lang lines
      { totalLines := 0, blankLines := 0, commentLines := 0, codeLines := 0 } false

/-- A directory entry as the scan loop of `main` sees it. -/
structure Entry where
  is_regular_file : Bool
  extension : String
  content : Option (List (List Char))

/-- The accumulators of the scan loop of `main`; a language that is not a key
of `perLanguage` maps to `none`. -/
structure Totals where
  perLanguage : Language → Option LanguageStats
  totalStats : FileStats
  fileCount : Int

/-- The accumulators before the scan loop. -/
def Totals.start : Totals :=
  { perLanguage := fun _ => none,
    totalStats := { totalLines := 0, blankLines := 0, commentLines := 0, codeLines := 0 },
    fileCount := 0 }

/-- The body of the scan loop of `main` for one directory entry. -/
def scan_entry (t : Totals) (e : Entry) : Totals :=
  if e.is_regular_file = false then t
  else if isSourceFile e.extension = false then t
  else
    let lang := detectLanguage e.extension
    if lang = Language.UNKOWN then t
    else
      let stats := analyzeFile e.content lang
      let langStats : LanguageStats :=
        match t.perLanguage lang with
        | some s => s
        | none =>
          { files := 0,
            stats := { totalLines := 0, blankLines := 0, commentLines := 0, codeLines := 0 } }
      let langStats1 : LanguageStats :=
        { files := int_inc langStats.files,
          stats :=
            { totalLines := int_add langStats.stats.totalLines stats.totalLines,
              blankLines := int_add langStats.stats.blankLines stats.blankLines,
              commentLines := int_add langStats.stats.commentLines stats.commentLines,
              codeLines := int_add langStats.stats.codeLines stats.codeLines } }
      { perLanguage := fun l => if l = lang then some langStats1 else t.perLanguage l,
        totalStats :=
          { totalLines := int_add t.totalStats.totalLines stats.totalLines,
            blankLines := int_add t.totalStats.blankLines stats.blankLines,
            commentLines := int_add t.totalStats.commentLines stats.commentLines,
            codeLines := int_add t.totalStats.codeLines stats.codeLines },
        fileCount := int_inc t.fileCount }

/-- The scan loop of `main` over the entries of the directory tree. -/
def scan (entries : List Entry) : Totals :=
  entries.foldl scan_entry Totals.start

/-- The line consists only of spaces and tabs (the empty line included). -/
def only_spaces_tabs (line : List Char) : Prop :=
  ∀ c ∈ line, c = ' ' ∨ c = '\t'

/-- The text `pat` occurs in `line` at some offset `≥ pos`. -/
def occurs_from (pat line : List Char) (pos : Nat) : Prop :=
  ∃ pre post, line = pre ++ pat ++ post ∧ pos ≤ pre.length

/-- Number of lines of spaces and tabs only. -/
def blank_count (lines : List (List Char)) : Nat :=
  lines.countP (fun l => l.all (fun c => c = ' ' ∨ c = '\t'))

/-- Number of lines that the loop of `analyzeFile` reads: none when the file
cannot be opened. -/
def lines_read (content : Option (List (List Char))) : Nat :=
  match content with
  | none => 0
  | some lines => lines.length

/-- The file of `n` empty lines followed by `n` lines `x`. -/
def blank_then_code (n : Nat) : List (List Char) :=
  List.replicate n [] ++ List.replicate n ['x']

/-! ## Concrete inputs -/

/-- A client program: `Vector<int> a; a.push_back(5); a.push_back(10);
a.push_back(15); Vector<int> b; b.push_back(7);` (the last call with an
rvalue). -/
def demoProgram : List (Op Int) :=
  [Op.decl, Op.push_back 0 (Arg.lvalue 5), Op.push_back 0 (Arg.lvalue 10),
   Op.push_back 0 (Arg.lvalue 15), Op.decl, Op.push_back 1 (Arg.rvalue 7)]

/-- The container `a` after `demoProgram`. -/
def demoVec : Vector := { data := some 2, m_size := 3, m_capacity := 4 }

/-- The container `b` after `demoProgram`. -/
def demoVec2 : Vector := { data := some 3, m_size := 1, m_capacity := 1 }

/-- The memory after `demoProgram`. -/
def demoMem : Mem Int :=
  { heap := [none, none, some [some 5, some 10, some 15, none], some [some 7]],
    trace := [Event.alloc 0 1, Event.copy_ctor 0 0, Event.alloc 1 2, Event.move_ctor 1 0,
      Event.dtor 0 0, Event.free 0, Event.copy_ctor 1 1, Event.alloc 2 4,
      Event.move_ctor 2 0, Event.move_ctor 2 1, Event.dtor 1 0, Event.dtor 1 1,
      Event.free 1, Event.copy_ctor 2 2, Event.alloc 3 1, Event.move_ctor 3 0] }

/-- The program state after `demoProgram`. -/
def demoStore : Store Int := { mem := demoMem, vecs := [some demoVec, some demoVec2] }

/-- The program `demoProgram` continued by `Vector<int> c(std::move(a));
Vector<int> d(b); a = d; b.at(5) = 9;` (which throws and is caught)
`a[0] = 8; d = std::move(c);` and the end of the scope of `b`. -/
def demoProgram2 : List (Op Int) :=
  demoProgram ++ [Op.move_decl 0, Op.copy_decl 1, Op.copy_assign 0 3, Op.at_store 1 5 9,
    Op.index_store 0 0 8, Op.move_assign 3 2, Op.end_scope 1]

/-- The program state after `demoProgram2`. -/
def demoStore2 : Store Int :=
  { mem :=
      { heap := [none, none, some [some 5, some 10, some 15, none], none, none, some [some 8]],
        trace := demoMem.trace ++ [Event.alloc 4 1, Event.copy_ctor 4 0, Event.alloc 5 1,
          Event.copy_ctor 5 0, Event.dtor 4 0, Event.free 4, Event.dtor 3 0, Event.free 3] },
    vecs := [some { data := some 5, m_size := 1, m_capacity := 1 }, none,
      some { data := none, m_size := 0, m_capacity := 0 },
      some { data := some 2, m_size := 3, m_capacity := 4 }] }

/-- The full container `[5, 10]` (size 2, capacity 2) after
`Vector<int> v; v.push_back(5); v.push_back(10);`. -/
def fullVec : Vector := { data := some 1, m_size := 2, m_capacity := 2 }

/-- The memory after `Vector<int> v; v.push_back(5); v.push_back(10);`. -/
def fullMem : Mem Int :=
  { heap := [none, some [some 5, some 10]],
    trace := [Event.alloc 0 1, Event.copy_ctor 0 0, Event.alloc 1 2, Event.move_ctor 1 0,
      Event.dtor 0 0, Event.free 0, Event.copy_ctor 1 1] }

/-! ## Helper lemmas -/

variable {T : Type}

theorem getElem?_append_cons {α : Type} (A : List α) (y : α) (B : List α) :
    (A ++ y :: B)[A.length]? = some y := by
  rw [List.getElem?_append_right (Nat.le_refl _)]
  simp

theorem set_append_cons {α : Type} (A : List α) (y z : α) (B : List α) :
    (A ++ y :: B).set A.length z = A ++ z :: B := by simp

/-- One iteration of the move loop on a well-formed pair of blocks. -/
theorem placement_move_slot (env : Env T) (m : Mem T) (d nb : Nat) (hne : d ≠ nb)
    (done rest : List T) (x : T) (pad : List (Option T)) (k : Nat)
    (hs : m.heap[d]? = some (some (done.map (fun y => some (env.residue y)) ++ some x :: (rest.map some ++ pad))))
    (hd : m.heap[nb]? = some (some (done.map some ++ List.replicate (k + 1) none)))
    (hx : env.moveOk x = true) :
    ∃ m', placement_move env nb done.length (Ref.slot d done.length) m = .ok () m' ∧
      m'.heap.length = m.heap.length ∧
      m'.heap[d]? = some (some ((done ++ [x]).map (fun y => some (env.residue y)) ++ (rest.map some ++ pad))) ∧
      m'.heap[nb]? = some (some ((done ++ [x]).map some ++ List.replicate k none)) ∧
      (∀ c, c ≠ d → c ≠ nb → m'.heap[c]? = m.heap[c]?) ∧
      m'.trace = m.trace ++ [Event.move_ctor nb done.length] := by
  have hdl : d < m.heap.length := by
    by_contra h
    rw [List.getElem?_eq_none (by omega)] at hs
    cases hs
  have hnl : nb < m.heap.length := by
    by_contra h
    rw [List.getElem?_eq_none (by omega)] at hd
    cases hd
  have e1 : (List.map (fun y => some (env.residue y)) done ++ some x :: (List.map some rest ++ pad))[done.length]? = some (some x) := by
    have := getElem?_append_cons (List.map (fun y => some (env.residue y)) done) (some x) (List.map some rest ++ pad)
    simpa using this
  simp only [placement_move, Ref.read, Mem.load, Mem.put, hs, hd, e1, hx, if_true]
  have e2 : done.length < (List.map some done ++ List.replicate (k + 1) (none : Option T)).length := by
    simp
  simp only [e2, if_true]
  have e3 : (m.heap.set nb (some ((List.map some done ++ List.replicate (k + 1) none).set done.length (some x))))[d]? = m.heap[d]? :=
    List.getElem?_set_ne (Ne.symm hne)
  simp only [e3, hs]
  have e4 : done.length < (List.map (fun y => some (env.residue y)) done ++ some x :: (List.map some rest ++ pad)).length := by
    simp
  simp only [e4, if_true]
  refine ⟨_, rfl, by simp, ?_, ?_, ?_, rfl⟩
  · simp only [List.length_set, hdl, List.getElem?_set_self]
    have := set_append_cons (List.map (fun y => some (env.residue y)) done) (some x) (some (env.residue x)) (List.map some rest ++ pad)
    simp only [List.length_map] at this
    simp [this]
  · rw [List.getElem?_set_ne hne, List.getElem?_set_self hnl]
    have := set_append_cons (List.map some done) (none : Option T) (some x) (List.replicate k none)
    simp only [List.length_map] at this
    simp [List.replicate_succ, this]
  · intro c hc1 hc2
    rw [List.getElem?_set_ne (Ne.symm hc1), List.getElem?_set_ne (Ne.symm hc2)]

theorem placement_move_slot_throw (env : Env T) (m : Mem T) (d nb i : Nat) (x : T)
    (hs : m.load d i = some x) (hx : env.moveOk x = false) :
    placement_move env nb i (Ref.slot d i) m = .throw .elem_throw m := by
  simp [placement_move, Ref.read, hs, hx]

theorem load_of_block (m : Mem T) (d : Nat) (A B : List (Option T)) (x : T)
    (hs : m.heap[d]? = some (some (A ++ some x :: B))) : m.load d A.length = some x := by
  simp only [Mem.load, hs, getElem?_append_cons]

theorem range_succ_map_shift {α : Type} (f : Nat → α) (n : Nat) :
    (List.range (n + 1)).map f = f 0 :: (List.range n).map (fun j => f (j + 1)) := by
  rw [List.range_succ_eq_map]
  simp [List.map_map, Function.comp_def]

/-- The move loop of `reallocate`, run on a source block whose first
`done.length` objects have been moved already. It re-homes the longest prefix
`p` of `rest` whose moves do not throw. -/
theorem move_loop_spec (env : Env T) (d nb : Nat) (hne : d ≠ nb) (pad : List (Option T)) :
    ∀ (rest done : List T) (k : Nat) (m : Mem T),
    rest.length ≤ k →
    m.heap[d]? = some (some (done.map (fun y => some (env.residue y)) ++ (rest.map some ++ pad))) →
    m.heap[nb]? = some (some (done.map some ++ List.replicate k none)) →
    ∃ m', move_loop env (some d) nb rest.length done.length m
        = (if rest.all env.moveOk then Outcome.ok () m' else Outcome.throw Exn.elem_throw m') ∧
      m'.heap.length = m.heap.length ∧
      m'.heap[d]? = some (some ((done ++ rest.takeWhile env.moveOk).map (fun y => some (env.residue y))
          ++ ((rest.drop (rest.takeWhile env.moveOk).length).map some ++ pad))) ∧
      m'.heap[nb]? = some (some ((done ++ rest.takeWhile env.moveOk).map some
          ++ List.replicate (k - (rest.takeWhile env.moveOk).length) none)) ∧
      (∀ c, c ≠ d → c ≠ nb → m'.heap[c]? = m.heap[c]?) ∧
      m'.trace = m.trace ++ (List.range (rest.takeWhile env.moveOk).length).map
          (fun j => Event.move_ctor nb (done.length + j)) := by
  intro rest
  induction rest with
  | nil =>
    intro done k m _ hs hd
    exact ⟨m, by simp [move_loop], rfl, by simpa using hs, by simpa using hd,
      fun _ _ _ => rfl, by simp⟩
  | cons x r ih =>
    intro done k m hk hs hd
    cases hx : env.moveOk x with
    | false =>
      refine ⟨m, ?_, rfl, ?_, ?_, fun _ _ _ => rfl, ?_⟩
      · have hl : m.load d done.length = some x := by
          have := load_of_block m d (done.map (fun y => some (env.residue y))) (r.map some ++ pad) x
            (by simpa using hs)
          simpa using this
        simp [move_loop, placement_move_slot_throw env m d nb done.length x hl hx, hx]
      · simpa [hx] using hs
      · simpa [hx] using hd
      · simp [hx]
    | true =>
      obtain ⟨k', rfl⟩ : ∃ k', k = k' + 1 := ⟨k - 1, by simp at hk; omega⟩
      obtain ⟨m1, h1, hlen1, hs1, hd1, hfr1, htr1⟩ :=
        placement_move_slot env m d nb hne done r x pad k' (by simpa using hs) hd hx
      obtain ⟨m', h2, hlen2, hs2, hd2, hfr2, htr2⟩ :=
        ih (done ++ [x]) k' m1 (by simp at hk; omega) hs1 hd1
      refine ⟨m', ?_, by rw [hlen2, hlen1], ?_, ?_, ?_, ?_⟩
      · simp only [List.length_cons, move_loop, h1]
        simp only [List.length_append, List.length_singleton] at h2
        rw [h2]
        simp [hx]
      · simpa [hx, List.append_assoc] using hs2
      · simpa [hx, List.append_assoc] using hd2
      · intro c hc1 hc2
        rw [hfr2 c hc1 hc2, hfr1 c hc1 hc2]
      · rw [htr2, htr1]
        simp only [hx, List.takeWhile_cons_of_pos, List.length_cons, range_succ_map_shift,
          List.append_assoc, List.singleton_append, List.length_append, List.length_singleton]
        simp [Nat.add_assoc, Nat.add_comm 1]

theorem heap_lt_of_getElem? {α : Type} (l : List α) (i : Nat) (a : α) (h : l[i]? = some a) :
    i < l.length := by
  by_contra hc
  rw [List.getElem?_eq_none (by omega)] at h
  cases h

/-- One destructor call on a live slot. -/
theorem destroy_at_slot (m : Mem T) (d : Nat) (A B : List (Option T)) (x : T)
    (hs : m.heap[d]? = some (some (A ++ some x :: B))) :
    ∃ m', destroy_at d A.length m = some m' ∧
      m'.heap.length = m.heap.length ∧
      m'.heap[d]? = some (some ((A ++ [none]) ++ B)) ∧
      (∀ c, c ≠ d → m'.heap[c]? = m.heap[c]?) ∧
      m'.trace = m.trace ++ [Event.dtor d A.length] := by
  have hdl := heap_lt_of_getElem? _ _ _ hs
  simp only [destroy_at, hs, getElem?_append_cons]
  refine ⟨_, rfl, by simp, ?_, ?_, rfl⟩
  · simp only [List.getElem?_set_self hdl, set_append_cons]
    simp
  · intro c hc
    simp only [List.getElem?_set_ne (Ne.symm hc)]

/-- The destructor loop over the live objects `rest` that follow a prefix `A`
of the block. -/
theorem destroy_loop_spec (d : Nat) (pad : List (Option T)) :
    ∀ (rest : List T) (A : List (Option T)) (m : Mem T),
    m.heap[d]? = some (some (A ++ (rest.map some ++ pad))) →
    ∃ m', destroy_loop (some d) rest.length A.length m = some m' ∧
      m'.heap.length = m.heap.length ∧
      m'.heap[d]? = some (some (A ++ (List.replicate rest.length none ++ pad))) ∧
      (∀ c, c ≠ d → m'.heap[c]? = m.heap[c]?) ∧
      m'.trace = m.trace ++ (List.range rest.length).map (fun j => Event.dtor d (A.length + j)) := by
  intro rest
  induction rest with
  | nil =>
    intro A m hs
    exact ⟨m, by simp [destroy_loop], rfl, by simpa using hs, fun _ _ => rfl, by simp⟩
  | cons x r ih =>
    intro A m hs
    obtain ⟨m1, h1, hlen1, hs1, hfr1, htr1⟩ :=
      destroy_at_slot m d A (r.map some ++ pad) x (by simpa using hs)
    obtain ⟨m', h2, hlen2, hs2, hfr2, htr2⟩ := ih (A ++ [none]) m1 hs1
    refine ⟨m', ?_, by rw [hlen2, hlen1], ?_, ?_, ?_⟩
    · simp only [List.length_cons, destroy_loop, h1]
      simpa using h2
    · simpa [List.replicate_succ, List.append_assoc] using hs2
    · intro c hc
      rw [hfr2 c hc, hfr1 c hc]
    · rw [htr2, htr1]
      simp only [List.length_cons, range_succ_map_shift, List.append_assoc,
        List.singleton_append, List.length_append, List.length_singleton]
      simp [Nat.add_assoc, Nat.add_comm 1]

/-- One copy construction into the first raw slot of a block. -/
theorem placement_copy_slot (env : Env T) (m : Mem T) (src : Ref T) (nb : Nat)
    (done : List T) (x : T) (k : Nat)
    (hs : src.read m = some x)
    (hd : m.heap[nb]? = some (some (done.map some ++ List.replicate (k + 1) none)))
    (hx : env.copyOk x = true) :
    ∃ m', placement_copy env nb done.length src m = .ok () m' ∧
      m'.heap.length = m.heap.length ∧
      m'.heap[nb]? = some (some ((done ++ [x]).map some ++ List.replicate k none)) ∧
      (∀ c, c ≠ nb → m'.heap[c]? = m.heap[c]?) ∧
      m'.trace = m.trace ++ [Event.copy_ctor nb done.length] := by
  have hnl := heap_lt_of_getElem? _ _ _ hd
  have e2 : done.length < (List.map some done ++ List.replicate (k + 1) (none : Option T)).length := by
    simp
  simp only [placement_copy, hs, hx, if_true, Mem.put, hd, e2]
  refine ⟨_, rfl, by simp, ?_, ?_, rfl⟩
  · rw [List.getElem?_set_self hnl]
    have := set_append_cons (List.map some done) (none : Option T) (some x) (List.replicate k none)
    simp only [List.length_map] at this
    simp [List.replicate_succ, this]
  · intro c hc
    simp only [List.getElem?_set_ne (Ne.symm hc)]

/-- One move construction from an object outside every buffer into the first
raw slot of a block. -/
theorem placement_move_ext (env : Env T) (m : Mem T) (nb : Nat)
    (done : List T) (x : T) (k : Nat)
    (hd : m.heap[nb]? = some (some (done.map some ++ List.replicate (k + 1) none)))
    (hx : env.moveOk x = true) :
    ∃ m', placement_move env nb done.length (Ref.ext x) m = .ok () m' ∧
      m'.heap.length = m.heap.length ∧
      m'.heap[nb]? = some (some ((done ++ [x]).map some ++ List.replicate k none)) ∧
      (∀ c, c ≠ nb → m'.heap[c]? = m.heap[c]?) ∧
      m'.trace = m.trace ++ [Event.move_ctor nb done.length] := by
  have hnl := heap_lt_of_getElem? _ _ _ hd
  have e2 : done.length < (List.map some done ++ List.replicate (k + 1) (none : Option T)).length := by
    simp
  simp only [placement_move, Ref.read, hx, if_true, Mem.put, hd, e2]
  refine ⟨_, rfl, by simp, ?_, ?_, rfl⟩
  · rw [List.getElem?_set_self hnl]
    have := set_append_cons (List.map some done) (none : Option T) (some x) (List.replicate k none)
    simp only [List.length_map] at this
    simp [List.replicate_succ, this]
  · intro c hc
    simp only [List.getElem?_set_ne (Ne.symm hc)]

/-- The copy loop of the copy constructor: it copies the longest prefix of
`rest` whose copies do not throw and never touches another block. -/
theorem copy_loop_spec (env : Env T) (d nb : Nat) (hne : d ≠ nb) (pad : List (Option T)) :
    ∀ (rest done : List T) (k : Nat) (m : Mem T),
    rest.length ≤ k →
    m.heap[d]? = some (some (done.map some ++ (rest.map some ++ pad))) →
    m.heap[nb]? = some (some (done.map some ++ List.replicate k none)) →
    ∃ m', copy_loop env (some d) nb rest.length done.length m
        = (if rest.all env.copyOk then Outcome.ok () m' else Outcome.throw Exn.elem_throw m') ∧
      m'.heap.length = m.heap.length ∧
      m'.heap[nb]? = some (some ((done ++ rest.takeWhile env.copyOk).map some
          ++ List.replicate (k - (rest.takeWhile env.copyOk).length) none)) ∧
      (∀ c, c ≠ nb → m'.heap[c]? = m.heap[c]?) ∧
      m'.trace = m.trace ++ (List.range (rest.takeWhile env.copyOk).length).map
          (fun j => Event.copy_ctor nb (done.length + j)) := by
  intro rest
  induction rest with
  | nil =>
    intro done k m _ _ hd
    exact ⟨m, by simp [copy_loop], rfl, by simpa using hd, fun _ _ => rfl, by simp⟩
  | cons x r ih =>
    intro done k m hk hs hd
    have hl : m.load d done.length = some x := by
      have := load_of_block m d (done.map some) (r.map some ++ pad) x (by simpa using hs)
      simpa using this
    cases hx : env.copyOk x with
    | false =>
      refine ⟨m, ?_, rfl, ?_, fun _ _ => rfl, ?_⟩
      · simp [copy_loop, placement_copy, Ref.read, hl, hx]
      · simpa [hx] using hd
      · simp [hx]
    | true =>
      obtain ⟨k', rfl⟩ : ∃ k', k = k' + 1 := ⟨k - 1, by simp at hk; omega⟩
      obtain ⟨m1, h1, hlen1, hd1, hfr1, htr1⟩ :=
        placement_copy_slot env m (Ref.slot d done.length) nb done x k' hl hd hx
      have hs1 : m1.heap[d]? = some (some ((done ++ [x]).map some ++ (r.map some ++ pad))) := by
        rw [hfr1 d hne, hs]
        simp
      obtain ⟨m', h2, hlen2, hd2, hfr2, htr2⟩ :=
        ih (done ++ [x]) k' m1 (by simp at hk; omega) hs1 hd1
      refine ⟨m', ?_, by rw [hlen2, hlen1], ?_, ?_, ?_⟩
      · simp only [List.length_cons, copy_loop, h1]
        simp only [List.length_append, List.length_singleton] at h2
        rw [h2]
        simp [hx]
      · simpa [hx, List.append_assoc] using hd2
      · intro c hc
        rw [hfr2 c hc, hfr1 c hc]
      · rw [htr2, htr1]
        simp only [hx, List.takeWhile_cons_of_pos, List.length_cons, range_succ_map_shift,
          List.append_assoc, List.singleton_append, List.length_append, List.length_singleton]
        simp [Nat.add_assoc, Nat.add_comm 1]

theorem all_of_forall (p : T → Bool) (xs : List T) (h : ∀ x ∈ xs, p x = true) :
    xs.all p = true := by
  simpa using h

theorem takeWhile_of_forall (p : T → Bool) (xs : List T) (h : ∀ x ∈ xs, p x = true) :
    xs.takeWhile p = xs := by
  induction xs with
  | nil => rfl
  | cons x r ih =>
    have hx : p x = true := h x (List.mem_cons_self _ _)
    rw [List.takeWhile_cons_of_pos hx, ih (fun y hy => h y (List.mem_cons_of_mem _ hy))]

/-- Growth of a well-formed vector when nothing throws. -/
theorem reallocate_spec (env : Env T) (m : Mem T) (v : Vector) (xs : List T) (n : Nat)
    (hown : Owns m v xs) (hn : xs.length ≤ n)
    (halloc : env.allocOk m.heap.length n = true)
    (hmv : ∀ x ∈ xs, env.moveOk x = true) :
    ∃ m', Vector.reallocate env n v m
        = .ok () ({ v with data := some m.heap.length, m_capacity := n }, m') ∧
      m'.heap.length = m.heap.length + 1 ∧
      m'.heap[m.heap.length]? = some (some (blockOf n xs)) ∧
      (∀ c, c < m.heap.length → some c ≠ v.data → m'.heap[c]? = m.heap[c]?) ∧
      (∀ d, v.data = some d → m'.heap[d]? = some none) ∧
      m'.trace = m.trace ++ ([Event.alloc m.heap.length n]
        ++ (List.range xs.length).map (fun j => Event.move_ctor m.heap.length j)
        ++ dtor_trace v.data xs.length) := by
  obtain ⟨hsz, hcap, hblk⟩ := hown
  cases hdata : v.data with
  | none =>
    rw [hdata] at hblk
    simp only at hblk
    have hx0 : xs = [] := by
      apply List.eq_nil_of_length_eq_zero
      omega
    subst hx0
    refine ⟨{ heap := m.heap ++ [some (List.replicate n none)],
              trace := m.trace ++ [Event.alloc m.heap.length n] }, ?_, ?_, ?_, ?_, ?_, ?_⟩
    · simp only [Vector.reallocate, operator_new, halloc, if_true, hsz, List.length_nil, hdata,
        move_loop, destroy_loop, operator_delete]
    · simp
    · simp [blockOf]
    · intro c hc _
      simp [List.getElem?_append_left hc]
    · intro d hd
      cases hd
    · simp [dtor_trace]
  | some d =>
    rw [hdata] at hblk
    simp only at hblk
    have hdl := heap_lt_of_getElem? _ _ _ hblk
    have hne : d ≠ m.heap.length := by omega
    -- the state after `operator new`
    let m1 : Mem T := { heap := m.heap ++ [some (List.replicate n none)],
                        trace := m.trace ++ [Event.alloc m.heap.length n] }
    have hs1 : m1.heap[d]? = some (some (([] : List T).map (fun y => some (env.residue y))
        ++ (xs.map some ++ List.replicate (v.m_capacity - xs.length) none))) := by
      simp only [m1, List.getElem?_append_left hdl, hblk, blockOf]
      simp
    have hd1 : m1.heap[m.heap.length]? = some (some (([] : List T).map some ++ List.replicate n none)) := by
      simp [m1]
    obtain ⟨m2, h2, hlen2, hs2, hd2, hfr2, htr2⟩ :=
      move_loop_spec env d m.heap.length hne _ xs [] n m1 hn hs1 hd1
    rw [all_of_forall _ _ hmv] at h2
    rw [takeWhile_of_forall _ _ hmv] at hs2 hd2 htr2
    simp only [if_true, List.length_nil, List.nil_append, List.drop_length, List.map_nil,
      Nat.zero_add] at h2 hs2 hd2 htr2
    have hs2' : m2.heap[d]? = some (some (([] : List (Option T)) ++ ((xs.map env.residue).map some
        ++ List.replicate (v.m_capacity - xs.length) none))) := by
      rw [hs2]
      simp [List.map_map, Function.comp_def]
    obtain ⟨m3, h3, hlen3, hs3, hfr3, htr3⟩ := destroy_loop_spec d _ (xs.map env.residue) [] m2 hs2'
    simp only [List.length_map, List.length_nil, List.nil_append, Nat.zero_add] at h3 hs3 htr3
    refine ⟨{ heap := m3.heap.set d none, trace := m3.trace ++ [Event.free d] }, ?_, ?_, ?_, ?_, ?_, ?_⟩
    · simp only [Vector.reallocate, operator_new, halloc, if_true, hsz, hdata]
      rw [show ({ heap := m.heap ++ [some (List.replicate n none)],
                  trace := m.trace ++ [Event.alloc m.heap.length n] } : Mem T) = m1 from rfl, h2]
      simp only [h3, operator_delete, hs3]
    · simp [hlen3, hlen2, m1]
    · simp only [List.getElem?_set_ne hne, hfr3 _ (Ne.symm hne), hd2, blockOf]
    · intro c hc hcd
      have hcd' : c ≠ d := fun h => hcd (by rw [h])
      simp only [List.getElem?_set_ne (Ne.symm hcd'), hfr3 _ hcd', hfr2 _ hcd' (by omega)]
      simp [m1, List.getElem?_append_left hc]
    · intro d' hd'
      cases hd'
      have : d < m3.heap.length := by rw [hlen3, hlen2]; simp [m1]; omega
      simp [List.getElem?_set_self this]
    · simp only [htr3, htr2, m1]
      simp [List.append_assoc, dtor_trace]

/-- The growth step at the head of both `push_back` overloads: afterwards the
buffer has a raw slot at index `m_size`. -/
theorem grow_spec (env : Env T) (m : Mem T) (v : Vector) (xs : List T)
    (hown : Owns m v xs)
    (halloc : ∀ k n, env.allocOk k n = true)
    (hmv : ∀ x ∈ xs, env.moveOk x = true) :
    ∃ b k m1,
      (if v.m_size ≥ v.m_capacity then
          Vector.reallocate env (if v.m_capacity = 0 then 1 else v.m_capacity * 2) v m
        else Outcome.ok () (v, m))
        = .ok () ({ v with data := some b,
                           m_capacity := if v.m_size ≥ v.m_capacity then grown v.m_capacity
                                         else v.m_capacity }, m1) ∧
      (if v.m_size ≥ v.m_capacity then grown v.m_capacity else v.m_capacity) = xs.length + (k + 1) ∧
      some b = (if v.m_size ≥ v.m_capacity then some m.heap.length else v.data) ∧
      m1.heap.length = (if v.m_size ≥ v.m_capacity then m.heap.length + 1 else m.heap.length) ∧
      m1.heap[b]? = some (some (xs.map some ++ List.replicate (k + 1) none)) ∧
      (∀ c, c < m.heap.length → some c ≠ v.data → m1.heap[c]? = m.heap[c]?) ∧
      (v.m_size ≥ v.m_capacity → ∀ d, v.data = some d → m1.heap[d]? = some none) ∧
      m1.trace = m.trace ++ (if v.m_size ≥ v.m_capacity then
        ([Event.alloc m.heap.length (grown v.m_capacity)]
          ++ (List.range xs.length).map (fun j => Event.move_ctor m.heap.length j)
          ++ dtor_trace v.data xs.length)
        else []) := by
  have hown' := hown
  obtain ⟨hsz, hcap, hblk⟩ := hown
  by_cases hfull : v.m_size ≥ v.m_capacity
  · have hn : xs.length ≤ grown v.m_capacity := by
      unfold grown
      split <;> omega
    obtain ⟨m', h1, hlen, hnew, hfr, hold, htr⟩ :=
      reallocate_spec env m v xs (grown v.m_capacity) hown' hn (halloc _ _) hmv
    have hk : grown v.m_capacity = xs.length + (grown v.m_capacity - xs.length - 1 + 1) := by
      unfold grown
      split <;> omega
    refine ⟨m.heap.length, grown v.m_capacity - xs.length - 1, m', ?_, ?_, ?_, ?_, ?_, ?_, ?_, ?_⟩
    · simp only [hfull, if_true]
      exact h1
    · simp only [hfull, if_true]
      exact hk
    · simp [hfull]
    · simp [hfull, hlen]
    · have e : List.replicate (grown v.m_capacity - xs.length) (none : Option T)
          = List.replicate (grown v.m_capacity - xs.length - 1 + 1) none := by
        congr 1
        omega
      rw [hnew, blockOf, e]
    · exact hfr
    · intro _
      exact hold
    · simp only [hfull, if_true]
      exact htr
  · have hlt : xs.length < v.m_capacity := by omega
    cases hdata : v.data with
    | none =>
      rw [hdata] at hblk
      simp only at hblk
      omega
    | some d =>
      rw [hdata] at hblk
      simp only at hblk
      refine ⟨d, v.m_capacity - xs.length - 1, m, ?_, ?_, ?_, ?_, ?_, ?_, ?_, ?_⟩
      · simp only [hfull, if_false]
        rw [← hdata]
      · simp only [hfull, if_false]
        omega
      · simp [hfull]
      · simp [hfull]
      · have e : List.replicate (v.m_capacity - xs.length) (none : Option T)
            = List.replicate (v.m_capacity - xs.length - 1 + 1) none := by
          congr 1
          omega
        rw [hblk, blockOf, e]
      · intro c _ _
        rfl
      · intro h
        exact absurd h hfull
      · simp [hfull]

/-- What one `push_back` call does to a well-formed vector when nothing
throws: the value is appended, the capacity follows the growth policy, and no
block of another container is touched. -/
theorem push_spec (env : Env T) (m : Mem T) (v : Vector) (xs : List T) (a : Arg T)
    (hown : Owns m v xs) (hnf : env.nofail) :
    ∃ b m', Vector.push env a v m
        = .ok () ({ data := some b, m_size := v.m_size + 1,
                    m_capacity := if v.m_size ≥ v.m_capacity then grown v.m_capacity
                                  else v.m_capacity }, m') ∧
      Owns m' { data := some b, m_size := v.m_size + 1,
                m_capacity := if v.m_size ≥ v.m_capacity then grown v.m_capacity
                              else v.m_capacity } (xs ++ [a.val]) ∧
      some b = (if v.m_size ≥ v.m_capacity then some m.heap.length else v.data) ∧
      m'.heap.length = (if v.m_size ≥ v.m_capacity then m.heap.length + 1 else m.heap.length) ∧
      (∀ c, c < m.heap.length → some c ≠ v.data → m'.heap[c]? = m.heap[c]?) ∧
      (v.m_size ≥ v.m_capacity → ∀ d, v.data = some d → m'.heap[d]? = some none) ∧
      m'.trace = m.trace ++ (if v.m_size ≥ v.m_capacity then
        ([Event.alloc m.heap.length (grown v.m_capacity)]
          ++ (List.range xs.length).map (fun j => Event.move_ctor m.heap.length j)
          ++ dtor_trace v.data xs.length)
        else []) ++ [a.event b xs.length] := by
  obtain ⟨hal, hcp, hmv⟩ := hnf
  obtain ⟨b, k, m1, hg, hcap, hb, hlen, hblk, hfr, hold, htr⟩ :=
    grow_spec env m v xs hown hal (fun x _ => hmv x)
  have hsz : v.m_size = xs.length := hown.1
  have hbl : b < m1.heap.length := heap_lt_of_getElem? _ _ _ hblk
  have hfr' : ∀ (m2 : Mem T), (∀ c, c ≠ b → m2.heap[c]? = m1.heap[c]?) →
      ∀ c, c < m.heap.length → some c ≠ v.data → m2.heap[c]? = m.heap[c]? := by
    intro m2 h2 c hc hcd
    have hcb : c ≠ b := by
      intro h
      subst h
      by_cases hfull : v.m_size ≥ v.m_capacity
      · simp only [hfull, if_true] at hb
        cases hb
        omega
      · simp only [hfull, if_false] at hb
        exact hcd hb
    rw [h2 c hcb, hfr c hc hcd]
  have hold' : ∀ (m2 : Mem T), (∀ c, c ≠ b → m2.heap[c]? = m1.heap[c]?) →
      v.m_size ≥ v.m_capacity → ∀ d, v.data = some d → m2.heap[d]? = some none := by
    intro m2 h2 hfull d hd
    have hdb : d ≠ b := by
      intro h
      subst h
      have h1 := hold hfull d hd
      rw [hblk] at h1
      cases h1
    rw [h2 d hdb, hold hfull d hd]
  have hown2 : ∀ (m2 : Mem T),
      m2.heap[b]? = some (some ((xs ++ [a.val]).map some ++ List.replicate k none)) →
      Owns m2 { data := some b, m_size := v.m_size + 1,
                m_capacity := if v.m_size ≥ v.m_capacity then grown v.m_capacity
                              else v.m_capacity } (xs ++ [a.val]) := by
    intro m2 h2
    refine ⟨by simp [hsz], ?_, ?_⟩
    · show (xs ++ [a.val]).length ≤ (if v.m_size ≥ v.m_capacity then grown v.m_capacity
        else v.m_capacity)
      rw [hcap, List.length_append, List.length_singleton]
      omega
    simp only
    rw [h2, blockOf, hcap]
    simp only [List.length_append, List.length_singleton]
    have e : xs.length + (k + 1) - (xs.length + 1) = k := by omega
    rw [e]
  cases a with
  | lvalue x =>
    obtain ⟨m2, h2, hlen2, hblk2, hfr2, htr2⟩ :=
      placement_copy_slot env m1 (Ref.ext x) b xs x k rfl hblk (hcp x)
    refine ⟨b, m2, ?_, hown2 m2 hblk2, hb, by rw [hlen2, hlen], hfr' m2 hfr2, hold' m2 hfr2, ?_⟩
    · simp only [Vector.push, Vector.push_back]
      rw [hg]
      simp only [hsz, h2]
    · rw [htr2, htr]
      rfl
  | rvalue x =>
    obtain ⟨m2, h2, hlen2, hblk2, hfr2, htr2⟩ :=
      placement_move_ext env m1 b xs x k hblk (hmv x)
    refine ⟨b, m2, ?_, hown2 m2 hblk2, hb, by rw [hlen2, hlen], hfr' m2 hfr2, hold' m2 hfr2, ?_⟩
    · simp only [Vector.push, Vector.push_back_move]
      rw [hg]
      simp only [hsz, h2]
    · rw [htr2, htr]
      rfl

theorem owns_default (m : Mem T) : Owns m Vector.default_ctor ([] : List T) :=
  ⟨rfl, Nat.le_refl _, rfl⟩

/-- A well-formed vector gives access to each of its elements. -/
theorem owns_load (m : Mem T) (v : Vector) (xs : List T) (hown : Owns m v xs)
    (i : Nat) (hi : i < xs.length) :
    ∃ b, v.data = some b ∧ m.load b i = some (xs.get ⟨i, hi⟩) := by
  obtain ⟨hsz, hcap, hblk⟩ := hown
  cases hdata : v.data with
  | none =>
    rw [hdata] at hblk
    simp only at hblk
    omega
  | some b =>
    rw [hdata] at hblk
    simp only at hblk
    refine ⟨b, rfl, ?_⟩
    have e : (blockOf v.m_capacity xs)[i]? = some (some (xs.get ⟨i, hi⟩)) := by
      rw [blockOf, List.getElem?_append_left (by simpa using hi)]
      simp [List.getElem?_eq_getElem hi]
    simp only [Mem.load, hblk, e]

theorem capInv_step (size cap : Nat) (h : capInv size cap) :
    capInv (size + 1) (if size ≥ cap then grown cap else cap) := by
  rcases h with ⟨h1, h2⟩ | ⟨k, hk, hle, hlt⟩
  · subst h1 h2
    exact Or.inr ⟨0, by simp [grown], by simp [grown], by simp [grown]⟩
  · by_cases hfull : size ≥ cap
    · have hc : cap ≠ 0 := by
        rw [hk]
        exact Nat.pos_iff_ne_zero.mp (Nat.pow_pos (by decide))
      refine Or.inr ⟨k + 1, ?_, ?_, ?_⟩
      · simp only [hfull, if_true, grown, hc, if_false]
        rw [hk, Nat.pow_succ]
      · simp only [hfull, if_true, grown, hc, if_false]
        omega
      · simp only [hfull, if_true, grown, hc, if_false]
        omega
    · refine Or.inr ⟨k, ?_, ?_, ?_⟩
      · simp only [hfull, if_false]
        exact hk
      · simp only [hfull, if_false]
        omega
      · simp only [hfull, if_false]
        omega

theorem capInv_least (size cap : Nat) (hpos : 1 ≤ size) (h : capInv size cap) :
    ∃ k, cap = 2 ^ k ∧ size ≤ 2 ^ k ∧ ∀ j, size ≤ 2 ^ j → 2 ^ k ≤ 2 ^ j := by
  rcases h with ⟨h1, _⟩ | ⟨k, hk, hle, hlt⟩
  · omega
  · refine ⟨k, hk, hk ▸ hle, ?_⟩
    intro j hj
    have h2 : 2 ^ k < 2 ^ (j + 1) := by
      rw [Nat.pow_succ, ← hk]
      omega
    have h3 : k < j + 1 := (Nat.pow_lt_pow_iff_right (by decide)).mp h2
    exact Nat.pow_le_pow_right (by decide) (by omega)

/-- A sequence of appends to a well-formed vector when nothing throws. -/
theorem push_all_spec (env : Env T) (hnf : env.nofail) :
    ∀ (args : List (Arg T)) (v : Vector) (m : Mem T) (xs : List T), Owns m v xs →
    ∃ v' m', push_all env args v m = .ok () (v', m') ∧
      Owns m' v' (xs ++ args.map Arg.val) ∧
      (capInv v.m_size v.m_capacity → capInv v'.m_size v'.m_capacity) ∧
      caps_observed env args v m = capList v.m_size v.m_capacity args.length := by
  intro args
  induction args with
  | nil =>
    intro v m xs hown
    exact ⟨v, m, rfl, by simpa using hown, id, rfl⟩
  | cons a rest ih =>
    intro v m xs hown
    obtain ⟨b, m1, h1, hown1, -, -, -, -, -⟩ := push_spec env m v xs a hown hnf
    obtain ⟨v', m', h2, hown2, hcap2, hobs2⟩ := ih _ m1 (xs ++ [a.val]) hown1
    refine ⟨v', m', ?_, ?_, ?_, ?_⟩
    · simp only [push_all, h1, h2]
    · simpa using hown2
    · intro hc
      exact hcap2 (capInv_step _ _ hc)
    · simp only [caps_observed, h1, hobs2, List.length_cons, capList]

theorem intEnv_nofail : intEnv.nofail := ⟨fun _ _ => rfl, fun _ => rfl, fun _ => rfl⟩

theorem debugObjEnv_nofail : debugObjEnv.nofail := ⟨fun _ _ => rfl, fun _ => rfl, fun _ => rfl⟩

theorem reallocate_ok_fields (env : Env T) (n : Nat) (v v' : Vector) (m m' : Mem T) (u : Unit)
    (h : Vector.reallocate env n v m = .ok u (v', m')) :
    v'.m_size = v.m_size ∧ v'.m_capacity = n := by
  unfold Vector.reallocate at h
  repeat' split at h
  all_goals
    cases h
    try exact ⟨rfl, rfl⟩

theorem reallocate_throw_fields (env : Env T) (n : Nat) (v v' : Vector) (m m' : Mem T) (e : Exn)
    (h : Vector.reallocate env n v m = .throw e (v', m')) : v' = v := by
  unfold Vector.reallocate at h
  repeat' split at h
  all_goals
    cases h
    try rfl

/-- The fields of `*this` after the growth step of `push_back`. -/
theorem grow_fields (env : Env T) (v v' : Vector) (m m' : Mem T) (u : Unit)
    (h : (if v.m_size ≥ v.m_capacity then
          Vector.reallocate env (if v.m_capacity = 0 then 1 else v.m_capacity * 2) v m
        else Outcome.ok () (v, m)) = .ok u (v', m')) :
    v'.m_size = v.m_size ∧
      v'.m_capacity = (if v.m_size ≥ v.m_capacity then grown v.m_capacity else v.m_capacity) := by
  by_cases hfull : v.m_size ≥ v.m_capacity
  · simp only [hfull, if_true] at h ⊢
    exact reallocate_ok_fields env _ v v' m m' u h
  · simp only [hfull, if_false] at h ⊢
    simp only [Outcome.ok.injEq, Prod.mk.injEq] at h
    obtain ⟨-, h1, -⟩ := h
    subst h1
    exact ⟨rfl, rfl⟩

theorem grow_throw_fields (env : Env T) (v v' : Vector) (m m' : Mem T) (e : Exn)
    (h : (if v.m_size ≥ v.m_capacity then
          Vector.reallocate env (if v.m_capacity = 0 then 1 else v.m_capacity * 2) v m
        else Outcome.ok () (v, m)) = .throw e (v', m')) : v' = v := by
  by_cases hfull : v.m_size ≥ v.m_capacity
  · simp only [hfull, if_true] at h
    exact reallocate_throw_fields env _ v v' m m' e h
  · simp only [hfull, if_false] at h
    cases h

/-- Whatever `push_back` does short of undefined behaviour, it keeps
`m_size ≤ m_capacity`. -/
theorem push_size_le_capacity (env : Env T) (a : Arg T) (v v' : Vector) (m m' : Mem T)
    (hv : v.m_size ≤ v.m_capacity)
    (h : (∃ u, Vector.push env a v m = .ok u (v', m')) ∨
         (∃ e, Vector.push env a v m = .throw e (v', m'))) :
    v'.m_size ≤ v'.m_capacity := by
  have key : ∀ (v1 : Vector),
      v1.m_size = v.m_size ∧
        v1.m_capacity = (if v.m_size ≥ v.m_capacity then grown v.m_capacity else v.m_capacity) →
      v1.m_size + 1 ≤ v1.m_capacity := by
    intro v1 ⟨h1, h2⟩
    rw [h1, h2]
    unfold grown
    split <;> [split; skip] <;> omega
  cases a with
  | lvalue x =>
    simp only [Vector.push, Vector.push_back] at h
    split at h
    · rename_i e s hg
      rcases h with ⟨u, h⟩ | ⟨e', h⟩
      · cases h
      · cases h
        rw [grow_throw_fields env v v' m m' e hg]
        exact hv
    · rcases h with ⟨u, h⟩ | ⟨e', h⟩ <;> cases h
    · rename_i u self1 m1 hg
      have hf := key self1 (grow_fields env v self1 m m1 u hg)
      split at h
      · rcases h with ⟨u, h⟩ | ⟨e', h⟩ <;> cases h
      · split at h
        · rcases h with ⟨u, h⟩ | ⟨e', h⟩
          · cases h
          · cases h
            omega
        · rcases h with ⟨u, h⟩ | ⟨e', h⟩ <;> cases h
        · rcases h with ⟨u, h⟩ | ⟨e', h⟩
          · cases h
            exact hf
          · cases h
  | rvalue x =>
    simp only [Vector.push, Vector.push_back_move] at h
    split at h
    · rename_i e s hg
      rcases h with ⟨u, h⟩ | ⟨e', h⟩
      · cases h
      · cases h
        rw [grow_throw_fields env v v' m m' e hg]
        exact hv
    · rcases h with ⟨u, h⟩ | ⟨e', h⟩ <;> cases h
    · rename_i u self1 m1 hg
      have hf := key self1 (grow_fields env v self1 m m1 u hg)
      split at h
      · rcases h with ⟨u, h⟩ | ⟨e', h⟩ <;> cases h
      · split at h
        · rcases h with ⟨u, h⟩ | ⟨e', h⟩
          · cases h
          · cases h
            omega
        · rcases h with ⟨u, h⟩ | ⟨e', h⟩ <;> cases h
        · rcases h with ⟨u, h⟩ | ⟨e', h⟩
          · cases h
            exact hf
          · cases h

theorem copy_ctor_ok_fields (env : Env T) (o v : Vector) (m m' : Mem T)
    (h : Vector.copy_ctor env o m = .ok v m') :
    v.m_size = o.m_size ∧ v.m_capacity = o.m_capacity := by
  unfold Vector.copy_ctor at h
  repeat' split at h
  all_goals
    cases h
    try exact ⟨rfl, rfl⟩

theorem copy_assign_size_le_capacity (env : Env T) (p q : Nat) (o v v' : Vector) (m m' : Mem T)
    (hv : v.m_size ≤ v.m_capacity) (ho : o.m_size ≤ o.m_capacity)
    (h : (∃ u, Vector.copy_assign env p q o v m = .ok u (v', m')) ∨
         (∃ e, Vector.copy_assign env p q o v m = .throw e (v', m'))) :
    v'.m_size ≤ v'.m_capacity := by
  unfold Vector.copy_assign at h
  split at h
  · rcases h with ⟨u, h⟩ | ⟨e, h⟩
    · cases h
      exact hv
    · cases h
  · split at h
    · rcases h with ⟨u, h⟩ | ⟨e, h⟩
      · cases h
      · cases h
        exact hv
    · rcases h with ⟨u, h⟩ | ⟨e, h⟩ <;> cases h
    · rename_i temp m1 hc
      obtain ⟨h1, h2⟩ := copy_ctor_ok_fields env o temp m m1 hc
      dsimp only at h
      split at h
      · rcases h with ⟨u, h⟩ | ⟨e, h⟩ <;> cases h
      · rcases h with ⟨u, h⟩ | ⟨e, h⟩
        · cases h
          show temp.m_size ≤ temp.m_capacity
          omega
        · cases h

theorem move_assign_size_le_capacity (p q : Nat) (o v v' o' : Vector) (m m' : Mem T)
    (hv : v.m_size ≤ v.m_capacity) (ho : o.m_size ≤ o.m_capacity)
    (h : (∃ u, Vector.move_assign p q o v m = .ok u ((v', o'), m')) ∨
         (∃ e, Vector.move_assign p q o v m = .throw e ((v', o'), m'))) :
    v'.m_size ≤ v'.m_capacity ∧ o'.m_size ≤ o'.m_capacity := by
  unfold Vector.move_assign at h
  split at h
  · rcases h with ⟨u, h⟩ | ⟨e, h⟩
    · cases h
      exact ⟨hv, ho⟩
    · cases h
  · repeat' split at h
    all_goals
      rcases h with ⟨u, h⟩ | ⟨e, h⟩ <;> cases h <;> exact ⟨ho, Nat.le_refl 0⟩

theorem vec?_iff (st : Store T) (p : Nat) (v : Vector) :
    st.vec? p = some v ↔ st.vecs[p]? = some (some v) := by
  unfold Store.vec?
  split
  · rename_i w hw
    rw [hw]
    simp
  · rename_i hw
    constructor
    · intro h
      cases h
    · intro h
      exact absurd h (hw v)

theorem lookup_set {α : Type} (l : List (Option α)) (q : Nat) (w : Option α) (p : Nat) (v : α)
    (h : (l.set q w)[p]? = some (some v)) : w = some v ∨ l[p]? = some (some v) := by
  by_cases hpq : q = p
  · subst hpq
    by_cases hl : q < l.length
    · rw [List.getElem?_set_self hl] at h
      exact Or.inl (Option.some.inj h)
    · rw [List.getElem?_eq_none (by simpa using hl)] at h
      cases h
  · rw [List.getElem?_set_ne hpq] at h
    exact Or.inr h

theorem lookup_append {α : Type} (l : List (Option α)) (w : Option α) (p : Nat) (v : α)
    (h : (l ++ [w])[p]? = some (some v)) : w = some v ∨ l[p]? = some (some v) := by
  by_cases hl : p < l.length
  · rw [List.getElem?_append_left hl] at h
    exact Or.inr h
  · rw [List.getElem?_append_right (by omega)] at h
    by_cases h0 : p - l.length = 0
    · rw [h0] at h
      exact Or.inl (by simpa using h)
    · obtain ⟨k, hk⟩ : ∃ k, p - l.length = k + 1 := ⟨p - l.length - 1, by omega⟩
      rw [hk] at h
      simp at h

theorem step_size_le_capacity (env : Env T) (st st' : Store T) (op : Op T)
    (hinv : SizeLeCap st) (h : step env st op = some st') : SizeLeCap st' := by
  cases op with
  | decl =>
    simp only [step, Option.some.injEq] at h
    subst h
    intro p v hv
    rcases lookup_append _ _ _ _ hv with hw | hw
    · cases hw
      exact Nat.le_refl 0
    · exact hinv p v hw
  | copy_decl src =>
    simp only [step] at h
    split at h
    · cases h
    · rename_i o ho
      have hole := hinv src o ((vec?_iff st src o).mp ho)
      split at h
      · rename_i v m hc
        cases h
        obtain ⟨h1, h2⟩ := copy_ctor_ok_fields env o v st.mem m hc
        intro p w hw
        rcases lookup_append _ _ _ _ hw with hw | hw
        · cases hw
          omega
        · exact hinv p w hw
      · cases h
        exact hinv
      · cases h
  | move_decl src =>
    simp only [step, Vector.move_ctor] at h
    split at h
    · cases h
    · rename_i o ho
      have hole := hinv src o ((vec?_iff st src o).mp ho)
      cases h
      intro p w hw
      rcases lookup_append _ _ _ _ hw with hw | hw
      · cases hw
        exact hole
      · rcases lookup_set _ _ _ _ _ hw with hw | hw
        · cases hw
          exact Nat.le_refl 0
        · exact hinv p w hw
  | copy_assign dst src =>
    simp only [step] at h
    split at h
    · rename_i self o hs ho
      have hsle := hinv dst self ((vec?_iff st dst self).mp hs)
      have hole := hinv src o ((vec?_iff st src o).mp ho)
      split at h
      · rename_i u self1 m hc
        cases h
        have := copy_assign_size_le_capacity env dst src o self self1 st.mem m hsle hole
          (Or.inl ⟨u, hc⟩)
        intro p w hw
        rcases lookup_set _ _ _ _ _ hw with hw | hw
        · cases hw
          exact this
        · exact hinv p w hw
      · rename_i e self1 m hc
        cases h
        have := copy_assign_size_le_capacity env dst src o self self1 st.mem m hsle hole
          (Or.inr ⟨e, hc⟩)
        intro p w hw
        rcases lookup_set _ _ _ _ _ hw with hw | hw
        · cases hw
          exact this
        · exact hinv p w hw
      · cases h
    · cases h
  | move_assign dst src =>
    simp only [step] at h
    split at h
    · rename_i self o hs ho
      have hsle := hinv dst self ((vec?_iff st dst self).mp hs)
      have hole := hinv src o ((vec?_iff st src o).mp ho)
      split at h
      · rename_i u self1 o1 m hc
        cases h
        have := move_assign_size_le_capacity dst src o self self1 o1 st.mem m hsle hole
          (Or.inl ⟨u, hc⟩)
        intro p w hw
        rcases lookup_set _ _ _ _ _ hw with hw | hw
        · cases hw
          exact this.2
        · rcases lookup_set _ _ _ _ _ hw with hw | hw
          · cases hw
            exact this.1
          · exact hinv p w hw
      · rename_i e self1 o1 m hc
        cases h
        have := move_assign_size_le_capacity dst src o self self1 o1 st.mem m hsle hole
          (Or.inr ⟨e, hc⟩)
        intro p w hw
        rcases lookup_set _ _ _ _ _ hw with hw | hw
        · cases hw
          exact this.2
        · rcases lookup_set _ _ _ _ _ hw with hw | hw
          · cases hw
            exact this.1
          · exact hinv p w hw
      · cases h
    · cases h
  | push_back q a =>
    simp only [step] at h
    split at h
    · cases h
    · rename_i self hs
      have hsle := hinv q self ((vec?_iff st q self).mp hs)
      split at h
      · rename_i u self1 m hc
        cases h
        have := push_size_le_capacity env a self self1 st.mem m hsle (Or.inl ⟨u, hc⟩)
        intro p w hw
        rcases lookup_set _ _ _ _ _ hw with hw | hw
        · cases hw
          exact this
        · exact hinv p w hw
      · rename_i e self1 m hc
        cases h
        have := push_size_le_capacity env a self self1 st.mem m hsle (Or.inr ⟨e, hc⟩)
        intro p w hw
        rcases lookup_set _ _ _ _ _ hw with hw | hw
        · cases hw
          exact this
        · exact hinv p w hw
      · cases h
  | index_store q i x =>
    simp only [step] at h
    repeat' split at h
    all_goals
      cases h
      try exact hinv
  | at_store q i x =>
    simp only [step] at h
    repeat' split at h
    all_goals
      cases h
      try exact hinv
  | end_scope q =>
    simp only [step] at h
    repeat' split at h
    all_goals
      cases h
    intro p w hw
    rcases lookup_set _ _ _ _ _ hw with hw | hw
    · cases hw
    · exact hinv p w hw

theorem run_size_le_capacity (env : Env T) :
    ∀ (ops : List (Op T)) (st st' : Store T), SizeLeCap st → run env ops st = some st' →
      SizeLeCap st' := by
  intro ops
  induction ops with
  | nil =>
    intro st st' hinv h
    cases h
    exact hinv
  | cons op rest ih =>
    intro st st' hinv h
    simp only [run] at h
    split at h
    · cases h
    · rename_i st1 h1
      exact ih st1 st' (step_size_le_capacity env st st1 op hinv h1) h

/-- A vector stays well formed while its own block is left alone. -/
theorem owns_frame (m m' : Mem T) (v : Vector) (xs : List T) (hown : Owns m v xs)
    (hfr : ∀ d, v.data = some d → m'.heap[d]? = m.heap[d]?) : Owns m' v xs := by
  obtain ⟨hsz, hcap, hblk⟩ := hown
  refine ⟨hsz, hcap, ?_⟩
  cases hdata : v.data with
  | none =>
    rw [hdata] at hblk
    exact hblk
  | some d =>
    rw [hdata] at hblk
    simp only at hblk ⊢
    rw [hfr d hdata, hblk]

theorem owns_data_lt (m : Mem T) (v : Vector) (xs : List T) (hown : Owns m v xs)
    (d : Nat) (hd : v.data = some d) : d < m.heap.length := by
  obtain ⟨-, -, hblk⟩ := hown
  rw [hd] at hblk
  exact heap_lt_of_getElem? _ _ _ hblk

/-- The copy constructor on a well-formed source: it allocates a block of the
source's capacity, copies the longest prefix whose copies do not throw, and
leaves every existing block as it was. -/
theorem copy_ctor_spec (env : Env T) (m : Mem T) (a : Vector) (xs : List T)
    (hown : Owns m a xs) (halloc : env.allocOk m.heap.length a.m_capacity = true) :
    ∃ m', Vector.copy_ctor env a m
        = (if xs.all env.copyOk then
            Outcome.ok { data := some m.heap.length, m_size := a.m_size,
                         m_capacity := a.m_capacity } m'
          else Outcome.throw Exn.elem_throw m') ∧
      m'.heap.length = m.heap.length + 1 ∧
      (∀ c, c < m.heap.length → m'.heap[c]? = m.heap[c]?) ∧
      m'.heap[m.heap.length]? = some (some ((xs.takeWhile env.copyOk).map some
          ++ List.replicate (a.m_capacity - (xs.takeWhile env.copyOk).length) none)) ∧
      m'.trace = m.trace ++ (Event.alloc m.heap.length a.m_capacity
        :: (List.range (xs.takeWhile env.copyOk).length).map
            (fun j => Event.copy_ctor m.heap.length j)) := by
  obtain ⟨hsz, hcap, hblk⟩ := hown
  cases hdata : a.data with
  | none =>
    rw [hdata] at hblk
    simp only at hblk
    have hx0 : xs = [] := by
      apply List.eq_nil_of_length_eq_zero
      omega
    subst hx0
    refine ⟨{ heap := m.heap ++ [some (List.replicate a.m_capacity none)],
              trace := m.trace ++ [Event.alloc m.heap.length a.m_capacity] }, ?_, ?_, ?_, ?_, ?_⟩
    · simp only [Vector.copy_ctor, operator_new, halloc, if_true, hsz, List.length_nil,
        copy_loop, List.all_nil]
    · simp
    · intro c hc
      simp [List.getElem?_append_left hc]
    · simp
    · simp
  | some d =>
    rw [hdata] at hblk
    simp only at hblk
    have hdl := heap_lt_of_getElem? _ _ _ hblk
    have hne : d ≠ m.heap.length := by omega
    let m1 : Mem T := { heap := m.heap ++ [some (List.replicate a.m_capacity none)],
                        trace := m.trace ++ [Event.alloc m.heap.length a.m_capacity] }
    have hs1 : m1.heap[d]? = some (some (([] : List T).map some
        ++ (xs.map some ++ List.replicate (a.m_capacity - xs.length) none))) := by
      simp only [m1, List.getElem?_append_left hdl, hblk, blockOf]
      simp
    have hd1 : m1.heap[m.heap.length]?
        = some (some (([] : List T).map some ++ List.replicate a.m_capacity none)) := by
      simp [m1]
    obtain ⟨m2, h2, hlen2, hd2, hfr2, htr2⟩ :=
      copy_loop_spec env d m.heap.length hne _ xs [] a.m_capacity m1 hcap hs1 hd1
    simp only [List.length_nil, List.nil_append, Nat.zero_add] at h2 hd2 htr2
    refine ⟨m2, ?_, ?_, ?_, hd2, ?_⟩
    · simp only [Vector.copy_ctor, operator_new, halloc, if_true, hsz, hdata]
      rw [show ({ heap := m.heap ++ [some (List.replicate a.m_capacity none)],
                  trace := m.trace ++ [Event.alloc m.heap.length a.m_capacity] } : Mem T) = m1
            from rfl, h2]
      by_cases hall : xs.all env.copyOk = true
      · simp only [hall, if_true]
      · simp [hall]
    · simp [hlen2, m1]
    · intro c hc
      rw [hfr2 c (by omega)]
      simp [m1, List.getElem?_append_left hc]
    · rw [htr2]
      simp [m1]

theorem copy_ctor_bad_alloc (env : Env T) (m : Mem T) (a : Vector)
    (halloc : env.allocOk m.heap.length a.m_capacity = false) :
    Vector.copy_ctor env a m = .throw .bad_alloc m := by
  simp [Vector.copy_ctor, operator_new, halloc]

/-- The destructor of a well-formed vector: every element is destroyed in
index order, the block is released, and no other block is touched. -/
theorem dtor_spec (m : Mem T) (v : Vector) (xs : List T) (hown : Owns m v xs) :
    ∃ m', Vector.dtor v m = some m' ∧
      m'.heap.length = m.heap.length ∧
      (∀ c, some c ≠ v.data → m'.heap[c]? = m.heap[c]?) ∧
      (∀ d, v.data = some d → m'.heap[d]? = some none) ∧
      m'.trace = m.trace ++ dtor_trace v.data xs.length := by
  obtain ⟨hsz, hcap, hblk⟩ := hown
  cases hdata : v.data with
  | none =>
    rw [hdata] at hblk
    simp only at hblk
    have hs0 : v.m_size = 0 := by omega
    refine ⟨m, ?_, rfl, fun _ _ => rfl, ?_, by simp [dtor_trace]⟩
    · simp only [Vector.dtor, hs0, destroy_loop, hdata, operator_delete]
    · intro d hd
      cases hd
  | some d =>
    rw [hdata] at hblk
    simp only at hblk
    have hdl := heap_lt_of_getElem? _ _ _ hblk
    have hs : m.heap[d]? = some (some (([] : List (Option T)) ++ (xs.map some
        ++ List.replicate (v.m_capacity - xs.length) none))) := by
      rw [hblk, blockOf]
      rfl
    obtain ⟨m1, h1, hlen1, hs1, hfr1, htr1⟩ := destroy_loop_spec d _ xs [] m hs
    simp only [List.length_nil, Nat.zero_add] at h1 htr1
    refine ⟨{ heap := m1.heap.set d none, trace := m1.trace ++ [Event.free d] }, ?_, ?_, ?_, ?_, ?_⟩
    · simp only [Vector.dtor, hsz, hdata, h1, operator_delete, hs1]
    · simp [hlen1]
    · intro c hc
      have hcd : c ≠ d := fun h => hc (by rw [h])
      simp only [List.getElem?_set_ne (Ne.symm hcd), hfr1 c hcd]
    · intro d' hd'
      cases hd'
      have : d < m1.heap.length := by rw [hlen1]; exact hdl
      simp [List.getElem?_set_self this]
    · simp [htr1, dtor_trace]

/-- Appending to an empty, bufferless vector: the result has size 1 and
capacity 1, holds the value, and every existing block is left alone. -/
theorem push_default_spec (env : Env T) (hnf : env.nofail) (m : Mem T) (x : Arg T) :
    ∃ a1 m1, Vector.push env x Vector.default_ctor m = .ok () (a1, m1) ∧
      a1.m_size = 1 ∧ a1.m_capacity = 1 ∧ Owns m1 a1 [x.val] ∧
      ∀ c, c < m.heap.length → m1.heap[c]? = m.heap[c]? := by
  obtain ⟨b, m1, h, hown1, -, -, hfr, -, -⟩ :=
    push_spec env m Vector.default_ctor [] x (owns_default m) hnf
  refine ⟨_, m1, h, rfl, rfl, by simpa using hown1, ?_⟩
  intro c hc
  exact hfr c hc (by simp [Vector.default_ctor])

/-- Move assignment into a distinct well-formed target: the target's old
elements are destroyed and its block released, nothing else is touched. -/
theorem move_assign_spec (m : Mem T) (a t : Vector) (ys : List T) (p q : Nat) (hpq : p ≠ q)
    (hown : Owns m t ys) :
    ∃ m0, Vector.move_assign p q a t m
        = .ok () ((a, { data := none, m_size := 0, m_capacity := 0 }), m0) ∧
      Vector.dtor t m = some m0 ∧
      m0.heap.length = m.heap.length ∧
      (∀ c, some c ≠ t.data → m0.heap[c]? = m.heap[c]?) ∧
      (∀ d, t.data = some d → m0.heap[d]? = some none) ∧
      m0.trace = m.trace ++ dtor_trace t.data ys.length := by
  obtain ⟨m0, h, hlen, hfr, hold, htr⟩ := dtor_spec m t ys hown
  refine ⟨m0, ?_, h, hlen, hfr, hold, htr⟩
  unfold Vector.dtor at h
  unfold Vector.move_assign
  simp only [hpq, if_false]
  split at h
  · cases h
  · rename_i m1 h1
    simp only [h1, h]

/-- Copy assignment between distinct well-formed vectors when nothing throws:
a full copy of the source is built in a fresh block of the source's capacity,
then the target's old elements are destroyed and its old block released. -/
theorem copy_assign_spec (env : Env T) (hnf : env.nofail) (m : Mem T) (s t : Vector)
    (xs ys : List T) (p q : Nat) (hpq : p ≠ q) (hos : Owns m s xs) (hot : Owns m t ys) :
    ∃ m2, Vector.copy_assign env p q s t m
        = .ok () ({ data := some m.heap.length, m_size := s.m_size,
                    m_capacity := s.m_capacity }, m2) ∧
      Owns m2 { data := some m.heap.length, m_size := s.m_size,
                m_capacity := s.m_capacity } xs ∧
      m2.heap.length = m.heap.length + 1 ∧
      (∀ c, c < m.heap.length → some c ≠ t.data → m2.heap[c]? = m.heap[c]?) ∧
      (∀ d, t.data = some d → m2.heap[d]? = some none) ∧
      m2.trace = m.trace ++ (Event.alloc m.heap.length s.m_capacity
          :: (List.range xs.length).map (fun j => Event.copy_ctor m.heap.length j))
        ++ dtor_trace t.data ys.length := by
  obtain ⟨hal, hcp, hmv⟩ := hnf
  obtain ⟨m1, h1, hlen1, hfr1, hnew1, htr1⟩ := copy_ctor_spec env m s xs hos (hal _ _)
  have hall : xs.all env.copyOk = true := all_of_forall _ _ (fun y _ => hcp y)
  rw [takeWhile_of_forall _ _ (fun y _ => hcp y)] at hnew1 htr1
  simp only [hall, if_true] at h1
  have hot1 : Owns m1 t ys :=
    owns_frame m m1 t ys hot (fun d hd => hfr1 d (owns_data_lt m t ys hot d hd))
  obtain ⟨m2, h2, hlen2, hfr2, hold2, htr2⟩ := dtor_spec m1 t ys hot1
  have hnt : (some m.heap.length : Option Nat) ≠ t.data := by
    intro h
    have := owns_data_lt m t ys hot m.heap.length h.symm
    omega
  refine ⟨m2, ?_, ⟨hos.1, hos.2.1, ?_⟩, by rw [hlen2, hlen1], ?_, hold2, ?_⟩
  · unfold Vector.copy_assign
    simp only [hpq, if_false, h1]
    have e : Vector.dtor (Vector.mk t.data t.m_size t.m_capacity) m1 = some m2 := h2
    simp only [e]
  · show m2.heap[m.heap.length]? = _
    rw [hfr2 _ hnt, hnew1]
    rfl
  · intro c hc hct
    rw [hfr2 c hct, hfr1 c hc]
  · rw [htr2, htr1]

/-- Assignment through a reference to element `i` of a well-formed vector. -/
theorem assign_at_spec (m : Mem T) (v : Vector) (xs : List T) (hown : Owns m v xs)
    (b i : Nat) (hb : v.data = some b) (hi : i < xs.length) (x : T) :
    ∃ m1, assign_at b i x m = some m1 ∧ Owns m1 v (xs.set i x) ∧
      m1.heap.length = m.heap.length ∧
      (∀ c, c ≠ b → m1.heap[c]? = m.heap[c]?) ∧ m1.trace = m.trace := by
  obtain ⟨b', hb', hl⟩ := owns_load m v xs hown i hi
  rw [hb] at hb'
  cases hb'
  obtain ⟨hsz, hcap, hblk⟩ := hown
  rw [hb] at hblk
  simp only at hblk
  have hbl := heap_lt_of_getElem? _ _ _ hblk
  have hil : i < (blockOf v.m_capacity xs).length := by
    simp [blockOf]
    omega
  refine ⟨{ heap := m.heap.set b (some ((blockOf v.m_capacity xs).set i (some x))),
            trace := m.trace }, ?_, ⟨by simpa using hsz, by simpa using hcap, ?_⟩, by simp, ?_, rfl⟩
  · simp only [assign_at, hl, Mem.put, hblk, hil, if_true]
  · rw [hb]
    simp only [List.getElem?_set_self hbl, blockOf, List.length_set]
    rw [List.set_append_left _ _ (by simpa using hi), List.map_set]
  · intro c hc
    simp only [List.getElem?_set_ne (Ne.symm hc)]

theorem lookup_set_cases {α : Type} (l : List (Option α)) (q : Nat) (w : Option α) (p : Nat)
    (v : α) (h : (l.set q w)[p]? = some (some v)) :
    (p = q ∧ w = some v) ∨ (p ≠ q ∧ l[p]? = some (some v)) := by
  by_cases hpq : q = p
  · subst hpq
    by_cases hl : q < l.length
    · rw [List.getElem?_set_self hl] at h
      exact Or.inl ⟨rfl, Option.some.inj h⟩
    · rw [List.getElem?_eq_none (by simpa using hl)] at h
      cases h
  · rw [List.getElem?_set_ne hpq] at h
    exact Or.inr ⟨fun h' => hpq h'.symm, h⟩

theorem lookup_append_cases {α : Type} (l : List (Option α)) (w : Option α) (p : Nat) (v : α)
    (h : (l ++ [w])[p]? = some (some v)) :
    (p = l.length ∧ w = some v) ∨ (p < l.length ∧ l[p]? = some (some v)) := by
  by_cases hl : p < l.length
  · rw [List.getElem?_append_left hl] at h
    exact Or.inr ⟨hl, h⟩
  · rw [List.getElem?_append_right (by omega)] at h
    by_cases h0 : p - l.length = 0
    · rw [h0] at h
      exact Or.inl ⟨by omega, by simpa using h⟩
    · obtain ⟨k, hk⟩ : ∃ k, p - l.length = k + 1 := ⟨p - l.length - 1, by omega⟩
      rw [hk] at h
      simp at h

theorem live_sizes_set (l : List (Option Vector)) (p : Nat) (w w' : Option Vector)
    (h : l[p]? = some w) :
    ((l.set p w').map live_size).sum + live_size w = (l.map live_size).sum + live_size w' := by
  induction l generalizing p with
  | nil => simp at h
  | cons a r ih =>
    cases p with
    | zero =>
      simp only [List.getElem?_cons_zero, Option.some.injEq] at h
      subst h
      simp only [List.set_cons_zero, List.map_cons, List.sum_cons]
      omega
    | succ n =>
      simp only [List.getElem?_cons_succ] at h
      have := ih n h
      simp only [List.set_cons_succ, List.map_cons, List.sum_cons]
      omega

theorem live_sizes_append (l : List (Option Vector)) (w : Option Vector) :
    ((l ++ [w]).map live_size).sum = (l.map live_size).sum + live_size w := by
  simp

theorem constructions_append (a b : List Event) :
    constructions (a ++ b) = constructions a + constructions b := by
  simp [constructions]

theorem destructions_append (a b : List Event) :
    destructions (a ++ b) = destructions a + destructions b := by
  simp [destructions]

theorem constructions_map_copy (b n : Nat) (f : Nat → Nat) :
    constructions ((List.range n).map (fun j => Event.copy_ctor b (f j))) = n := by
  simp [constructions, List.countP_map, Function.comp_def]

theorem constructions_map_move (b n : Nat) (f : Nat → Nat) :
    constructions ((List.range n).map (fun j => Event.move_ctor b (f j))) = n := by
  simp [constructions, List.countP_map, Function.comp_def]

theorem destructions_map_copy (b n : Nat) (f : Nat → Nat) :
    destructions ((List.range n).map (fun j => Event.copy_ctor b (f j))) = 0 := by
  simp [destructions, List.countP_map, Function.comp_def]

theorem destructions_map_move (b n : Nat) (f : Nat → Nat) :
    destructions ((List.range n).map (fun j => Event.move_ctor b (f j))) = 0 := by
  simp [destructions, List.countP_map, Function.comp_def]

theorem constructions_dtor_trace (data : Option Nat) (n : Nat) :
    constructions (dtor_trace data n) = 0 := by
  cases data <;> simp [dtor_trace, constructions, List.countP_map, Function.comp_def]

theorem destructions_dtor_trace (d n : Nat) :
    destructions (dtor_trace (some d) n) = n := by
  simp [dtor_trace, destructions, List.countP_map, Function.comp_def]

theorem destructions_dtor_trace_none (n : Nat) :
    destructions (dtor_trace none n) = 0 := by
  simp [dtor_trace, destructions]

/-- Replacing one live container by a well-formed one that keeps its buffer or
takes a fresh block (the old one being released) keeps the state well formed. -/
theorem WF_set (m m' : Mem T) (vecs : List (Option Vector)) (p : Nat) (v v' : Vector)
    (xs' : List T)
    (hwf : WF { mem := m, vecs := vecs }) (hp : vecs[p]? = some (some v))
    (h1 : Owns m' v' xs')
    (h2 : ∀ c, c < m.heap.length → some c ≠ v.data → m'.heap[c]? = m.heap[c]?)
    (h3 : v'.data = v.data ∨
      (v'.data = some m.heap.length ∧ ∀ d, v.data = some d → m'.heap[d]? = some none))
    (h4 : m'.heap.length = m.heap.length ∨
      (m'.heap.length = m.heap.length + 1 ∧ v'.data = some m.heap.length))
    (h5 : constructions m'.trace + destructions m.trace + v.m_size
      = constructions m.trace + destructions m'.trace + v'.m_size) :
    WF { mem := m', vecs := vecs.set p (some v') } := by
  obtain ⟨hA, hB, hC, hD⟩ := hwf
  simp only at hA hB hC hD
  have hold_lt : ∀ (q : Nat) (w : Vector) (d : Nat), vecs[q]? = some (some w) → w.data = some d →
      d < m.heap.length := by
    intro q w d hq hd
    obtain ⟨zs, hz⟩ := hA q w hq
    exact owns_data_lt m w zs hz d hd
  have hfresh : ∀ (q : Nat) (w : Vector), q ≠ p → vecs[q]? = some (some w) →
      ∀ d, v'.data = some d → w.data ≠ some d := by
    intro q w hqp hq d hd hwd
    rcases h3 with h3 | ⟨h3, -⟩
    · exact hB p q v w d (Ne.symm hqp) hp hq (h3 ▸ hd) hwd
    · rw [h3] at hd
      cases hd
      have := hold_lt q w _ hq hwd
      omega
  refine ⟨?_, ?_, ?_, ?_⟩
  · intro q w hq
    rcases lookup_set_cases _ _ _ _ _ hq with ⟨-, hw⟩ | ⟨hne, hq'⟩
    · cases hw
      exact ⟨xs', h1⟩
    · obtain ⟨zs, hz⟩ := hA q w hq'
      refine ⟨zs, owns_frame m m' w zs hz ?_⟩
      intro d hd
      exact h2 d (owns_data_lt m w zs hz d hd)
        (fun h => hB p q v w d (Ne.symm hne) hp hq' h.symm hd)
  · intro q1 q2 w1 w2 d hne hq1 hq2 hd
    simp only at hq1 hq2
    rcases lookup_set_cases _ _ _ _ _ hq1 with ⟨e1, hw1⟩ | ⟨hne1, hq1'⟩
    · cases hw1
      rcases lookup_set_cases _ _ _ _ _ hq2 with ⟨e2, -⟩ | ⟨hne2, hq2'⟩
      · omega
      · exact hfresh q2 w2 hne2 hq2' d hd
    · rcases lookup_set_cases _ _ _ _ _ hq2 with ⟨e2, hw2⟩ | ⟨hne2, hq2'⟩
      · cases hw2
        intro hwd
        exact hfresh q1 w1 hne1 hq1' d hwd hd
      · exact hB q1 q2 w1 w2 d hne hq1' hq2' hd
  · intro c blk hc
    simp only at hc ⊢
    have hpl : p < vecs.length := heap_lt_of_getElem? _ _ _ hp
    have hcl := heap_lt_of_getElem? _ _ _ hc
    by_cases hlt : c < m.heap.length
    · by_cases hcv : some c = v.data
      · rcases h3 with h3 | ⟨-, h3⟩
        · exact ⟨p, v', by simp [List.getElem?_set_self hpl], by rw [h3, hcv]⟩
        · rw [h3 c hcv.symm] at hc
          cases hc
      · rw [h2 c hlt hcv] at hc
        obtain ⟨q, w, hq, hw⟩ := hC c blk hc
        have hqp : p ≠ q := by
          intro h
          subst h
          rw [hp] at hq
          cases hq
          exact hcv hw.symm
        exact ⟨q, w, by rw [List.getElem?_set_ne hqp]; exact hq, hw⟩
    · rcases h4 with h4 | ⟨h4, h4'⟩
      · omega
      · have : c = m.heap.length := by omega
        subst this
        exact ⟨p, v', by simp [List.getElem?_set_self hpl], h4'⟩
  · simp only [Store.live_sizes] at hD ⊢
    have := live_sizes_set vecs p (some v) (some v') hp
    simp only [live_size] at this
    omega

/-- Declaring a container that has no buffer or a fresh block keeps the state
well formed. -/
theorem WF_append (m m' : Mem T) (vecs : List (Option Vector)) (w : Vector) (xs : List T)
    (hwf : WF { mem := m, vecs := vecs })
    (h1 : Owns m' w xs)
    (h2 : ∀ c, c < m.heap.length → m'.heap[c]? = m.heap[c]?)
    (h3 : (w.data = none ∧ m'.heap.length = m.heap.length) ∨
      (w.data = some m.heap.length ∧ m'.heap.length = m.heap.length + 1))
    (h5 : constructions m'.trace + destructions m.trace
      = constructions m.trace + destructions m'.trace + w.m_size) :
    WF { mem := m', vecs := vecs ++ [some w] } := by
  obtain ⟨hA, hB, hC, hD⟩ := hwf
  simp only at hA hB hC hD
  have hold_lt : ∀ (q : Nat) (u : Vector) (d : Nat), vecs[q]? = some (some u) → u.data = some d →
      d < m.heap.length := by
    intro q u d hq hd
    obtain ⟨zs, hz⟩ := hA q u hq
    exact owns_data_lt m u zs hz d hd
  have hfresh : ∀ (q : Nat) (u : Vector), vecs[q]? = some (some u) →
      ∀ d, w.data = some d → u.data ≠ some d := by
    intro q u hq d hd hud
    rcases h3 with ⟨h3, -⟩ | ⟨h3, -⟩
    · rw [h3] at hd
      cases hd
    · rw [h3] at hd
      cases hd
      have := hold_lt q u _ hq hud
      omega
  refine ⟨?_, ?_, ?_, ?_⟩
  · intro q u hq
    rcases lookup_append_cases _ _ _ _ hq with ⟨-, hw⟩ | ⟨-, hq'⟩
    · cases hw
      exact ⟨xs, h1⟩
    · obtain ⟨zs, hz⟩ := hA q u hq'
      exact ⟨zs, owns_frame m m' u zs hz (fun d hd => h2 d (owns_data_lt m u zs hz d hd))⟩
  · intro q1 q2 w1 w2 d hne hq1 hq2 hd
    simp only at hq1 hq2
    rcases lookup_append_cases _ _ _ _ hq1 with ⟨e1, hw1⟩ | ⟨hl1, hq1'⟩
    · cases hw1
      rcases lookup_append_cases _ _ _ _ hq2 with ⟨e2, -⟩ | ⟨hl2, hq2'⟩
      · omega
      · exact hfresh q2 w2 hq2' d hd
    · rcases lookup_append_cases _ _ _ _ hq2 with ⟨e2, hw2⟩ | ⟨hl2, hq2'⟩
      · cases hw2
        intro hwd
        exact hfresh q1 w1 hq1' d hwd hd
      · exact hB q1 q2 w1 w2 d hne hq1' hq2' hd
  · intro c blk hc
    simp only at hc ⊢
    have hcl := heap_lt_of_getElem? _ _ _ hc
    by_cases hlt : c < m.heap.length
    · rw [h2 c hlt] at hc
      obtain ⟨q, u, hq, hu⟩ := hC c blk hc
      have hql := heap_lt_of_getElem? _ _ _ hq
      exact ⟨q, u, by rw [List.getElem?_append_left hql]; exact hq, hu⟩
    · rcases h3 with ⟨-, h3⟩ | ⟨h3, h3'⟩
      · omega
      · have : c = m.heap.length := by omega
        subst this
        exact ⟨vecs.length, w, by simp, h3⟩
  · simp only [Store.live_sizes] at hD ⊢
    rw [live_sizes_append]
    simp only [live_size]
    omega

/-- Destroying a live container keeps the state well formed. -/
theorem WF_kill (m m' : Mem T) (vecs : List (Option Vector)) (p : Nat) (v : Vector)
    (hwf : WF { mem := m, vecs := vecs }) (hp : vecs[p]? = some (some v))
    (h2 : ∀ c, some c ≠ v.data → m'.heap[c]? = m.heap[c]?)
    (h3 : ∀ d, v.data = some d → m'.heap[d]? = some none)
    (h5 : constructions m'.trace = constructions m.trace ∧
      destructions m'.trace = destructions m.trace + v.m_size) :
    WF { mem := m', vecs := vecs.set p none } := by
  obtain ⟨hA, hB, hC, hD⟩ := hwf
  simp only at hA hB hC hD
  refine ⟨?_, ?_, ?_, ?_⟩
  · intro q w hq
    rcases lookup_set_cases _ _ _ _ _ hq with ⟨-, hw⟩ | ⟨hne, hq'⟩
    · cases hw
    · obtain ⟨zs, hz⟩ := hA q w hq'
      refine ⟨zs, owns_frame m m' w zs hz ?_⟩
      intro d hd
      exact h2 d (fun h => hB p q v w d (Ne.symm hne) hp hq' h.symm hd)
  · intro q1 q2 w1 w2 d hne hq1 hq2 hd
    simp only at hq1 hq2
    rcases lookup_set_cases _ _ _ _ _ hq1 with ⟨-, hw1⟩ | ⟨-, hq1'⟩
    · cases hw1
    · rcases lookup_set_cases _ _ _ _ _ hq2 with ⟨-, hw2⟩ | ⟨-, hq2'⟩
      · cases hw2
      · exact hB q1 q2 w1 w2 d hne hq1' hq2' hd
  · intro c blk hc
    simp only at hc ⊢
    by_cases hcv : some c = v.data
    · rw [h3 c hcv.symm] at hc
      cases hc
    · rw [h2 c hcv] at hc
      obtain ⟨q, w, hq, hw⟩ := hC c blk hc
      have hqp : p ≠ q := by
        intro h
        subst h
        rw [hp] at hq
        cases hq
        exact hcv hw.symm
      exact ⟨q, w, by rw [List.getElem?_set_ne hqp]; exact hq, hw⟩
  · simp only [Store.live_sizes] at hD ⊢
    have := live_sizes_set vecs p (some v) none hp
    simp only [live_size] at this
    omega

/-- Handing the buffer of a live container over to a dead slot of the object
table, the source becoming empty, keeps the state well formed. -/
theorem WF_transfer (m : Mem T) (vecs : List (Option Vector)) (src dst : Nat) (a : Vector)
    (hwf : WF { mem := m, vecs := vecs })
    (hsrc : vecs[src]? = some (some a)) (hdst : vecs[dst]? = some none) :
    WF { mem := m,
         vecs := (vecs.set dst (some a)).set src
           (some { data := none, m_size := 0, m_capacity := 0 }) } := by
  obtain ⟨hA, hB, hC, hD⟩ := hwf
  simp only at hA hB hC hD
  have hsd : src ≠ dst := by
    intro h
    subst h
    rw [hsrc] at hdst
    cases hdst
  have hsl : src < vecs.length := heap_lt_of_getElem? _ _ _ hsrc
  have hdl : dst < vecs.length := heap_lt_of_getElem? _ _ _ hdst
  -- what a lookup in the new table can give
  have hlook : ∀ (q : Nat) (w : Vector),
      ((vecs.set dst (some a)).set src
        (some { data := none, m_size := 0, m_capacity := 0 }))[q]? = some (some w) →
      (q = src ∧ w = { data := none, m_size := 0, m_capacity := 0 }) ∨
      (q = dst ∧ w = a) ∨ (q ≠ src ∧ q ≠ dst ∧ vecs[q]? = some (some w)) := by
    intro q w hq
    rcases lookup_set_cases _ _ _ _ _ hq with ⟨e, hw⟩ | ⟨hne, hq'⟩
    · cases hw
      exact Or.inl ⟨e, rfl⟩
    · rcases lookup_set_cases _ _ _ _ _ hq' with ⟨e, hw⟩ | ⟨hne', hq''⟩
      · cases hw
        exact Or.inr (Or.inl ⟨e, rfl⟩)
      · exact Or.inr (Or.inr ⟨hne, hne', hq''⟩)
  refine ⟨?_, ?_, ?_, ?_⟩
  · intro q w hq
    rcases hlook q w hq with ⟨-, hw⟩ | ⟨-, hw⟩ | ⟨-, -, hq'⟩
    · subst hw
      exact ⟨[], ⟨rfl, Nat.le_refl _, rfl⟩⟩
    · subst hw
      exact hA src w hsrc
    · exact hA q w hq'
  · intro q1 q2 w1 w2 d hne hq1 hq2 hd
    rcases hlook q1 w1 hq1 with ⟨e1, hw1⟩ | ⟨e1, hw1⟩ | ⟨n1, n1', hq1'⟩
    · subst hw1
      cases hd
    · subst hw1
      rcases hlook q2 w2 hq2 with ⟨e2, hw2⟩ | ⟨e2, hw2⟩ | ⟨n2, n2', hq2'⟩
      · subst hw2
        simp
      · omega
      · exact hB src q2 w1 w2 d (Ne.symm n2) hsrc hq2' hd
    · rcases hlook q2 w2 hq2 with ⟨e2, hw2⟩ | ⟨e2, hw2⟩ | ⟨n2, n2', hq2'⟩
      · subst hw2
        simp
      · subst hw2
        exact hB q1 src w1 w2 d n1 hq1' hsrc hd
      · exact hB q1 q2 w1 w2 d hne hq1' hq2' hd
  · intro c blk hc
    simp only at hc ⊢
    obtain ⟨q, w, hq, hw⟩ := hC c blk hc
    by_cases hqs : q = src
    · subst hqs
      rw [hsrc] at hq
      cases hq
      refine ⟨dst, a, ?_, hw⟩
      rw [List.getElem?_set_ne hsd, List.getElem?_set_self hdl]
    · have hqd : q ≠ dst := by
        intro h
        subst h
        rw [hdst] at hq
        cases hq
      refine ⟨q, w, ?_, hw⟩
      rw [List.getElem?_set_ne (Ne.symm hqs), List.getElem?_set_ne (Ne.symm hqd)]
      exact hq
  · simp only [Store.live_sizes] at hD ⊢
    have e1 := live_sizes_set vecs dst none (some a) hdst
    have hsrc' : (vecs.set dst (some a))[src]? = some (some a) := by
      rw [List.getElem?_set_ne (Ne.symm hsd)]
      exact hsrc
    have e2 := live_sizes_set (vecs.set dst (some a)) src (some a)
      (some { data := none, m_size := 0, m_capacity := 0 }) hsrc'
    simp only [live_size] at e1 e2
    omega

/-- A dead slot at the end of the object table changes nothing. -/
theorem WF_append_dead (m : Mem T) (vecs : List (Option Vector))
    (hwf : WF { mem := m, vecs := vecs }) : WF { mem := m, vecs := vecs ++ [none] } := by
  obtain ⟨hA, hB, hC, hD⟩ := hwf
  simp only at hA hB hC hD
  refine ⟨?_, ?_, ?_, ?_⟩
  · intro q w hq
    rcases lookup_append_cases _ _ _ _ hq with ⟨-, hw⟩ | ⟨-, hq'⟩
    · cases hw
    · exact hA q w hq'
  · intro q1 q2 w1 w2 d hne hq1 hq2 hd
    simp only at hq1 hq2
    rcases lookup_append_cases _ _ _ _ hq1 with ⟨-, hw1⟩ | ⟨-, hq1'⟩
    · cases hw1
    · rcases lookup_append_cases _ _ _ _ hq2 with ⟨-, hw2⟩ | ⟨-, hq2'⟩
      · cases hw2
      · exact hB q1 q2 w1 w2 d hne hq1' hq2' hd
  · intro c blk hc
    obtain ⟨q, w, hq, hw⟩ := hC c blk hc
    have hql := heap_lt_of_getElem? _ _ _ hq
    exact ⟨q, w, by simp only; rw [List.getElem?_append_left hql]; exact hq, hw⟩
  · simp only [Store.live_sizes] at hD ⊢
    rw [live_sizes_append]
    simp only [live_size]
    omega

theorem destructions_dtor_trace_owns (m : Mem T) (v : Vector) (xs : List T)
    (hown : Owns m v xs) : destructions (dtor_trace v.data xs.length) = xs.length := by
  obtain ⟨hsz, hcap, hblk⟩ := hown
  cases hdata : v.data with
  | none =>
    rw [hdata] at hblk
    simp only at hblk
    rw [destructions_dtor_trace_none]
    omega
  | some d => exact destructions_dtor_trace d xs.length

/-- An assignment through `data[i]` that is defined hits a live element. -/
theorem assign_at_index_lt (m m1 : Mem T) (v : Vector) (xs : List T) (hown : Owns m v xs)
    (b i : Nat) (hb : v.data = some b) (x : T) (h : assign_at b i x m = some m1) :
    i < xs.length := by
  obtain ⟨hsz, hcap, hblk⟩ := hown
  rw [hb] at hblk
  simp only at hblk
  by_contra hge
  have hnone : m.load b i = none := by
    simp only [Mem.load, hblk, blockOf]
    rw [List.getElem?_append_right (by simpa using hge)]
    simp only [List.length_map, List.getElem?_replicate]
    by_cases hc : i - xs.length < v.m_capacity - xs.length <;> simp [hc]
  simp [assign_at, hnone] at h

theorem list_set_eq_self {α : Type} (l : List α) (p : Nat) (w : α) (h : l[p]? = some w) :
    l.set p w = l := by
  apply List.ext_getElem?
  intro n
  by_cases hn : p = n
  · subst hn
    rw [List.getElem?_set_self (heap_lt_of_getElem? _ _ _ h), h]
  · rw [List.getElem?_set_ne hn]

theorem constructions_alloc_cons (b n : Nat) (tr : List Event) :
    constructions (Event.alloc b n :: tr) = constructions tr := by
  simp [constructions]

theorem destructions_alloc_cons (b n : Nat) (tr : List Event) :
    destructions (Event.alloc b n :: tr) = destructions tr := by
  simp [destructions]

theorem arg_event_counts (a : Arg T) (b i : Nat) :
    constructions [a.event b i] = 1 ∧ destructions [a.event b i] = 0 := by
  cases a <;> simp [Arg.event, constructions, destructions]

theorem step_WF (env : Env T) (hnf : env.nofail) (st st' : Store T) (op : Op T)
    (hwf : WF st) (h : step env st op = some st') : WF st' := by
  obtain ⟨m, vecs⟩ := st
  have hnf' := hnf
  obtain ⟨hal, hcp, hmv⟩ := hnf'
  cases op with
  | decl =>
    simp only [step, Option.some.injEq] at h
    subst h
    exact WF_append m m vecs Vector.default_ctor [] hwf (owns_default m) (fun _ _ => rfl)
      (Or.inl ⟨rfl, rfl⟩) (by simp [Vector.default_ctor])
  | copy_decl src =>
    simp only [step] at h
    cases hv : Store.vec? { mem := m, vecs := vecs } src with
    | none => simp [hv] at h
    | some o =>
      simp only [hv] at h
      have ho := (vec?_iff _ src o).mp hv
      obtain ⟨xs, hxs⟩ := hwf.owns src o ho
      obtain ⟨m1, h1, hlen1, hfr1, hnew1, htr1⟩ := copy_ctor_spec env m o xs hxs (hal _ _)
      have hall : xs.all env.copyOk = true := all_of_forall _ _ (fun y _ => hcp y)
      rw [takeWhile_of_forall _ _ (fun y _ => hcp y)] at hnew1 htr1
      simp only [hall, if_true] at h1
      simp only [h1, Option.some.injEq] at h
      subst h
      refine WF_append m m1 vecs _ xs hwf ⟨hxs.1, hxs.2.1, hnew1⟩ hfr1
        (Or.inr ⟨rfl, hlen1⟩) ?_
      simp only [htr1, constructions_append, destructions_append]
      have e1 : constructions (Event.alloc m.heap.length o.m_capacity
          :: (List.range xs.length).map (fun j => Event.copy_ctor m.heap.length j)) = xs.length := by
        rw [constructions_alloc_cons]
        exact constructions_map_copy m.heap.length xs.length (fun j => j)
      have e2 : destructions (Event.alloc m.heap.length o.m_capacity
          :: (List.range xs.length).map (fun j => Event.copy_ctor m.heap.length j)) = 0 := by
        rw [destructions_alloc_cons]
        exact destructions_map_copy m.heap.length xs.length (fun j => j)
      rw [e1, e2, hxs.1]
      omega
  | move_decl src =>
    simp only [step, Vector.move_ctor] at h
    cases hv : Store.vec? { mem := m, vecs := vecs } src with
    | none => simp [hv] at h
    | some o =>
      simp only [hv, Option.some.injEq] at h
      subst h
      have ho := (vec?_iff _ src o).mp hv
      have hsl : src < vecs.length := heap_lt_of_getElem? _ _ _ ho
      have hwf1 := WF_append_dead m vecs hwf
      have hsrc1 : (vecs ++ [none])[src]? = some (some o) := by
        rw [List.getElem?_append_left hsl]
        exact ho
      have hdst1 : (vecs ++ [(none : Option Vector)])[vecs.length]? = some none := by
        simp
      have := WF_transfer m (vecs ++ [none]) src vecs.length o hwf1 hsrc1 hdst1
      have e : ((vecs ++ [none]).set vecs.length (some o)).set src
          (some { data := none, m_size := 0, m_capacity := 0 })
          = vecs.set src (some { data := none, m_size := 0, m_capacity := 0 }) ++ [some o] := by
        rw [List.set_append_right _ _ (Nat.le_refl _), List.set_append_left _ _ hsl]
        simp
      rw [e] at this
      exact this
  | copy_assign dst src =>
    simp only [step] at h
    cases hv : Store.vec? { mem := m, vecs := vecs } dst with
    | none => simp [hv] at h
    | some t =>
      cases hs : Store.vec? { mem := m, vecs := vecs } src with
      | none => simp [hv, hs] at h
      | some o =>
        simp only [hv, hs] at h
        have ht := (vec?_iff _ dst t).mp hv
        have ho := (vec?_iff _ src o).mp hs
        obtain ⟨ys, hys⟩ := hwf.owns dst t ht
        obtain ⟨xs, hxs⟩ := hwf.owns src o ho
        by_cases hpq : dst = src
        · simp only [Vector.copy_assign, hpq, if_true, Option.some.injEq] at h
          subst h
          subst hpq
          exact WF_set m m vecs dst t t ys hwf ht hys (fun _ _ _ => rfl) (Or.inl rfl)
            (Or.inl rfl) (by omega)
        · obtain ⟨m2, h2, hown2, hlen2, hfr2, hold2, htr2⟩ :=
            copy_assign_spec env hnf m o t xs ys dst src hpq hxs hys
          simp only [h2, Option.some.injEq] at h
          subst h
          refine WF_set m m2 vecs dst t _ xs hwf ht hown2 hfr2 (Or.inr ⟨rfl, hold2⟩)
            (Or.inr ⟨hlen2, rfl⟩) ?_
          simp only [htr2, constructions_append, destructions_append]
          have e1 : constructions (Event.alloc m.heap.length o.m_capacity
              :: (List.range xs.length).map (fun j => Event.copy_ctor m.heap.length j))
              = xs.length := by
            rw [constructions_alloc_cons]
            exact constructions_map_copy m.heap.length xs.length (fun j => j)
          have e2 : destructions (Event.alloc m.heap.length o.m_capacity
              :: (List.range xs.length).map (fun j => Event.copy_ctor m.heap.length j)) = 0 := by
            rw [destructions_alloc_cons]
            exact destructions_map_copy m.heap.length xs.length (fun j => j)
          rw [e1, e2, constructions_dtor_trace, destructions_dtor_trace_owns m t ys hys,
            hxs.1, hys.1]
          omega
  | move_assign dst src =>
    simp only [step] at h
    cases hv : Store.vec? { mem := m, vecs := vecs } dst with
    | none => simp [hv] at h
    | some t =>
      cases hs : Store.vec? { mem := m, vecs := vecs } src with
      | none => simp [hv, hs] at h
      | some o =>
        simp only [hv, hs] at h
        have ht := (vec?_iff _ dst t).mp hv
        have ho := (vec?_iff _ src o).mp hs
        obtain ⟨ys, hys⟩ := hwf.owns dst t ht
        have hdl : dst < vecs.length := heap_lt_of_getElem? _ _ _ ht
        by_cases hpq : dst = src
        · simp only [Vector.move_assign, hpq, if_true, Option.some.injEq] at h
          subst h
          subst hpq
          rw [ht] at ho
          cases ho
          rw [List.set_set]
          exact WF_set m m vecs dst t t ys hwf ht hys (fun _ _ _ => rfl) (Or.inl rfl)
            (Or.inl rfl) (by omega)
        · obtain ⟨m0, h0, -, hlen0, hfr0, hold0, htr0⟩ :=
            move_assign_spec m o t ys dst src hpq hys
          simp only [h0, Option.some.injEq] at h
          subst h
          have hk := WF_kill m m0 vecs dst t hwf ht hfr0 hold0 (by
            rw [htr0, constructions_append, destructions_append, constructions_dtor_trace,
              destructions_dtor_trace_owns m t ys hys, hys.1]
            exact ⟨rfl, rfl⟩)
          have hsrc1 : (vecs.set dst none)[src]? = some (some o) := by
            rw [List.getElem?_set_ne hpq]
            exact ho
          have hdst1 : (vecs.set dst (none : Option Vector))[dst]? = some none := by
            rw [List.getElem?_set_self hdl]
          have := WF_transfer m0 (vecs.set dst none) src dst o hk hsrc1 hdst1
          rw [List.set_set] at this
          exact this
  | push_back p a =>
    simp only [step] at h
    cases hv : Store.vec? { mem := m, vecs := vecs } p with
    | none => simp [hv] at h
    | some v =>
      simp only [hv] at h
      have hp := (vec?_iff _ p v).mp hv
      obtain ⟨xs, hxs⟩ := hwf.owns p v hp
      obtain ⟨b, m1, h1, hown1, hb, hlen1, hfr1, hold1, htr1⟩ := push_spec env m v xs a hxs hnf
      simp only [h1, Option.some.injEq] at h
      subst h
      obtain ⟨ec, ed⟩ := arg_event_counts a b xs.length
      by_cases hfull : v.m_size ≥ v.m_capacity
      · simp only [hfull, if_true] at hb hlen1 htr1
        cases hb
        refine WF_set m m1 vecs p v _ (xs ++ [a.val]) hwf hp hown1 hfr1
          (Or.inr ⟨rfl, hold1 hfull⟩) (Or.inr ⟨hlen1, rfl⟩) ?_
        simp only [htr1, constructions_append, destructions_append, ec, ed,
          constructions_dtor_trace, destructions_dtor_trace_owns m v xs hxs,
          constructions_map_move m.heap.length xs.length (fun j => j),
          destructions_map_move m.heap.length xs.length (fun j => j)]
        simp only [constructions, destructions, List.countP_cons, List.countP_nil]
        simp
        omega
      · simp only [hfull, if_false] at hb hlen1 htr1
        refine WF_set m m1 vecs p v _ (xs ++ [a.val]) hwf hp hown1 hfr1
          (Or.inl hb) (Or.inl hlen1) ?_
        simp only [htr1, constructions_append, destructions_append, ec, ed]
        simp [constructions, destructions]
        omega
  | index_store p i x =>
    simp only [step] at h
    cases hv : Store.vec? { mem := m, vecs := vecs } p with
    | none => simp [hv] at h
    | some v =>
      simp only [hv] at h
      have hp := (vec?_iff _ p v).mp hv
      obtain ⟨xs, hxs⟩ := hwf.owns p v hp
      cases hd : v.data with
      | none => simp [Vector.index, hd] at h
      | some b =>
        simp only [Vector.index, hd] at h
        cases ha : assign_at b i x m with
        | none => simp [ha] at h
        | some m1 =>
          simp only [ha, Option.some.injEq] at h
          subst h
          have hi := assign_at_index_lt m m1 v xs hxs b i hd x ha
          obtain ⟨m1', h1, hown1, hlen1, hfr1, htr1⟩ := assign_at_spec m v xs hxs b i hd hi x
          rw [ha] at h1
          cases h1
          have hres := WF_set m m1 vecs p v v (xs.set i x) hwf hp hown1
            (fun c _ hc => hfr1 c (fun e => hc (by rw [hd, e]))) (Or.inl rfl)
            (Or.inl hlen1) (by rw [htr1])
          rw [list_set_eq_self vecs p (some v) hp] at hres
          exact hres
  | at_store p i x =>
    simp only [step] at h
    cases hv : Store.vec? { mem := m, vecs := vecs } p with
    | none => simp [hv] at h
    | some v =>
      simp only [hv] at h
      have hp := (vec?_iff _ p v).mp hv
      obtain ⟨xs, hxs⟩ := hwf.owns p v hp
      by_cases hge : i ≥ v.m_size
      · simp only [Vector.at_, hge, if_true, Option.some.injEq] at h
        subst h
        exact hwf
      · simp only [Vector.at_, hge, if_false] at h
        cases hd : v.data with
        | none => simp [hd] at h
        | some b =>
          simp only [hd] at h
          cases ha : assign_at b i x m with
          | none => simp [ha] at h
          | some m1 =>
            simp only [ha, Option.some.injEq] at h
            subst h
            have hi := assign_at_index_lt m m1 v xs hxs b i hd x ha
            obtain ⟨m1', h1, hown1, hlen1, hfr1, htr1⟩ :=
              assign_at_spec m v xs hxs b i hd hi x
            rw [ha] at h1
            cases h1
            have hres := WF_set m m1 vecs p v v (xs.set i x) hwf hp hown1
              (fun c _ hc => hfr1 c (fun e => hc (by rw [hd, e]))) (Or.inl rfl)
              (Or.inl hlen1) (by rw [htr1])
            rw [list_set_eq_self vecs p (some v) hp] at hres
            exact hres
  | end_scope p =>
    simp only [step] at h
    cases hv : Store.vec? { mem := m, vecs := vecs } p with
    | none => simp [hv] at h
    | some v =>
      simp only [hv] at h
      have hp := (vec?_iff _ p v).mp hv
      obtain ⟨xs, hxs⟩ := hwf.owns p v hp
      obtain ⟨m1, h1, -, hfr1, hold1, htr1⟩ := dtor_spec m v xs hxs
      simp only [h1, Option.some.injEq] at h
      subst h
      refine WF_kill m m1 vecs p v hwf hp hfr1 hold1 ?_
      rw [htr1, constructions_append, destructions_append, constructions_dtor_trace,
        destructions_dtor_trace_owns m v xs hxs, hxs.1]
      exact ⟨rfl, rfl⟩

theorem WF_init : WF (Store.init : Store T) := by
  refine ⟨?_, ?_, ?_, ?_⟩
  · intro p v h
    simp [Store.init] at h
  · intro p q v w d _ h
    simp [Store.init] at h
  · intro c blk h
    simp [Store.init] at h
  · simp [Store.init, Store.live_sizes, constructions, destructions]

theorem run_WF (env : Env T) (hnf : env.nofail) :
    ∀ (ops : List (Op T)) (st st' : Store T), WF st → run env ops st = some st' → WF st' := by
  intro ops
  induction ops with
  | nil =>
    intro st st' hwf h
    cases h
    exact hwf
  | cons op rest ih =>
    intro st st' hwf h
    simp only [run] at h
    cases h1 : step env st op with
    | none => simp [h1] at h
    | some st1 =>
      simp only [h1] at h
      exact ih st1 st' (step_WF env hnf st st1 op hwf h1) h

/-- In a well-formed state every object in the heap is an element of a live
container. -/
theorem load_owner (st : Store T) (hwf : WF st) (b i : Nat) (x : T)
    (h : st.mem.load b i = some x) :
    ∃ p v, st.vec? p = some v ∧ v.data = some b ∧ i < v.m_size := by
  unfold Mem.load at h
  split at h
  · rename_i blk hblk
    obtain ⟨p, v, hp, hv⟩ := hwf.noleak b blk hblk
    obtain ⟨xs, hsz, hcap, hown⟩ := hwf.owns p v hp
    rw [hv] at hown
    simp only at hown
    rw [hblk] at hown
    simp only [Option.some.injEq] at hown
    subst hown
    refine ⟨p, v, (vec?_iff st p v).mpr hp, hv, ?_⟩
    by_contra hge
    have hge' : xs.length ≤ i := by omega
    simp only [blockOf] at h
    rw [List.getElem?_append_right (by simpa using hge')] at h
    simp only [List.length_map, List.getElem?_replicate] at h
    by_cases hc : i - xs.length < v.m_capacity - xs.length <;> simp [hc] at h
  · cases h

theorem live_sizes_zero (l : List (Option Vector))
    (h : ∀ (p : Nat) (v : Vector), l[p]? ≠ some (some v)) : (l.map live_size).sum = 0 := by
  induction l with
  | nil => rfl
  | cons a r ih =>
    have h0 := h 0
    have hr : ∀ (p : Nat) (v : Vector), r[p]? ≠ some (some v) := fun p v => by
      have := h (p + 1) v
      simpa using this
    cases a with
    | none =>
      simp only [List.map_cons, List.sum_cons, live_size, ih hr]
    | some v =>
      exact absurd (List.getElem?_cons_zero) (h0 v)

/-- Ending the scopes of distinct live containers, in any order, is defined
and leaves exactly these containers destroyed. -/
theorem run_end_scopes (env : Env T) (hnf : env.nofail) :
    ∀ (L : List Nat) (st : Store T), WF st → L.Nodup →
      (∀ p ∈ L, ∃ v, st.vecs[p]? = some (some v)) →
      ∃ st', run env (L.map Op.end_scope) st = some st' ∧ WF st' ∧
        (∀ p, p ∈ L → ∀ v, st'.vecs[p]? ≠ some (some v)) ∧
        (∀ p, p ∉ L → st'.vecs[p]? = st.vecs[p]?) := by
  intro L
  induction L with
  | nil =>
    intro st hwf _ _
    exact ⟨st, rfl, hwf, fun p hp => by simp at hp, fun _ _ => rfl⟩
  | cons p r ih =>
    intro st hwf hnd hlive
    obtain ⟨v, hv⟩ := hlive p (List.mem_cons_self _ _)
    obtain ⟨xs, hxs⟩ := hwf.owns p v hv
    obtain ⟨m1, h1, -, -, -, -⟩ := dtor_spec st.mem v xs hxs
    have hstep : step env st (Op.end_scope p)
        = some { mem := m1, vecs := st.vecs.set p none } := by
      simp only [step, (vec?_iff st p v).mpr hv, h1]
    have hwf1 := step_WF env hnf st _ (Op.end_scope p) hwf hstep
    have hnd' := List.nodup_cons.mp hnd
    have hlive1 : ∀ q ∈ r, ∃ w, (st.vecs.set p none)[q]? = some (some w) := by
      intro q hq
      obtain ⟨w, hw⟩ := hlive q (List.mem_cons_of_mem _ hq)
      have hne : p ≠ q := fun e => hnd'.1 (e ▸ hq)
      exact ⟨w, by rw [List.getElem?_set_ne hne]; exact hw⟩
    obtain ⟨st', hrun, hwf', hdead, hsame⟩ := ih _ hwf1 hnd'.2 hlive1
    refine ⟨st', ?_, hwf', ?_, ?_⟩
    · simp only [List.map_cons, run, hstep]
      exact hrun
    · intro q hq w
      rcases List.mem_cons.mp hq with e | hq'
      · subst e
        rw [hsame q hnd'.1]
        intro hc
        rcases lookup_set_cases _ _ _ _ _ hc with ⟨-, hw⟩ | ⟨hne, -⟩
        · cases hw
        · exact hne rfl
      · exact hdead q hq' w
    · intro q hq
      have hqp : q ≠ p := fun e => hq (e ▸ List.mem_cons_self _ _)
      have hqr : q ∉ r := fun e => hq (List.mem_cons_of_mem _ e)
      rw [hsame q hqr]
      simp only
      rw [List.getElem?_set_ne (Ne.symm hqp)]

theorem demo_run : run intEnv demoProgram Store.init = some demoStore := by decide

theorem demo_run2 : run debugObjEnv demoProgram2 Store.init = some demoStore2 := by decide

theorem demo_owns : Owns demoMem demoVec [5, 10, 15] := ⟨rfl, by decide, rfl⟩

theorem demo_owns2 : Owns demoMem demoVec2 [7] := ⟨rfl, by decide, rfl⟩

theorem takeWhile_append_stop (p : T → Bool) (pre post : List T) (x : T)
    (hpre : ∀ y ∈ pre, p y = true) (hx : p x = false) :
    (pre ++ x :: post).takeWhile p = pre := by
  induction pre with
  | nil => simp [List.takeWhile_cons, hx]
  | cons y r ih =>
    have hy : p y = true := hpre y (List.mem_cons_self _ _)
    rw [List.cons_append, List.takeWhile_cons_of_pos hy,
      ih (fun z hz => hpre z (List.mem_cons_of_mem _ hz))]

theorem all_append_stop (p : T → Bool) (pre post : List T) (x : T) (hx : p x = false) :
    ¬ ((pre ++ x :: post).all p = true) := by
  intro h
  rw [List.all_eq_true] at h
  have := h x (by simp)
  rw [hx] at this
  cases this

/-- Growth in which the move of the element at index `pre.length` throws. -/
theorem reallocate_throw_spec (env : Env T) (m : Mem T) (v : Vector) (pre post : List T)
    (x : T) (n d : Nat)
    (hown : Owns m v (pre ++ x :: post)) (hd : v.data = some d)
    (hn : (pre ++ x :: post).length ≤ n)
    (halloc : env.allocOk m.heap.length n = true)
    (hpre : ∀ y ∈ pre, env.moveOk y = true) (hx : env.moveOk x = false) :
    ∃ m1, Vector.reallocate env n v m = .throw .elem_throw (v, m1) ∧
      m1.heap.length = m.heap.length + 1 ∧
      m1.heap[d]? = some (some (pre.map (fun y => some (env.residue y))
        ++ ((x :: post).map some
          ++ List.replicate (v.m_capacity - (pre ++ x :: post).length) none))) ∧
      m1.heap[m.heap.length]? = some (some (pre.map some
        ++ List.replicate (n - pre.length) none)) ∧
      (∀ c, c < m.heap.length → c ≠ d → m1.heap[c]? = m.heap[c]?) ∧
      m1.trace = m.trace ++ (Event.alloc m.heap.length n
        :: (List.range pre.length).map (fun j => Event.move_ctor m.heap.length j)) := by
  obtain ⟨hsz, hcap, hblk⟩ := hown
  rw [hd] at hblk
  simp only at hblk
  have hdl := heap_lt_of_getElem? _ _ _ hblk
  have hne : d ≠ m.heap.length := by omega
  let m0 : Mem T := { heap := m.heap ++ [some (List.replicate n none)],
                      trace := m.trace ++ [Event.alloc m.heap.length n] }
  have hs0 : m0.heap[d]? = some (some (([] : List T).map (fun y => some (env.residue y))
      ++ ((pre ++ x :: post).map some
        ++ List.replicate (v.m_capacity - (pre ++ x :: post).length) none))) := by
    simp only [m0, List.getElem?_append_left hdl, hblk, blockOf]
    simp
  have hd0 : m0.heap[m.heap.length]?
      = some (some (([] : List T).map some ++ List.replicate n none)) := by
    simp [m0]
  obtain ⟨m1, h1, hlen1, hs1, hd1, hfr1, htr1⟩ :=
    move_loop_spec env d m.heap.length hne _ (pre ++ x :: post) [] n m0 hn hs0 hd0
  rw [takeWhile_append_stop _ pre post x hpre hx] at hs1 hd1 htr1
  simp only [all_append_stop _ pre post x hx, if_false, List.length_nil, List.nil_append,
    Nat.zero_add, Bool.false_eq_true] at h1 hs1 hd1 htr1
  refine ⟨m1, ?_, ?_, ?_, hd1, ?_, ?_⟩
  · simp only [Vector.reallocate, operator_new, halloc, if_true, hsz, hd]
    rw [show ({ heap := m.heap ++ [some (List.replicate n none)],
                trace := m.trace ++ [Event.alloc m.heap.length n] } : Mem T) = m0 from rfl, h1]
  · simp [hlen1, m0]
  · rw [hs1]
    simp
  · intro c hc hcd
    rw [hfr1 c hcd (by omega)]
    simp [m0, List.getElem?_append_left hc]
  · rw [htr1]
    simp [m0]

theorem blockOf_snoc (cap : Nat) (xs : List T) (x : T) (h : xs.length < cap) :
    blockOf cap (xs ++ [x]) = (blockOf cap xs).set xs.length (some x) := by
  unfold blockOf
  obtain ⟨k, hk⟩ : ∃ k, cap - xs.length = k + 1 := ⟨cap - xs.length - 1, by omega⟩
  have e : cap - (xs ++ [x]).length = k := by
    simp only [List.length_append, List.length_singleton]
    omega
  rw [hk, e, List.replicate_succ]
  have := set_append_cons (xs.map some) (none : Option T) (some x) (List.replicate k none)
  simp only [List.length_map] at this
  rw [this]
  simp

theorem move_constructions_append (a b : List Event) :
    move_constructions (a ++ b) = move_constructions a + move_constructions b := by
  simp [move_constructions]

theorem move_constructions_dtor_trace (data : Option Nat) (n : Nat) :
    move_constructions (dtor_trace data n) = 0 := by
  cases data <;> simp [dtor_trace, move_constructions, List.countP_map, Function.comp_def]

theorem move_constructions_moves (b n : Nat) :
    move_constructions ((List.range n).map (fun j => Event.move_ctor b j)) = n := by
  simp [move_constructions, List.countP_map, Function.comp_def]

theorem move_constructions_arg (a : Arg T) (b i : Nat) :
    move_constructions [a.event b i] = rvalue_calls [a] := by
  cases a <;> simp [Arg.event, move_constructions, rvalue_calls]

theorem rvalue_calls_cons (a : Arg T) (rest : List (Arg T)) :
    rvalue_calls (a :: rest) = rvalue_calls [a] + rvalue_calls rest := by
  simp only [rvalue_calls, List.countP_cons, List.countP_nil]
  omega

/-- Move constructions over a sequence of appends: every reallocation adds the
difference of `m_capacity - 1`, every rvalue call adds one. -/
theorem push_all_moves (env : Env T) (hnf : env.nofail) :
    ∀ (args : List (Arg T)) (v : Vector) (m : Mem T) (xs : List T), Owns m v xs →
    ∃ v1 m1, push_all env args v m = .ok () (v1, m1) ∧
      move_constructions m1.trace + (v.m_capacity - 1)
        = move_constructions m.trace + rvalue_calls args + (v1.m_capacity - 1) := by
  intro args
  induction args with
  | nil =>
    intro v m xs _
    exact ⟨v, m, rfl, by simp [rvalue_calls]⟩
  | cons a rest ih =>
    intro v m xs hown
    obtain ⟨b, m1, h1, hown1, -, -, -, -, htr⟩ := push_spec env m v xs a hown hnf
    obtain ⟨v2, m2, h2, hcount⟩ := ih _ m1 (xs ++ [a.val]) hown1
    refine ⟨v2, m2, by simp only [push_all, h1, h2], ?_⟩
    have hsz : v.m_size = xs.length := hown.1
    have hcap : xs.length ≤ v.m_capacity := hown.2.1
    have hstep : move_constructions m1.trace + (v.m_capacity - 1)
        = move_constructions m.trace + rvalue_calls [a]
          + ((if v.m_size ≥ v.m_capacity then grown v.m_capacity else v.m_capacity) - 1) := by
      rw [htr]
      by_cases hfull : v.m_size ≥ v.m_capacity
      · simp only [hfull, if_true, move_constructions_append, move_constructions_moves,
          move_constructions_dtor_trace, move_constructions_arg]
        have e0 : move_constructions [Event.alloc m.heap.length (grown v.m_capacity)] = 0 := by
          simp [move_constructions]
        rw [e0]
        unfold grown
        split <;> omega
      · simp only [hfull, if_false, move_constructions_append, move_constructions_arg,
          List.append_nil]
    rw [rvalue_calls_cons]
    simp only at hcount
    omega

theorem traverse_spec (m : Mem T) (b n : Nat) (pad : List (Option T)) :
    ∀ (rest done : List T) (fuel : Nat), rest.length ≤ fuel →
      n = done.length + rest.length →
      m.heap[b]? = some (some (done.map some ++ (rest.map some ++ pad))) →
      traverse m (some b, n) fuel (some b, done.length)
        = some ((List.range' done.length rest.length).zip rest) := by
  intro rest
  induction rest with
  | nil =>
    intro done fuel _ hn _
    have e : ((some b, done.length) : Option Nat × Nat) = (some b, n) := by
      rw [hn]
      simp
    cases fuel <;> simp [traverse, e]
  | cons x r ih =>
    intro done fuel hf hn hblk
    obtain ⟨f, rfl⟩ : ∃ f, fuel = f + 1 := ⟨fuel - 1, by simp at hf; omega⟩
    have hne : ((some b, done.length) : Option Nat × Nat) ≠ (some b, n) := by
      intro h
      have := (Prod.mk.inj h).2
      simp at hn
      omega
    have hl : m.load b done.length = some x := by
      have := load_of_block m b (done.map some) (r.map some ++ pad) x (by simpa using hblk)
      simpa using this
    have hrec := ih (done ++ [x]) f (by simp at hf; omega) (by simp at hn ⊢; omega)
      (by simpa using hblk)
    simp only [List.length_append, List.length_singleton] at hrec
    simp only [traverse, hne, if_false, hl, hrec]
    simp [List.range'_succ]

/-- Appending by reference an element of a full vector: after the growth the
reference points into the released block. -/
theorem push_back_own_element_full (env : Env T) (hnf : env.nofail) (m : Mem T) (v : Vector)
    (xs : List T) (hown : Owns m v xs) (hfull : v.m_size = v.m_capacity) (d i : Nat)
    (hd : v.data = some d) :
    Vector.push_back env (Ref.slot d i) v m = .ub := by
  obtain ⟨hal, hcp, hmv⟩ := hnf
  obtain ⟨b, k, m1, hg, -, -, -, -, -, hold, -⟩ :=
    grow_spec env m v xs hown hal (fun x _ => hmv x)
  have hfree : m1.heap[d]? = some none := hold (by omega) d hd
  have hread : (Ref.slot d i : Ref T).read m1 = none := by
    simp only [Ref.read, Mem.load, hfree]
  simp only [Vector.push_back]
  rw [hg]
  simp only [placement_copy, hread]

theorem int_inc_of_lt (x : Int) (h1 : -2147483648 ≤ x) (h2 : x < 2147483647) :
    int_inc x = x + 1 := by
  unfold int_inc int_wrap
  omega

theorem int_inc_ne (x : Int) : int_inc x ≠ x := by
  unfold int_inc int_wrap
  omega

theorem int_inc_range (x : Int) : -2147483648 ≤ int_inc x ∧ int_inc x < 2147483648 := by
  unfold int_inc int_wrap
  omega

theorem int_inc_iterate_of_lt (n : Nat) :
    ∀ x : Int, -2147483648 ≤ x → x + n < 2147483648 → int_inc^[n] x = x + n := by
  induction n with
  | zero =>
    intro x _ _
    simp
  | succ n ih =>
    intro x h1 h2
    have e : int_inc x = x + 1 := int_inc_of_lt x h1 (by push_cast at h2; omega)
    rw [Function.iterate_succ_apply, e, ih (x + 1) (by omega) (by push_cast at h2 ⊢; omega)]
    push_cast
    omega

theorem int_inc_iterate_wrap (n : Nat) (hn : 0 < n) (x : Int) :
    int_inc^[n] x = int_wrap (x + n) := by
  obtain ⟨k, rfl⟩ : ∃ k, n = k + 1 := ⟨n - 1, by omega⟩
  clear hn
  induction k generalizing x with
  | zero => simp [int_inc]
  | succ k ih =>
    rw [Function.iterate_succ_apply, ih (int_inc x)]
    unfold int_inc int_wrap
    push_cast
    omega

theorem analyze_line_counts (lang : Language) (stats : FileStats) (inB : Bool)
    (line : List Char) :
    (analyze_line lang stats inB line).1.totalLines = int_inc stats.totalLines ∧
    ((analyze_line lang stats inB line).1.blankLines = int_inc stats.blankLines ∧
        (analyze_line lang stats inB line).1.commentLines = stats.commentLines ∧
        (analyze_line lang stats inB line).1.codeLines = stats.codeLines ∨
      (analyze_line lang stats inB line).1.blankLines = stats.blankLines ∧
        (analyze_line lang stats inB line).1.commentLines = int_inc stats.commentLines ∧
        (analyze_line lang stats inB line).1.codeLines = stats.codeLines ∨
      (analyze_line lang stats inB line).1.blankLines = stats.blankLines ∧
        (analyze_line lang stats inB line).1.commentLines = stats.commentLines ∧
        (analyze_line lang stats inB line).1.codeLines = int_inc stats.codeLines) := by
  unfold analyze_line
  simp only
  repeat' split
  all_goals simp

/-- As long as the line count stays below `2^31` no counter overflows. -/
theorem analyze_lines_counts (lang : Language) :
    ∀ (lines : List (List Char)) (stats : FileStats) (inB : Bool),
      0 ≤ stats.blankLines → 0 ≤ stats.commentLines → 0 ≤ stats.codeLines →
      stats.totalLines = stats.blankLines + stats.commentLines + stats.codeLines →
      stats.totalLines + lines.length < 2147483648 →
      (analyze_lines lang lines stats inB).totalLines = stats.totalLines + lines.length ∧
      0 ≤ (analyze_lines lang lines stats inB).blankLines ∧
      0 ≤ (analyze_lines lang lines stats inB).commentLines ∧
      0 ≤ (analyze_lines lang lines stats inB).codeLines ∧
      (analyze_lines lang lines stats inB).totalLines
        = (analyze_lines lang lines stats inB).blankLines
          + (analyze_lines lang lines stats inB).commentLines
          + (analyze_lines lang lines stats inB).codeLines := by
  intro lines
  induction lines with
  | nil =>
    intro stats inB hb hc hk hs _
    simp [analyze_lines, hb, hc, hk, hs]
  | cons line rest ih =>
    intro stats inB hb hc hk hs hlen
    simp only [List.length_cons, Nat.cast_add, Nat.cast_one] at hlen
    have hrest : (0 : Int) ≤ rest.length := Int.ofNat_nonneg _
    obtain ⟨ht, hcl⟩ := analyze_line_counts lang stats inB line
    rw [int_inc_of_lt _ (by omega) (by omega)] at ht
    have step := ih (analyze_line lang stats inB line).1 (analyze_line lang stats inB line).2
    simp only [analyze_lines, List.length_cons, Nat.cast_add, Nat.cast_one]
    rcases hcl with ⟨a, b, c⟩ | ⟨a, b, c⟩ | ⟨a, b, c⟩
    · rw [int_inc_of_lt _ (by omega) (by omega)] at a
      obtain ⟨r1, r2, r3, r4, r5⟩ := step (by omega) (by omega) (by omega) (by omega) (by omega)
      exact ⟨by omega, r2, r3, r4, r5⟩
    · rw [int_inc_of_lt _ (by omega) (by omega)] at b
      obtain ⟨r1, r2, r3, r4, r5⟩ := step (by omega) (by omega) (by omega) (by omega) (by omega)
      exact ⟨by omega, r2, r3, r4, r5⟩
    · rw [int_inc_of_lt _ (by omega) (by omega)] at c
      obtain ⟨r1, r2, r3, r4, r5⟩ := step (by omega) (by omega) (by omega) (by omega) (by omega)
      exact ⟨by omega, r2, r3, r4, r5⟩

/-- A run of `n` copies of a line that leaves `inBlockComment` alone applies
the effect of the line on the counters `n` times. -/
theorem analyze_lines_run (lang : Language) (inB : Bool) (l : List Char)
    (f : FileStats → FileStats)
    (hf : ∀ stats, analyze_line lang stats inB l = (f stats, inB)) :
    ∀ (n : Nat) (rest : List (List Char)) (stats : FileStats),
      analyze_lines lang (List.replicate n l ++ rest) stats inB
        = analyze_lines lang rest (f^[n] stats) inB := by
  intro n
  induction n with
  | zero =>
    intro rest stats
    simp
  | succ n ih =>
    intro rest stats
    rw [List.replicate_succ, List.cons_append]
    show analyze_lines lang (List.replicate n l ++ rest) (analyze_line lang stats inB l).1
      (analyze_line lang stats inB l).2 = _
    rw [hf stats, ih rest (f stats), Function.iterate_succ_apply]

theorem iterate_blank (n : Nat) :
    ∀ stats : FileStats,
      (fun s : FileStats => { s with totalLines := int_inc s.totalLines,
                                      blankLines := int_inc s.blankLines })^[n] stats
        = { stats with totalLines := int_inc^[n] stats.totalLines,
                       blankLines := int_inc^[n] stats.blankLines } := by
  induction n with
  | zero =>
    intro stats
    rfl
  | succ n ih =>
    intro stats
    rw [Function.iterate_succ_apply, ih]
    rfl

theorem iterate_code (n : Nat) :
    ∀ stats : FileStats,
      (fun s : FileStats => { s with totalLines := int_inc s.totalLines,
                                      codeLines := int_inc s.codeLines })^[n] stats
        = { stats with totalLines := int_inc^[n] stats.totalLines,
                       codeLines := int_inc^[n] stats.codeLines } := by
  induction n with
  | zero =>
    intro stats
    rfl
  | succ n ih =>
    intro stats
    rw [Function.iterate_succ_apply, ih]
    rfl

theorem starts_with_iff (pat s : List Char) :
    starts_with pat s = true ↔ ∃ post, s = pat ++ post := by
  induction pat generalizing s with
  | nil => simp [starts_with]
  | cons p ps ih =>
    cases s with
    | nil => simp [starts_with]
    | cons c cs =>
      simp only [starts_with]
      by_cases hpc : p = c
      · subst hpc
        simp only [if_true, ih cs, List.cons_append, List.cons.injEq, true_and]
      · simp only [hpc, if_false, List.cons_append, List.cons.injEq]
        constructor
        · intro h
          cases h
        · rintro ⟨post, h, -⟩
          exact absurd h.symm hpc

theorem find_from_ge (pat : List Char) :
    ∀ (s : List Char) (i j : Nat), find_from pat s i = some j → i ≤ j := by
  intro s
  induction s with
  | nil =>
    intro i j h
    simp only [find_from] at h
    split at h
    · cases h
      exact Nat.le_refl _
    · cases h
  | cons c cs ih =>
    intro i j h
    simp only [find_from] at h
    split at h
    · cases h
      exact Nat.le_refl _
    · have := ih (i + 1) j h
      omega

/-- The search reports the start offset exactly when the text is there. -/
theorem find_from_here (pat : List Char) (hpat : pat ≠ []) (s : List Char) (i : Nat) :
    find_from pat s i = some i ↔ starts_with pat s = true := by
  cases s with
  | nil =>
    cases pat with
    | nil => exact absurd rfl hpat
    | cons p ps => simp [find_from, starts_with]
  | cons c cs =>
    simp only [find_from]
    by_cases hs : starts_with pat (c :: cs) = true
    · simp [hs]
    · simp only [hs, if_false]
      constructor
      · intro h
        have := find_from_ge pat cs (i + 1) i h
        omega
      · intro h
        cases h

/-- The search fails exactly when the text occurs nowhere. -/
theorem find_from_none (pat : List Char) (hpat : pat ≠ []) :
    ∀ (s : List Char) (i : Nat),
      find_from pat s i = none ↔ ¬ ∃ pre post, s = pre ++ pat ++ post := by
  intro s
  induction s with
  | nil =>
    intro i
    simp only [find_from, hpat, if_false, true_iff]
    rintro ⟨pre, post, h⟩
    have h' := congrArg List.length h
    simp only [List.length_nil, List.length_append] at h'
    have : 0 < pat.length := List.length_pos.mpr hpat
    omega
  | cons c cs ih =>
    intro i
    simp only [find_from]
    by_cases hs : starts_with pat (c :: cs) = true
    · simp only [hs, if_true]
      constructor
      · intro h
        cases h
      · intro h
        exfalso
        apply h
        obtain ⟨post, hp⟩ := (starts_with_iff pat (c :: cs)).mp hs
        exact ⟨[], post, by simpa using hp⟩
    · have hs' : starts_with pat (c :: cs) = false := by simpa using hs
      simp only [hs', Bool.false_eq_true, if_false, ih (i + 1)]
      constructor
      · rintro h ⟨pre, post, hp⟩
        cases pre with
        | nil =>
          apply hs
          exact (starts_with_iff pat (c :: cs)).mpr ⟨post, by simpa using hp⟩
        | cons a pre' =>
          apply h
          simp only [List.cons_append, List.cons.injEq] at hp
          exact ⟨pre', post, hp.2⟩
      · rintro h ⟨pre, post, hp⟩
        apply h
        exact ⟨c :: pre, post, by simp [hp]⟩

/-- `line.find(pat, pos) == npos` exactly when `pat` does not occur in `line`
at or after offset `pos`. -/
theorem find_none_iff (line pat : List Char) (hpat : pat ≠ []) (pos : Nat) :
    find line pat pos = none ↔ ¬ occurs_from pat line pos := by
  unfold find occurs_from
  by_cases hpos : pos > line.length
  · simp only [hpos, if_true, true_iff]
    rintro ⟨pre, post, h, hle⟩
    have h' := congrArg List.length h
    simp only [List.length_append] at h'
    omega
  · simp only [hpos, if_false, find_from_none pat hpat]
    have hle : pos ≤ line.length := by omega
    constructor
    · rintro h ⟨pre, post, hp, hpl⟩
      apply h
      refine ⟨pre.drop pos, post, ?_⟩
      rw [hp, List.append_assoc, List.drop_append_of_le_length hpl, List.append_assoc]
    · rintro h ⟨pre, post, hp⟩
      apply h
      refine ⟨line.take pos ++ pre, post, ?_, ?_⟩
      · rw [List.append_assoc, List.append_assoc, ← List.append_assoc pre, ← hp,
          List.take_append_drop]
      · simp [List.length_take, hle]

/-- `line.find(pat, pos) == pos` exactly when `pat` stands at offset `pos`. -/
theorem find_here_iff (pre rest pat : List Char) (hpat : pat ≠ []) :
    find (pre ++ rest) pat pre.length = some pre.length ↔ starts_with pat rest = true := by
  unfold find
  have : ¬ (pre.length > (pre ++ rest).length) := by simp
  simp only [this, if_false, List.drop_left]
  exact find_from_here pat hpat rest pre.length

theorem ffno_all (chars : List Char) :
    ∀ (s : List Char) (i : Nat), (∀ c ∈ s, c ∈ chars) → find_first_not_of_from chars s i = none := by
  intro s
  induction s with
  | nil =>
    intro i _
    rfl
  | cons c cs ih =>
    intro i h
    have hc : chars.contains c = true := by
      simpa using h c (List.mem_cons_self _ _)
    simp only [find_first_not_of_from, hc, if_true]
    exact ih (i + 1) (fun x hx => h x (List.mem_cons_of_mem _ hx))

theorem ffno_stop (chars : List Char) (c : Char) (rest : List Char) (hc : c ∉ chars) :
    ∀ (w : List Char) (i : Nat), (∀ x ∈ w, x ∈ chars) →
      find_first_not_of_from chars (w ++ c :: rest) i = some (i + w.length) := by
  intro w
  induction w with
  | nil =>
    intro i _
    have : chars.contains c = false := by simpa using hc
    simp only [List.nil_append, find_first_not_of_from, this, Bool.false_eq_true, if_false,
      List.length_nil, Nat.add_zero]
  | cons a r ih =>
    intro i h
    have ha : chars.contains a = true := by
      simpa using h a (List.mem_cons_self _ _)
    rw [List.cons_append]
    simp only [find_first_not_of_from, ha, if_true]
    rw [ih (i + 1) (fun x hx => h x (List.mem_cons_of_mem _ hx))]
    simp only [List.length_cons]
    congr 1
    omega

/-- A line that does not consist of spaces and tabs only splits at its first
other character. -/
theorem split_at_first_non_space :
    ∀ (s : List Char), ¬ only_spaces_tabs s →
      ∃ w c rest, s = w ++ c :: rest ∧ only_spaces_tabs w ∧ c ≠ ' ' ∧ c ≠ '\t' := by
  intro s
  induction s with
  | nil =>
    intro h
    exact absurd (fun c hc => by simp at hc) h
  | cons a r ih =>
    intro h
    by_cases ha : a = ' ' ∨ a = '\t'
    · have hr : ¬ only_spaces_tabs r := by
        intro hr
        apply h
        intro c hc
        rcases List.mem_cons.mp hc with e | e
        · rw [e]
          exact ha
        · exact hr c e
      obtain ⟨w, c, rest, hs, hw, hc1, hc2⟩ := ih hr
      refine ⟨a :: w, c, rest, by simp [hs], ?_, hc1, hc2⟩
      intro x hx
      rcases List.mem_cons.mp hx with e | e
      · rw [e]
        exact ha
      · exact hw x e
    · simp only [not_or] at ha
      exact ⟨[], a, r, rfl, fun c hc => by simp at hc, ha.1, ha.2⟩

theorem mem_space_tab (c : Char) : c ∈ [' ', '\t'] ↔ (c = ' ' ∨ c = '\t') := by
  simp

theorem ffno_blank (line : List Char) (h : only_spaces_tabs line) :
    find_first_not_of line [' ', '\t'] = none :=
  ffno_all _ line 0 (fun c hc => (mem_space_tab c).mpr (h c hc))

theorem ffno_split (w rest : List Char) (c : Char) (hw : only_spaces_tabs w)
    (hc1 : c ≠ ' ') (hc2 : c ≠ '\t') :
    find_first_not_of (w ++ c :: rest) [' ', '\t'] = some w.length := by
  have := ffno_stop [' ', '\t'] c rest (by simp [hc1, hc2]) w 0
    (fun x hx => (mem_space_tab x).mpr (hw x hx))
  simpa [find_first_not_of] using this

theorem analyze_line_blank (lang : Language) (stats : FileStats) (inB : Bool)
    (line : List Char) (h : only_spaces_tabs line) :
    analyze_line lang stats inB line
      = ({ stats with totalLines := int_inc stats.totalLines,
                      blankLines := int_inc stats.blankLines }, inB) := by
  simp only [analyze_line, ffno_blank line h]

theorem analyze_line_in_block (lang : Language) (hlang : lang ≠ Language.PYTHON)
    (stats : FileStats) (line : List Char) (h : ¬ only_spaces_tabs line) :
    (analyze_line lang stats true line).1
      = { stats with totalLines := int_inc stats.totalLines,
                     commentLines := int_inc stats.commentLines } ∧
    ((analyze_line lang stats true line).2 = true ↔ ¬ occurs_from ['*', '/'] line 0) := by
  obtain ⟨w, c, rest, hs, hw, hc1, hc2⟩ := split_at_first_non_space line h
  have hf := ffno_split w rest c hw hc1 hc2
  rw [← hs] at hf
  have hn := find_none_iff line ['*', '/'] (by simp) 0
  simp only [analyze_line, hf, hlang, if_false, if_true, true_and]
  by_cases hfind : find line ['*', '/'] 0 = none
  · simp only [hfind, ne_eq, not_true_eq_false, if_false, true_iff]
    exact hn.mp hfind
  · simp only [ne_eq, hfind, not_false_eq_true, if_true, Bool.false_eq_true, false_iff,
      not_not]
    by_contra hc
    exact hfind (hn.mpr hc)

theorem analyze_line_opener (lang : Language) (hlang : lang ≠ Language.PYTHON)
    (stats : FileStats) (w rest : List Char) (hw : only_spaces_tabs w) :
    (analyze_line lang stats false (w ++ '/' :: '*' :: rest)).1
      = { stats with totalLines := int_inc stats.totalLines,
                     commentLines := int_inc stats.commentLines } ∧
    ((analyze_line lang stats false (w ++ '/' :: '*' :: rest)).2 = true
      ↔ ¬ occurs_from ['*', '/'] (w ++ '/' :: '*' :: rest) (w.length + 2)) := by
  have hf := ffno_split w ('*' :: rest) '/' hw (by decide) (by decide)
  have hslash : ¬ (find (w ++ '/' :: '*' :: rest) ['/', '/'] w.length = some w.length) := by
    rw [find_here_iff w ('/' :: '*' :: rest) ['/', '/'] (by simp)]
    simp [starts_with]
  have hstar : find (w ++ '/' :: '*' :: rest) ['/', '*'] w.length = some w.length := by
    rw [find_here_iff w ('/' :: '*' :: rest) ['/', '*'] (by simp)]
    simp [starts_with]
  have hn := find_none_iff (w ++ '/' :: '*' :: rest) ['*', '/'] (by simp) (w.length + 2)
  simp only [analyze_line, hf, hlang, if_false, Bool.false_eq_true, hslash, hstar, if_true,
    true_and]
  by_cases hfind : find (w ++ '/' :: '*' :: rest) ['*', '/'] (w.length + 2) = none
  · simp only [hfind, if_true, true_iff]
    exact hn.mp hfind
  · simp only [hfind, if_false, Bool.false_eq_true, false_iff, not_not]
    by_contra hc
    exact hfind (hn.mpr hc)

theorem all_iff_only_spaces_tabs (l : List Char) :
    l.all (fun c => decide (c = ' ' ∨ c = '\t')) = true ↔ only_spaces_tabs l := by
  simp [only_spaces_tabs]

/-- While a block is open, lines without `*/` keep it open: the blank ones
count as blank, the others as comment. -/
theorem analyze_lines_open_block (lang : Language) (hlang : lang ≠ Language.PYTHON) :
    ∀ (body rest : List (List Char)) (stats : FileStats),
      (∀ l ∈ body, ¬ occurs_from ['*', '/'] l 0) →
      analyze_lines lang (body ++ rest) stats true
        = analyze_lines lang rest
            { totalLines := int_inc^[body.length] stats.totalLines,
              blankLines := int_inc^[blank_count body] stats.blankLines,
              commentLines := int_inc^[body.length - blank_count body] stats.commentLines,
              codeLines := stats.codeLines } true := by
  intro body
  induction body with
  | nil =>
    intro rest stats _
    simp [blank_count]
  | cons l body ih =>
    intro rest stats h
    have hl := h l (List.mem_cons_self _ _)
    have hb : ∀ x ∈ body, ¬ occurs_from ['*', '/'] x 0 :=
      fun x hx => h x (List.mem_cons_of_mem _ hx)
    have hle : blank_count body ≤ body.length := List.countP_le_length _
    rw [List.cons_append]
    show analyze_lines lang (body ++ rest) (analyze_line lang stats true l).1
      (analyze_line lang stats true l).2 = _
    by_cases hblank : only_spaces_tabs l
    · rw [analyze_line_blank lang stats true l hblank, ih rest _ hb]
      have e : blank_count (l :: body) = blank_count body + 1 := by
        simp only [blank_count, List.countP_cons, (all_iff_only_spaces_tabs l).mpr hblank,
          if_true]
      have e2 : (l :: body).length - (blank_count body + 1)
          = body.length - blank_count body := by
        simp only [List.length_cons]
        omega
      rw [e, e2, List.length_cons, Function.iterate_succ_apply, Function.iterate_succ_apply]
    · obtain ⟨h1, h2⟩ := analyze_line_in_block lang hlang stats l hblank
      have h2' : (analyze_line lang stats true l).2 = true := h2.mpr hl
      rw [h1, h2', ih rest _ hb]
      have e : blank_count (l :: body) = blank_count body := by
        have : l.all (fun c => decide (c = ' ' ∨ c = '\t')) = false := by
          cases hall : l.all (fun c => decide (c = ' ' ∨ c = '\t')) with
          | false => rfl
          | true => exact absurd ((all_iff_only_spaces_tabs l).mp hall) hblank
        simp only [blank_count, List.countP_cons, this, Bool.false_eq_true, if_false, Nat.add_zero]
      have e2 : (l :: body).length - blank_count body
          = (body.length - blank_count body) + 1 := by
        simp only [List.length_cons]
        omega
      rw [e, e2, List.length_cons, Function.iterate_succ_apply, Function.iterate_succ_apply]

theorem analyze_line_empty (lang : Language) (inB : Bool) (stats : FileStats) :
    analyze_line lang stats inB []
      = ((fun s : FileStats => { s with totalLines := int_inc s.totalLines,
                                        blankLines := int_inc s.blankLines }) stats, inB) := by
  simp [analyze_line, find_first_not_of, find_first_not_of_from]

theorem analyze_line_x (stats : FileStats) :
    analyze_line Language.CPP stats false ['x']
      = ((fun s : FileStats => { s with totalLines := int_inc s.totalLines,
                                        codeLines := int_inc s.codeLines }) stats, false) := by
  simp [analyze_line, find_first_not_of, find_first_not_of_from, find, find_from, starts_with]

theorem analyzeFile_blank_then_code (n : Nat) :
    analyzeFile (some (blank_then_code n)) Language.CPP
      = { totalLines := int_inc^[n] (int_inc^[n] 0), blankLines := int_inc^[n] 0,
          commentLines := 0, codeLines := int_inc^[n] 0 } := by
  have h := analyze_lines_run Language.CPP false ['x'] _ analyze_line_x n []
  rw [List.append_nil] at h
  simp only [analyzeFile, blank_then_code]
  rw [analyze_lines_run Language.CPP false [] _ (analyze_line_empty Language.CPP false) n, h,
    iterate_blank, iterate_code]
  rfl

theorem full_owns : Owns fullMem fullVec ([5] ++ 10 :: []) := ⟨rfl, by decide, rfl⟩

/-! ## The claims -/

/-- C1: from a default-constructed vector, `push_back(x_1); ...; push_back(x_N)`
(each call through either overload) returns normally, leaves size `N`, and
the element at every index `i < N` (reached through `operator[]` or `at`) is
`x_{i+1}`, whatever reallocations happened on the way. Allocation and the
element constructors are assumed not to throw. -/
theorem push_back_sequence_contents (env : Env T) (hnf : env.nofail) (m : Mem T)
    (args : List (Arg T)) :
    ∃ v m', push_all env args Vector.default_ctor m = .ok () (v, m') ∧
      v.m_size = args.length ∧
      ∀ (i : Nat) (hi : i < args.length), ∃ b,
        Vector.index v i = some (b, i) ∧
        Vector.at_ v i m' = .ok (b, i) m' ∧
        m'.load b i = some (args.get ⟨i, hi⟩).val := by
  obtain ⟨v, m', h, hown, -, -⟩ :=
    push_all_spec env hnf args Vector.default_ctor m [] (owns_default m)
  simp only [List.nil_append] at hown
  refine ⟨v, m', h, by simpa using hown.1, ?_⟩
  intro i hi
  have hi' : i < (args.map Arg.val).length := by simpa using hi
  obtain ⟨b, hb, hl⟩ := owns_load m' v _ hown i hi'
  have hsz : v.m_size = args.length := by simpa using hown.1
  refine ⟨b, by simp [Vector.index, hb], ?_, ?_⟩
  · have : ¬ (i ≥ v.m_size) := by omega
    simp [Vector.at_, this, hb]
  · rw [hl]
    simp

/-- Instance of C1: appending 1, 2, 3 to an empty vector of integers. -/
theorem push_back_sequence_contents_witness :
    intEnv.nofail ∧
    ∃ v m1, push_all intEnv [Arg.lvalue 1, Arg.rvalue 2, Arg.lvalue 3] Vector.default_ctor
        { heap := [], trace := [] } = .ok () (v, m1) ∧
      v.m_size = [Arg.lvalue (1 : Int), Arg.rvalue 2, Arg.lvalue 3].length ∧
      ∀ (i : Nat) (hi : i < [Arg.lvalue (1 : Int), Arg.rvalue 2, Arg.lvalue 3].length), ∃ b,
        Vector.index v i = some (b, i) ∧
        Vector.at_ v i m1 = .ok (b, i) m1 ∧
        m1.load b i = some ([Arg.lvalue (1 : Int), Arg.rvalue 2, Arg.lvalue 3].get ⟨i, hi⟩).val :=
  ⟨intEnv_nofail,
    push_back_sequence_contents intEnv intEnv_nofail { heap := [], trace := [] }
      [Arg.lvalue 1, Arg.rvalue 2, Arg.lvalue 3]⟩

/-- C2: in every state reached from the empty program state by any sequence
of the public operations (declaration, copy and move construction, copy and
move assignment, both `push_back` overloads, writes through `operator[]` and
`at`, destruction; exceptions caught and execution resumed), every live
container, sources of moves included, has `m_size ≤ m_capacity`. -/
theorem size_le_capacity_reachable (env : Env T) (ops : List (Op T)) (st : Store T)
    (hrun : run env ops Store.init = some st) (p : Nat) (v : Vector)
    (hv : st.vec? p = some v) : v.m_size ≤ v.m_capacity := by
  have hinit : SizeLeCap (Store.init : Store T) := by
    intro p v h
    simp [Store.init] at h
  exact run_size_le_capacity env ops Store.init st hinit hrun p v ((vec?_iff st p v).mp hv)

/-- Instance of C2: the containers left by `demoProgram2`, among them the
source of a move. -/
theorem size_le_capacity_reachable_witness :
    run debugObjEnv demoProgram2 Store.init = some demoStore2 ∧
    demoStore2.vec? 2 = some { data := none, m_size := 0, m_capacity := 0 } ∧
    (0 : Nat) ≤ 0 :=
  ⟨demo_run2, rfl,
    size_le_capacity_reachable debugObjEnv demoProgram2 demoStore2 demo_run2 2
      { data := none, m_size := 0, m_capacity := 0 } rfl⟩

/-- C3: from a default-constructed vector (capacity 0), after `N ≥ 1`
`push_back` calls the capacity is the least power of two that is at least
`N`; the capacities observed after the first five appends are 1, 2, 4, 4, 8.
Allocation and the element constructors are assumed not to throw. -/
theorem push_back_capacity_least_pow2 (env : Env T) (hnf : env.nofail) (m : Mem T)
    (args : List (Arg T)) (hN : 1 ≤ args.length) :
    (∃ v m', push_all env args Vector.default_ctor m = .ok () (v, m') ∧
      ∃ k, v.m_capacity = 2 ^ k ∧ args.length ≤ 2 ^ k ∧
        ∀ j, args.length ≤ 2 ^ j → 2 ^ k ≤ 2 ^ j) ∧
    (caps_observed env args Vector.default_ctor m).take 5
      = ([1, 2, 4, 4, 8] : List Nat).take args.length := by
  obtain ⟨v, m', h, hown, hcap, hobs⟩ :=
    push_all_spec env hnf args Vector.default_ctor m [] (owns_default m)
  have hsz : v.m_size = args.length := by simpa using hown.1
  have hci : capInv v.m_size v.m_capacity := hcap (Or.inl ⟨rfl, rfl⟩)
  rw [hsz] at hci
  refine ⟨⟨v, m', h, capInv_least _ _ hN hci⟩, ?_⟩
  rw [hobs]
  show (capList 0 0 args.length).take 5 = _
  generalize args.length = n
  match n with
  | 0 => rfl
  | 1 => rfl
  | 2 => rfl
  | 3 => rfl
  | 4 => rfl
  | n + 5 => simp [capList, grown]

/-- Instance of C3: three appends end with capacity 4. -/
theorem push_back_capacity_least_pow2_witness :
    intEnv.nofail ∧ 1 ≤ [Arg.lvalue (1 : Int), Arg.rvalue 2, Arg.lvalue 3].length ∧
    (∃ v m1, push_all intEnv [Arg.lvalue (1 : Int), Arg.rvalue 2, Arg.lvalue 3]
        Vector.default_ctor { heap := [], trace := [] } = .ok () (v, m1) ∧
      ∃ k, v.m_capacity = 2 ^ k ∧
        [Arg.lvalue (1 : Int), Arg.rvalue 2, Arg.lvalue 3].length ≤ 2 ^ k ∧
        ∀ j, [Arg.lvalue (1 : Int), Arg.rvalue 2, Arg.lvalue 3].length ≤ 2 ^ j → 2 ^ k ≤ 2 ^ j) ∧
    (caps_observed intEnv [Arg.lvalue (1 : Int), Arg.rvalue 2, Arg.lvalue 3]
        Vector.default_ctor { heap := [], trace := [] }).take 5
      = ([1, 2, 4, 4, 8] : List Nat).take
          [Arg.lvalue (1 : Int), Arg.rvalue 2, Arg.lvalue 3].length :=
  ⟨intEnv_nofail, by decide,
    push_back_capacity_least_pow2 intEnv intEnv_nofail { heap := [], trace := [] }
      [Arg.lvalue 1, Arg.rvalue 2, Arg.lvalue 3] (by decide)⟩

/-- C4: for a well-formed vector `a`, move construction yields an object with
`a`'s buffer, size, capacity and elements and leaves `a` with no buffer, size
0 and capacity 0; so does move assignment into any distinct well-formed
vector that does not share `a`'s buffer. In both cases a following
`a.push_back(x)` returns normally and leaves `a` with size 1, capacity 1 and the
single element `x`, while the destination still holds the original elements.
Allocation and the element constructors are assumed not to throw. -/
theorem move_transfer (env : Env T) (hnf : env.nofail) (m : Mem T) (a : Vector)
    (xs : List T) (hown : Owns m a xs) (x : Arg T) :
    (∃ a1 m1,
        Vector.move_ctor a m = .ok a ({ data := none, m_size := 0, m_capacity := 0 }, m) ∧
        Vector.push env x { data := none, m_size := 0, m_capacity := 0 } m = .ok () (a1, m1) ∧
        a1.m_size = 1 ∧ a1.m_capacity = 1 ∧ Owns m1 a1 [x.val] ∧ Owns m1 a xs) ∧
    (∀ (t : Vector) (ys : List T) (p q : Nat), p ≠ q → Owns m t ys →
        (∀ d, t.data = some d → a.data ≠ some d) →
        ∃ m0 a1 m1,
          Vector.move_assign p q a t m
            = .ok () ((a, { data := none, m_size := 0, m_capacity := 0 }), m0) ∧
          Owns m0 a xs ∧
          Vector.push env x { data := none, m_size := 0, m_capacity := 0 } m0
            = .ok () (a1, m1) ∧
          a1.m_size = 1 ∧ a1.m_capacity = 1 ∧ Owns m1 a1 [x.val] ∧ Owns m1 a xs) := by
  constructor
  · obtain ⟨a1, m1, h, h1, h2, hown1, hfr⟩ := push_default_spec env hnf m x
    refine ⟨a1, m1, rfl, h, h1, h2, hown1, ?_⟩
    exact owns_frame m m1 a xs hown (fun d hd => hfr d (owns_data_lt m a xs hown d hd))
  · intro t ys p q hpq hot hdisj
    obtain ⟨m0, h0, -, hlen0, hfr0, -, -⟩ := move_assign_spec m a t ys p q hpq hot
    have hown0 : Owns m0 a xs :=
      owns_frame m m0 a xs hown (fun d hd => hfr0 d (fun h => hdisj d h.symm hd))
    obtain ⟨a1, m1, h, h1, h2, hown1, hfr⟩ := push_default_spec env hnf m0 x
    refine ⟨m0, a1, m1, h0, hown0, h, h1, h2, hown1, ?_⟩
    exact owns_frame m0 m1 a xs hown0 (fun d hd => hfr d (owns_data_lt m0 a xs hown0 d hd))

/-- Instance of C4: moving the vector `[5, 10, 15]` of `demoProgram` into a new
object, or into the distinct vector `[7]`, then appending 20 to the source. -/
theorem move_transfer_witness :
    intEnv.nofail ∧ Owns demoMem demoVec [5, 10, 15] ∧
    (∃ a1 m1,
        Vector.move_ctor demoVec demoMem
          = .ok demoVec ({ data := none, m_size := 0, m_capacity := 0 }, demoMem) ∧
        Vector.push intEnv (Arg.lvalue 20) { data := none, m_size := 0, m_capacity := 0 }
          demoMem = .ok () (a1, m1) ∧
        a1.m_size = 1 ∧ a1.m_capacity = 1 ∧ Owns m1 a1 [(Arg.lvalue (20 : Int)).val] ∧
        Owns m1 demoVec [5, 10, 15]) ∧
    ((1 : Nat) ≠ 0 ∧ Owns demoMem demoVec2 [7] ∧
      ∃ m0 a1 m1,
        Vector.move_assign 1 0 demoVec demoVec2 demoMem
          = .ok () ((demoVec, { data := none, m_size := 0, m_capacity := 0 }), m0) ∧
        Owns m0 demoVec [5, 10, 15] ∧
        Vector.push intEnv (Arg.lvalue 20) { data := none, m_size := 0, m_capacity := 0 } m0
          = .ok () (a1, m1) ∧
        a1.m_size = 1 ∧ a1.m_capacity = 1 ∧ Owns m1 a1 [(Arg.lvalue (20 : Int)).val] ∧
        Owns m1 demoVec [5, 10, 15]) :=
  ⟨intEnv_nofail, demo_owns,
    (move_transfer intEnv intEnv_nofail demoMem demoVec [5, 10, 15] demo_owns
      (Arg.lvalue 20)).1,
    by decide, demo_owns2,
    (move_transfer intEnv intEnv_nofail demoMem demoVec [5, 10, 15] demo_owns
      (Arg.lvalue 20)).2 demoVec2 [7] 1 0 (by decide) demo_owns2 (by decide)⟩

/-- C5: after `b` is copy-constructed from a well-formed `a`, both hold the
same elements in separate buffers; appending `x` to `b` leaves `a`'s fields
and elements as they were and makes `b` hold `a`'s elements followed by `x`,
and appending to `a` instead leaves `b`'s fields and elements as they were.
Allocation and the element constructors are assumed not to throw. -/
theorem copy_independence (env : Env T) (hnf : env.nofail) (m : Mem T) (a : Vector)
    (xs : List T) (hown : Owns m a xs) (x : Arg T) :
    ∃ b m1, Vector.copy_ctor env a m = .ok b m1 ∧ Owns m1 a xs ∧ Owns m1 b xs ∧
      b.data ≠ a.data ∧
      (∃ b2 m2, Vector.push env x b m1 = .ok () (b2, m2) ∧
        Owns m2 b2 (xs ++ [x.val]) ∧ Owns m2 a xs) ∧
      (∃ a2 m2, Vector.push env x a m1 = .ok () (a2, m2) ∧
        Owns m2 a2 (xs ++ [x.val]) ∧ Owns m2 b xs) := by
  obtain ⟨hal, hcp, hmv⟩ := hnf
  obtain ⟨m1, h1, hlen1, hfr1, hnew1, -⟩ := copy_ctor_spec env m a xs hown (hal _ _)
  have hall : xs.all env.copyOk = true := all_of_forall _ _ (fun y _ => hcp y)
  rw [takeWhile_of_forall _ _ (fun y _ => hcp y)] at hnew1
  simp only [hall, if_true] at h1
  have hown1a : Owns m1 a xs :=
    owns_frame m m1 a xs hown (fun d hd => hfr1 d (owns_data_lt m a xs hown d hd))
  have hown1b : Owns m1 (Vector.mk (some m.heap.length) a.m_size a.m_capacity) xs :=
    ⟨hown.1, hown.2.1, hnew1⟩
  have hne : (some m.heap.length : Option Nat) ≠ a.data := by
    intro h
    have := owns_data_lt m a xs hown m.heap.length h.symm
    omega
  refine ⟨_, m1, h1, hown1a, hown1b, hne, ?_, ?_⟩
  · obtain ⟨b2, m2, h2, hown2, -, -, hfr2, -, -⟩ :=
      push_spec env m1 _ xs x hown1b ⟨hal, hcp, hmv⟩
    refine ⟨_, m2, h2, hown2, ?_⟩
    refine owns_frame m1 m2 a xs hown1a (fun d hd => hfr2 d (owns_data_lt m1 a xs hown1a d hd) ?_)
    intro h
    apply hne
    rw [hd]
    exact h.symm
  · obtain ⟨a2, m2, h2, hown2, -, -, hfr2, -, -⟩ :=
      push_spec env m1 a xs x hown1a ⟨hal, hcp, hmv⟩
    refine ⟨_, m2, h2, hown2, ?_⟩
    refine owns_frame m1 m2 _ xs hown1b (fun d hd => hfr2 d ?_ ?_)
    · cases hd
      omega
    · cases hd
      exact hne

/-- Instance of C5: the vector `[5, 10, 15]` is copied and 20 is appended to
the copy, or to the original. -/
theorem copy_independence_witness :
    intEnv.nofail ∧ Owns demoMem demoVec [5, 10, 15] ∧
    ∃ b m1, Vector.copy_ctor intEnv demoVec demoMem = .ok b m1 ∧
      Owns m1 demoVec [5, 10, 15] ∧ Owns m1 b [5, 10, 15] ∧
      b.data ≠ demoVec.data ∧
      (∃ b2 m2, Vector.push intEnv (Arg.lvalue 20) b m1 = .ok () (b2, m2) ∧
        Owns m2 b2 ([5, 10, 15] ++ [(Arg.lvalue (20 : Int)).val]) ∧
        Owns m2 demoVec [5, 10, 15]) ∧
      (∃ a2 m2, Vector.push intEnv (Arg.lvalue 20) demoVec m1 = .ok () (a2, m2) ∧
        Owns m2 a2 ([5, 10, 15] ++ [(Arg.lvalue (20 : Int)).val]) ∧
        Owns m2 b [5, 10, 15]) :=
  ⟨intEnv_nofail, demo_owns,
    copy_independence intEnv intEnv_nofail demoMem demoVec [5, 10, 15] demo_owns
      (Arg.lvalue 20)⟩

/-- C6 as the code has it: the copy made by the copy constructor, and the
target of a copy assignment from a distinct vector, get a buffer of the
source's capacity (not of its size); the size is the source's size and the
elements are copy-constructed from the source's elements in index order.
Allocation and the element constructors are assumed not to throw. -/
theorem copy_takes_source_capacity (env : Env T) (hnf : env.nofail) (m : Mem T) (a : Vector)
    (xs : List T) (hown : Owns m a xs) :
    (∃ b m1, Vector.copy_ctor env a m = .ok b m1 ∧
      b.m_capacity = a.m_capacity ∧ b.m_size = a.m_size ∧ Owns m1 b xs ∧
      m1.trace = m.trace ++ (Event.alloc m.heap.length a.m_capacity
        :: (List.range xs.length).map (fun j => Event.copy_ctor m.heap.length j))) ∧
    (∀ (t : Vector) (ys : List T) (p q : Nat), p ≠ q → Owns m t ys →
      ∃ t1 m2, Vector.copy_assign env p q a t m = .ok () (t1, m2) ∧
        t1.m_capacity = a.m_capacity ∧ t1.m_size = a.m_size ∧ Owns m2 t1 xs ∧
        m2.trace = m.trace ++ (Event.alloc m.heap.length a.m_capacity
            :: (List.range xs.length).map (fun j => Event.copy_ctor m.heap.length j))
          ++ dtor_trace t.data ys.length) := by
  constructor
  · obtain ⟨hal, hcp, hmv⟩ := hnf
    obtain ⟨m1, h1, hlen1, hfr1, hnew1, htr1⟩ := copy_ctor_spec env m a xs hown (hal _ _)
    have hall : xs.all env.copyOk = true := all_of_forall _ _ (fun y _ => hcp y)
    rw [takeWhile_of_forall _ _ (fun y _ => hcp y)] at hnew1 htr1
    simp only [hall, if_true] at h1
    exact ⟨_, m1, h1, rfl, rfl, ⟨hown.1, hown.2.1, hnew1⟩, htr1⟩
  · intro t ys p q hpq hot
    obtain ⟨m2, h2, hown2, -, -, -, htr2⟩ := copy_assign_spec env hnf m a t xs ys p q hpq hown hot
    exact ⟨_, m2, h2, rfl, rfl, hown2, htr2⟩

/-- Instance of the amended C6: the copy of the vector `[5, 10, 15]` of
capacity 4 has capacity 4. -/
theorem copy_takes_source_capacity_witness :
    intEnv.nofail ∧ Owns demoMem demoVec [5, 10, 15] ∧
    ∃ b m1, Vector.copy_ctor intEnv demoVec demoMem = .ok b m1 ∧
      b.m_capacity = demoVec.m_capacity ∧ b.m_size = demoVec.m_size ∧
      Owns m1 b [5, 10, 15] ∧
      m1.trace = demoMem.trace ++ (Event.alloc demoMem.heap.length demoVec.m_capacity
        :: (List.range ([5, 10, 15] : List Int).length).map
            (fun j => Event.copy_ctor demoMem.heap.length j)) :=
  ⟨intEnv_nofail, demo_owns,
    (copy_takes_source_capacity intEnv intEnv_nofail demoMem demoVec [5, 10, 15]
      demo_owns).1⟩

/-- C6 fails as stated: after three appends the vector has size 3 and
capacity 4, and its copy has capacity 4, not 3. -/
theorem copy_capacity_counterexample :
    ∃ a m b m1,
      push_all intEnv [Arg.lvalue 1, Arg.lvalue 2, Arg.lvalue 3] Vector.default_ctor
        { heap := [], trace := [] } = .ok () (a, m) ∧
      Vector.copy_ctor intEnv a m = .ok b m1 ∧
      a.m_size = 3 ∧ b.m_capacity = 4 ∧ b.m_capacity ≠ a.m_size :=
  ⟨_, _, _, _, rfl, rfl, rfl, rfl, by decide⟩

/-- C7: on a well-formed vector, `at(i)` throws `std::out_of_range` exactly
when `i ≥ m_size` (leaving everything as it was); for `i < m_size` it returns
the reference `data[i]`, through which one reads the current value of element
`i`: the value given by the `push_back` that created the element, or the value
of the latest assignment made through the reference. -/
theorem at_bounds_checked (env : Env T) (m : Mem T) (v : Vector) (xs : List T)
    (hown : Owns m v xs) (i : Nat) :
    ((∃ e m1, Vector.at_ v i m = .throw e m1) ↔ i ≥ v.m_size) ∧
    (i ≥ v.m_size → Vector.at_ v i m = .throw .out_of_range m) ∧
    (∀ (hi : i < xs.length), ∃ b,
      Vector.at_ v i m = .ok (b, i) m ∧ Vector.index v i = some (b, i) ∧
      m.load b i = some (xs.get ⟨i, hi⟩) ∧
      ∀ x, ∃ m1, assign_at b i x m = some m1 ∧ Owns m1 v (xs.set i x) ∧
        Vector.at_ v i m1 = .ok (b, i) m1 ∧ m1.load b i = some x) ∧
    (env.nofail → ∀ a : Arg T, ∃ v1 m1 b,
      Vector.push env a v m = .ok () (v1, m1) ∧
      Vector.at_ v1 v.m_size m1 = .ok (b, v.m_size) m1 ∧
      m1.load b v.m_size = some a.val) := by
  have hsz : v.m_size = xs.length := hown.1
  have hat : ∀ (m1 : Mem T), i < v.m_size → ∀ b, v.data = some b →
      Vector.at_ v i m1 = .ok (b, i) m1 := by
    intro m1 hlt b hb
    have : ¬ (i ≥ v.m_size) := by omega
    simp [Vector.at_, this, hb]
  refine ⟨⟨?_, ?_⟩, ?_, ?_, ?_⟩
  · rintro ⟨e, m1, h⟩
    by_contra hlt
    obtain ⟨b, hb, -⟩ := owns_load m v xs hown i (by omega)
    rw [hat m (by omega) b hb] at h
    cases h
  · intro hge
    exact ⟨.out_of_range, m, by simp [Vector.at_, hge]⟩
  · intro hge
    simp [Vector.at_, hge]
  · intro hi
    obtain ⟨b, hb, hl⟩ := owns_load m v xs hown i hi
    refine ⟨b, hat m (by omega) b hb, by simp [Vector.index, hb], hl, ?_⟩
    intro x
    obtain ⟨m1, h1, hown1, -, -, -⟩ := assign_at_spec m v xs hown b i hb hi x
    refine ⟨m1, h1, hown1, hat m1 (by omega) b hb, ?_⟩
    obtain ⟨b', hb', hl'⟩ := owns_load m1 v (xs.set i x) hown1 i (by simpa using hi)
    rw [hb] at hb'
    cases hb'
    rw [hl']
    simp
  · intro hnf a
    obtain ⟨b, m1, h, hown1, -, -, -, -, -⟩ := push_spec env m v xs a hown hnf
    have hlt : v.m_size < (xs ++ [a.val]).length := by simp [hsz]
    obtain ⟨b', hb', hl'⟩ := owns_load m1 _ _ hown1 v.m_size hlt
    cases hb'
    refine ⟨_, m1, b, h, ?_, ?_⟩
    · simp [Vector.at_]
    · rw [hl']
      simp [hsz]

/-- Instance of C7: index 1 of the vector `[5, 10, 15]`. -/
theorem at_bounds_checked_witness :
    Owns demoMem demoVec [5, 10, 15] ∧
    ((∃ e m1, Vector.at_ demoVec 1 demoMem = .throw e m1) ↔ 1 ≥ demoVec.m_size) ∧
    (∀ (hi : 1 < ([5, 10, 15] : List Int).length), ∃ b,
      Vector.at_ demoVec 1 demoMem = .ok (b, 1) demoMem ∧
      Vector.index demoVec 1 = some (b, 1) ∧
      demoMem.load b 1 = some (([5, 10, 15] : List Int).get ⟨1, hi⟩) ∧
      ∀ x, ∃ m1, assign_at b 1 x demoMem = some m1 ∧
        Owns m1 demoVec (([5, 10, 15] : List Int).set 1 x) ∧
        Vector.at_ demoVec 1 m1 = .ok (b, 1) m1 ∧ m1.load b 1 = some x) :=
  ⟨demo_owns,
    (at_bounds_checked intEnv demoMem demoVec [5, 10, 15] demo_owns 1).1,
    (at_bounds_checked intEnv demoMem demoVec [5, 10, 15] demo_owns 1).2.2.1⟩

/-- C8: copy-assigning a vector to itself and move-assigning it to itself
return at once: the fields, the heap (hence every element) and the trace
(hence the constructions and destructions performed) are what they were. -/
theorem self_assignment_noop (env : Env T) (p : Nat) (v : Vector) (m : Mem T) :
    Vector.copy_assign env p p v v m = .ok () (v, m) ∧
    Vector.move_assign p p v v m = .ok () ((v, v), m) := by
  simp [Vector.copy_assign, Vector.move_assign]

/-- C9: with element constructors and an allocator that do not throw, in
every state reached from the empty program state by a sequence of container
operations (growth, copies, moves, assignments, destructions included) the
number of element constructions into buffer slots equals the number of element
destructions plus the sum of the sizes of the live containers, and every
object in the heap is an element of a live container. Destroying all live
containers is then defined (no slot is destroyed twice) and leaves as many
destructions as constructions and no object in the heap. -/
theorem construction_destruction_balance (env : Env T) (hnf : env.nofail)
    (ops : List (Op T)) (st : Store T) (hrun : run env ops Store.init = some st) :
    constructions st.mem.trace = destructions st.mem.trace + st.live_sizes ∧
    (∀ b i x, st.mem.load b i = some x →
      ∃ p v, st.vec? p = some v ∧ v.data = some b ∧ i < v.m_size) ∧
    ∃ st', run env (end_all st) st = some st' ∧
      (∀ p, st'.vec? p = none) ∧
      constructions st'.mem.trace = destructions st'.mem.trace ∧
      ∀ b i, st'.mem.load b i = none := by
  have hwf : WF st := run_WF env hnf ops Store.init st WF_init hrun
  refine ⟨hwf.counts, load_owner st hwf, ?_⟩
  have hnd : st.live.Nodup := by
    unfold Store.live
    exact List.Nodup.filter _ (List.nodup_range _)
  have hlive : ∀ p ∈ st.live, ∃ v, st.vecs[p]? = some (some v) := by
    intro p hp
    simp only [Store.live, List.mem_filter, List.mem_range, Option.isSome_iff_exists] at hp
    obtain ⟨-, v, hv⟩ := hp
    exact ⟨v, (vec?_iff st p v).mp hv⟩
  obtain ⟨st', hrun', hwf', hdead, hsame⟩ := run_end_scopes env hnf st.live st hwf hnd hlive
  have hnone : ∀ (p : Nat) (v : Vector), st'.vecs[p]? ≠ some (some v) := by
    intro p v hc
    by_cases hp : p ∈ st.live
    · exact hdead p hp v hc
    · rw [hsame p hp] at hc
      apply hp
      have hpl := heap_lt_of_getElem? _ _ _ hc
      simp only [Store.live, List.mem_filter, List.mem_range, Option.isSome_iff_exists]
      exact ⟨hpl, v, (vec?_iff st p v).mpr hc⟩
  have hvec : ∀ p, st'.vec? p = none := by
    intro p
    cases hv : st'.vec? p with
    | none => rfl
    | some v => exact absurd ((vec?_iff st' p v).mp hv) (hnone p v)
  refine ⟨st', hrun', hvec, ?_, ?_⟩
  · have := hwf'.counts
    rw [Store.live_sizes, live_sizes_zero st'.vecs hnone] at this
    exact this
  · intro b i
    cases hl : st'.mem.load b i with
    | none => rfl
    | some x =>
      obtain ⟨p, v, hp, -⟩ := load_owner st' hwf' b i x hl
      rw [hvec p] at hp
      cases hp

/-- Instance of C9: the state after `demoProgram2`. -/
theorem construction_destruction_balance_witness :
    debugObjEnv.nofail ∧ run debugObjEnv demoProgram2 Store.init = some demoStore2 ∧
    constructions demoStore2.mem.trace
      = destructions demoStore2.mem.trace + demoStore2.live_sizes ∧
    (∀ b i x, demoStore2.mem.load b i = some x →
      ∃ p v, demoStore2.vec? p = some v ∧ v.data = some b ∧ i < v.m_size) ∧
    ∃ st1, run debugObjEnv (end_all demoStore2) demoStore2 = some st1 ∧
      (∀ p, st1.vec? p = none) ∧
      constructions st1.mem.trace = destructions st1.mem.trace ∧
      ∀ b i, st1.mem.load b i = none :=
  ⟨debugObjEnv_nofail, demo_run2,
    construction_destruction_balance debugObjEnv debugObjEnv_nofail demoProgram2 demoStore2
      demo_run2⟩

/-- C10: if copy assignment `t = s` between distinct well-formed vectors
throws, then `t`'s fields are unchanged, every block that existed before
(so `t`'s and `s`'s buffers and elements) is unchanged, and both vectors are
still well formed with their old contents. It does throw when the allocation
fails or when the copy of some element of `s` throws. -/
theorem copy_assign_failure_leaves_target (env : Env T) (m : Mem T) (s t : Vector)
    (xs ys : List T) (p q : Nat) (hpq : p ≠ q) (hos : Owns m s xs) (hot : Owns m t ys) :
    (∀ e t1 m1, Vector.copy_assign env p q s t m = .throw e (t1, m1) →
      t1 = t ∧ (∀ c, c < m.heap.length → m1.heap[c]? = m.heap[c]?) ∧
      Owns m1 t ys ∧ Owns m1 s xs) ∧
    (env.allocOk m.heap.length s.m_capacity = false →
      Vector.copy_assign env p q s t m = .throw .bad_alloc (t, m)) ∧
    (env.allocOk m.heap.length s.m_capacity = true →
      ∀ (k : Nat) (hk : k < xs.length), env.copyOk (xs.get ⟨k, hk⟩) = false →
      ∃ m1, Vector.copy_assign env p q s t m = .throw .elem_throw (t, m1)) := by
  have hthrow : ∀ (e : Exn) (m1 : Mem T), Vector.copy_ctor env s m = .throw e m1 →
      Vector.copy_assign env p q s t m = .throw e (t, m1) := by
    intro e m1 h
    unfold Vector.copy_assign
    simp only [hpq, if_false, h]
  have hframe : ∀ (m1 : Mem T), (∀ c, c < m.heap.length → m1.heap[c]? = m.heap[c]?) →
      Owns m1 t ys ∧ Owns m1 s xs := by
    intro m1 hfr
    exact ⟨owns_frame m m1 t ys hot (fun d hd => hfr d (owns_data_lt m t ys hot d hd)),
      owns_frame m m1 s xs hos (fun d hd => hfr d (owns_data_lt m s xs hos d hd))⟩
  refine ⟨?_, ?_, ?_⟩
  · intro e t1 m1 h
    cases hal : env.allocOk m.heap.length s.m_capacity with
    | false =>
      rw [hthrow _ _ (copy_ctor_bad_alloc env m s hal)] at h
      cases h
      exact ⟨rfl, fun _ _ => rfl, hot, hos⟩
    | true =>
      obtain ⟨m', h1, -, hfr1, -, -⟩ := copy_ctor_spec env m s xs hos hal
      by_cases hall : xs.all env.copyOk = true
      · simp only [hall, if_true] at h1
        unfold Vector.copy_assign at h
        simp only [hpq, if_false, h1] at h
        split at h <;> cases h
      · simp only [hall, if_false] at h1
        rw [hthrow _ _ h1] at h
        have hfacts := hframe m' hfr1
        cases h
        exact ⟨rfl, hfr1, hfacts⟩
  · intro hal
    exact hthrow _ _ (copy_ctor_bad_alloc env m s hal)
  · intro hal k hk hbad
    obtain ⟨m', h1, -, -, -, -⟩ := copy_ctor_spec env m s xs hos hal
    have hall : ¬ (xs.all env.copyOk = true) := by
      intro h
      rw [List.all_eq_true] at h
      have := h (xs.get ⟨k, hk⟩) (List.get_mem xs k hk)
      rw [hbad] at this
      cases this
    simp only [hall, if_false] at h1
    exact ⟨m', hthrow _ _ h1⟩

/-- Instance of C10: assigning the vector `[5, 10, 15]` to the vector `[7]`
when the copy of the value 10 throws. -/
theorem copy_assign_failure_leaves_target_witness :
    (1 : Nat) ≠ 0 ∧ Owns demoMem demoVec [5, 10, 15] ∧ Owns demoMem demoVec2 [7] ∧
    (∃ m1, Vector.copy_assign (throwingCopyEnv (fun x => x != 10)) 1 0 demoVec demoVec2
      demoMem = .throw .elem_throw (demoVec2, m1)) ∧
    (∀ e t1 m1, Vector.copy_assign (throwingCopyEnv (fun x => x != 10)) 1 0 demoVec demoVec2
        demoMem = .throw e (t1, m1) →
      t1 = demoVec2 ∧ (∀ c, c < demoMem.heap.length → m1.heap[c]? = demoMem.heap[c]?) ∧
      Owns m1 demoVec2 [7] ∧ Owns m1 demoVec [5, 10, 15]) :=
  ⟨by decide, demo_owns, demo_owns2,
    (copy_assign_failure_leaves_target (throwingCopyEnv (fun x => x != 10)) demoMem demoVec
      demoVec2 [5, 10, 15] [7] 1 0 (by decide) demo_owns demo_owns2).2.2 rfl 1 (by decide) rfl,
    (copy_assign_failure_leaves_target (throwingCopyEnv (fun x => x != 10)) demoMem demoVec
      demoVec2 [5, 10, 15] [7] 1 0 (by decide) demo_owns demo_owns2).1⟩

/-- C11 as the code has it: when a full, well-formed vector grows in
`push_back` and the move of the element at index `k` throws (the moves of the
elements before it having succeeded), `push_back` throws with the container's
buffer pointer, size and capacity unchanged; the old block is still allocated,
its elements from index `k` on keep their values and those before `k` are
left moved-from; the new block is not released and its first `k` elements
stay constructed; no destructor has run. -/
theorem growth_failure_state (env : Env T) (m : Mem T) (v : Vector) (pre post : List T)
    (x : T) (a : Arg T)
    (hown : Owns m v (pre ++ x :: post)) (hfull : v.m_size = v.m_capacity)
    (halloc : env.allocOk m.heap.length (grown v.m_capacity) = true)
    (hpre : ∀ y ∈ pre, env.moveOk y = true) (hx : env.moveOk x = false) :
    ∃ d m1, v.data = some d ∧
      Vector.push env a v m = .throw .elem_throw (v, m1) ∧
      m1.heap.length = m.heap.length + 1 ∧
      m1.heap[d]? = some (some (pre.map (fun y => some (env.residue y))
        ++ (x :: post).map some)) ∧
      m1.heap[m.heap.length]? = some (some (pre.map some
        ++ List.replicate (grown v.m_capacity - pre.length) none)) ∧
      (∀ c, c < m.heap.length → c ≠ d → m1.heap[c]? = m.heap[c]?) ∧
      m1.trace = m.trace ++ (Event.alloc m.heap.length (grown v.m_capacity)
        :: (List.range pre.length).map (fun j => Event.move_ctor m.heap.length j)) ∧
      destructions m1.trace = destructions m.trace := by
  have hsz : v.m_size = (pre ++ x :: post).length := hown.1
  have hpos : 0 < v.m_capacity := by
    rw [← hfull, hsz]
    simp
  obtain ⟨d, hd⟩ : ∃ d, v.data = some d := by
    cases hdata : v.data with
    | none =>
      have := hown.2.2
      rw [hdata] at this
      simp only at this
      omega
    | some d => exact ⟨d, rfl⟩
  have hn : (pre ++ x :: post).length ≤ grown v.m_capacity := by
    rw [← hsz, hfull]
    unfold grown
    split <;> omega
  obtain ⟨m1, h1, hlen1, hs1, hd1, hfr1, htr1⟩ :=
    reallocate_throw_spec env m v pre post x (grown v.m_capacity) d hown hd hn halloc hpre hx
  have hge : v.m_size ≥ v.m_capacity := by omega
  have hpad : v.m_capacity - (pre ++ x :: post).length = 0 := by omega
  refine ⟨d, m1, hd, ?_, hlen1, ?_, hd1, hfr1, htr1, ?_⟩
  · have hre : Vector.reallocate env (if v.m_capacity = 0 then 1 else v.m_capacity * 2) v m
        = .throw .elem_throw (v, m1) := h1
    cases a with
    | lvalue y => simp only [Vector.push, Vector.push_back, hge, if_true, hre]
    | rvalue y => simp only [Vector.push, Vector.push_back_move, hge, if_true, hre]
  · rw [hs1, hpad]
    simp
  · rw [htr1, destructions_append, destructions_alloc_cons,
      destructions_map_move m.heap.length pre.length (fun j => j)]
    rfl

/-- Instance of the amended C11: the full vector `[5, 10]` grows and the move
of the value 10 throws. -/
theorem growth_failure_state_witness :
    Owns fullMem fullVec ([5] ++ 10 :: []) ∧ fullVec.m_size = fullVec.m_capacity ∧
    (throwingMoveEnv (fun x => x != 10)).moveOk 10 = false ∧
    ∃ d m1, fullVec.data = some d ∧
      Vector.push (throwingMoveEnv (fun x => x != 10)) (Arg.lvalue 20) fullVec fullMem
        = .throw .elem_throw (fullVec, m1) ∧
      m1.heap.length = fullMem.heap.length + 1 ∧
      m1.heap[d]? = some (some (([5] : List Int).map
          (fun y => some ((throwingMoveEnv (fun x => x != 10)).residue y))
        ++ ((10 : Int) :: []).map some)) ∧
      m1.heap[fullMem.heap.length]? = some (some (([5] : List Int).map some
        ++ List.replicate (grown fullVec.m_capacity - ([5] : List Int).length) none)) ∧
      (∀ c, c < fullMem.heap.length → c ≠ d → m1.heap[c]? = fullMem.heap[c]?) ∧
      m1.trace = fullMem.trace ++ (Event.alloc fullMem.heap.length (grown fullVec.m_capacity)
        :: (List.range ([5] : List Int).length).map
            (fun j => Event.move_ctor fullMem.heap.length j)) ∧
      destructions m1.trace = destructions fullMem.trace :=
  ⟨full_owns, rfl, rfl,
    growth_failure_state (throwingMoveEnv (fun x => x != 10)) fullMem fullVec [5] [] 10
      (Arg.lvalue 20) full_owns rfl rfl (by decide) rfl⟩

/-- C11 fails as stated: the full vector `[5, 10]` grows on `push_back(20)`
and the move of the value 10 throws; afterwards the new block (address 2) is
still allocated and holds the moved element 5, no destructor has run, and the
old element at index 0 holds the moved-from value `-1` instead of 5. -/
theorem growth_failure_counterexample :
    ∃ a m m1,
      push_all (throwingMoveEnv (fun x => x != 10)) [Arg.lvalue 5, Arg.lvalue 10]
        Vector.default_ctor { heap := [], trace := [] } = .ok () (a, m) ∧
      a.m_size = a.m_capacity ∧ a.data = some 1 ∧
      m.load 1 0 = some 5 ∧
      Vector.push (throwingMoveEnv (fun x => x != 10)) (Arg.lvalue 20) a m
        = .throw .elem_throw (a, m1) ∧
      m1.heap[2]? = some (some [some 5, none, none, none]) ∧
      m1.load 1 0 = some (-1) ∧
      destructions m1.trace = destructions m.trace :=
  ⟨_, _, _, rfl, rfl, rfl, rfl, rfl, rfl, rfl, rfl⟩

/-- C12: the move constructor, whatever the size of its source, returns with
the memory exactly as it was: the heap is untouched and the trace has no new
event, so no element is copied, moved or destroyed; the new object has the
source's buffer pointer, size and capacity and the source is left with
`nullptr`, size 0 and capacity 0. -/
theorem move_ctor_no_element_ops (other : Vector) (m : Mem T) :
    ∃ v o1 m1, Vector.move_ctor other m = .ok v (o1, m1) ∧
      m1.heap = m.heap ∧ m1.trace = m.trace ∧
      constructions m1.trace = constructions m.trace ∧
      destructions m1.trace = destructions m.trace ∧
      v.data = other.data ∧ v.m_size = other.m_size ∧ v.m_capacity = other.m_capacity ∧
      o1.data = none ∧ o1.m_size = 0 ∧ o1.m_capacity = 0 :=
  ⟨_, _, _, rfl, rfl, rfl, rfl, rfl, rfl, rfl, rfl, rfl, rfl, rfl⟩

/-- C13: on a well-formed vector, when nothing throws, `push_back` returns
with the size increased by exactly 1 and a capacity not below the old one; a
new block is allocated exactly when `m_size = m_capacity`, and then the
capacity follows the growth policy; when `m_size < m_capacity` the buffer
pointer and the capacity are unchanged, nothing is allocated, the only event
is the construction of the new element, and the heap differs from the old one
only in slot `m_size` of the buffer, so the elements at `[0, m_size)` are as
they were. -/
theorem push_back_growth_frame (env : Env T) (hnf : env.nofail) (m : Mem T) (v : Vector)
    (xs : List T) (a : Arg T) (hown : Owns m v xs) :
    ∃ v1 m1, Vector.push env a v m = .ok () (v1, m1) ∧
      v1.m_size = v.m_size + 1 ∧ v.m_capacity ≤ v1.m_capacity ∧
      (m1.heap.length = m.heap.length + 1 ↔ v.m_size = v.m_capacity) ∧
      ((∃ b n, Event.alloc b n ∈ m1.trace.drop m.trace.length) ↔ v.m_size = v.m_capacity) ∧
      (v.m_size = v.m_capacity →
        v1.data = some m.heap.length ∧ v1.m_capacity = grown v.m_capacity) ∧
      (v.m_size < v.m_capacity →
        v1.data = v.data ∧ v1.m_capacity = v.m_capacity ∧
        ∃ b blk, v.data = some b ∧ m.heap[b]? = some (some blk) ∧
          m1.heap = m.heap.set b (some (blk.set v.m_size (some a.val))) ∧
          m1.trace = m.trace ++ [a.event b v.m_size] ∧
          ∀ i, i < v.m_size → m1.load b i = m.load b i) := by
  obtain ⟨b, m1, h, hown1, hb, hlen, hfr, hold, htr⟩ := push_spec env m v xs a hown hnf
  have hsz : v.m_size = xs.length := hown.1
  have hcap : xs.length ≤ v.m_capacity := hown.2.1
  refine ⟨_, m1, h, rfl, ?_, ?_, ?_, ?_, ?_⟩
  · show v.m_capacity ≤ (if v.m_size ≥ v.m_capacity then grown v.m_capacity else v.m_capacity)
    unfold grown
    split <;> [split; skip] <;> omega
  · rw [hlen]
    by_cases hfull : v.m_size ≥ v.m_capacity
    · simp only [hfull, if_true, true_iff]
      omega
    · simp only [hfull, if_false]
      omega
  · rw [htr]
    by_cases hfull : v.m_size ≥ v.m_capacity
    · have he : v.m_size = v.m_capacity := by omega
      simp only [hfull, if_true, he, iff_true]
      refine ⟨m.heap.length, grown v.m_capacity, ?_⟩
      simp [List.append_assoc]
    · have hne : ¬ (v.m_size = v.m_capacity) := by omega
      simp only [hfull, if_false, hne, iff_false, List.append_nil]
      rintro ⟨b', n, hmem⟩
      simp only [List.drop_left, List.mem_singleton] at hmem
      cases a <;> simp [Arg.event] at hmem
  · intro he
    have hfull : v.m_size ≥ v.m_capacity := by omega
    simp only [hfull, if_true] at hb ⊢
    exact ⟨by rw [← hb], trivial⟩
  · intro hlt
    have hfull : ¬ (v.m_size ≥ v.m_capacity) := by omega
    simp only [hfull, if_false] at hb hlen htr ⊢
    refine ⟨hb, trivial, b, blockOf v.m_capacity xs, hb.symm, ?_, ?_, ?_, ?_⟩
    · have := hown.2.2
      rw [← hb] at this
      exact this
    · have hblk : m.heap[b]? = some (some (blockOf v.m_capacity xs)) := by
        have := hown.2.2
        rw [← hb] at this
        exact this
      have hblk1 : m1.heap[b]? = some (some (blockOf v.m_capacity (xs ++ [a.val]))) := by
        have := hown1.2.2
        simp only [hfull, if_false] at this
        exact this
      have hbl := heap_lt_of_getElem? _ _ _ hblk
      apply List.ext_getElem?
      intro c
      by_cases hcb : c = b
      · subst hcb
        rw [hblk1, List.getElem?_set_self hbl, blockOf_snoc _ _ _ (by omega), hsz]
      · rw [List.getElem?_set_ne (Ne.symm hcb)]
        by_cases hcl : c < m.heap.length
        · exact hfr c hcl (fun e => hcb (by rw [← hb] at e; exact Option.some.inj e))
        · rw [List.getElem?_eq_none (by omega), List.getElem?_eq_none (by omega)]
    · rw [htr, hsz]
      simp
    · intro i hi
      obtain ⟨b0, hb0, hl0⟩ := owns_load m v xs hown i (by omega)
      have hi1 : i < (xs ++ [a.val]).length := by
        simp only [List.length_append, List.length_singleton]
        omega
      obtain ⟨b1, hb1, hl1⟩ := owns_load m1 _ _ hown1 i hi1
      rw [← hb] at hb0
      cases hb0
      cases hb1
      rw [hl0, hl1]
      have hi' : i < xs.length := by omega
      simp [List.getElem_append_left hi']

/-- Instance of C13: appending 20 to the vector `[5, 10, 15]` of capacity 4. -/
theorem push_back_growth_frame_witness :
    intEnv.nofail ∧ Owns demoMem demoVec [5, 10, 15] ∧
    ∃ v1 m1, Vector.push intEnv (Arg.lvalue 20) demoVec demoMem = .ok () (v1, m1) ∧
      v1.m_size = demoVec.m_size + 1 ∧ demoVec.m_capacity ≤ v1.m_capacity ∧
      (m1.heap.length = demoMem.heap.length + 1 ↔ demoVec.m_size = demoVec.m_capacity) :=
  ⟨intEnv_nofail, demo_owns,
    match push_back_growth_frame intEnv intEnv_nofail demoMem demoVec [5, 10, 15]
      (Arg.lvalue 20) demo_owns with
    | ⟨v1, m1, h, h1, h2, h3, _⟩ => ⟨v1, m1, h, h1, h2, h3⟩⟩

/-- C14: on a well-formed vector of size `n`, `reallocate(new_capacity)` with
`new_capacity ≥ n` (allocation and moves not throwing) emits, after the
allocation, exactly the move constructions into slots `0, ..., n-1` of the new
block in that order, then exactly the destructions of slots `0, ..., n-1` of
the old block in that order, then the release of the old block; no copy
construction occurs; afterwards the size is still `n`, the capacity is
`new_capacity` and the vector holds the same elements. -/
theorem reallocate_moves_then_destroys (env : Env T) (m : Mem T) (v : Vector) (xs : List T)
    (new_capacity : Nat) (hown : Owns m v xs) (hn : xs.length ≤ new_capacity)
    (halloc : env.allocOk m.heap.length new_capacity = true)
    (hmv : ∀ x ∈ xs, env.moveOk x = true) :
    ∃ v1 m1, Vector.reallocate env new_capacity v m = .ok () (v1, m1) ∧
      m1.trace = m.trace ++ ([Event.alloc m.heap.length new_capacity]
        ++ (List.range v.m_size).map (fun j => Event.move_ctor m.heap.length j)
        ++ (match v.data with
            | none => []
            | some d => (List.range v.m_size).map (fun j => Event.dtor d j) ++ [Event.free d])) ∧
      (∀ b i, Event.copy_ctor b i ∉ m1.trace.drop m.trace.length) ∧
      move_constructions m1.trace = move_constructions m.trace + v.m_size ∧
      destructions m1.trace = destructions m.trace + v.m_size ∧
      v1.m_size = v.m_size ∧ v1.m_capacity = new_capacity ∧ Owns m1 v1 xs := by
  obtain ⟨m1, h, hlen, hnew, hfr, hold, htr⟩ := reallocate_spec env m v xs new_capacity hown hn halloc hmv
  have hsz : v.m_size = xs.length := hown.1
  have htr' : m1.trace = m.trace ++ ([Event.alloc m.heap.length new_capacity]
        ++ (List.range v.m_size).map (fun j => Event.move_ctor m.heap.length j)
        ++ (match v.data with
            | none => []
            | some d => (List.range v.m_size).map (fun j => Event.dtor d j) ++ [Event.free d])) := by
    rw [htr, hsz]
    rfl
  refine ⟨_, m1, h, htr', ?_, ?_, ?_, rfl, rfl, ⟨hsz, hn, hnew⟩⟩
  · intro b i hmem
    rw [htr', List.drop_left] at hmem
    cases hd : v.data <;> simp [hd] at hmem
  · rw [htr']
    cases hd : v.data <;>
      simp [move_constructions, List.countP_append, List.countP_map, Function.comp_def]
  · rw [htr, destructions_append, destructions_append, destructions_append,
      destructions_dtor_trace_owns m v xs hown,
      destructions_map_move m.heap.length xs.length (fun j => j), hsz]
    simp [destructions]

/-- Instance of C14: the vector `[5, 10, 15]` is given a block of 8 slots. -/
theorem reallocate_moves_then_destroys_witness :
    Owns demoMem demoVec [5, 10, 15] ∧ ([5, 10, 15] : List Int).length ≤ 8 ∧
    ∃ v1 m1, Vector.reallocate debugObjEnv 8 demoVec demoMem = .ok () (v1, m1) ∧
      m1.trace = demoMem.trace ++ [Event.alloc 4 8, Event.move_ctor 4 0, Event.move_ctor 4 1,
        Event.move_ctor 4 2, Event.dtor 2 0, Event.dtor 2 1, Event.dtor 2 2, Event.free 2] ∧
      v1.m_size = 3 ∧ v1.m_capacity = 8 ∧ Owns m1 v1 [5, 10, 15] :=
  ⟨demo_owns, by decide,
    match reallocate_moves_then_destroys debugObjEnv demoMem demoVec [5, 10, 15] 8 demo_owns
      (by decide) rfl (fun _ _ => rfl) with
    | ⟨v1, m1, h, htr, _, _, _, h1, h2, hown⟩ => ⟨v1, m1, h, htr, h1, h2, hown⟩⟩

/-- C15: over `N ≥ 1` appends to a default-constructed vector (nothing
throwing), the move constructions performed are one per `push_back(T&&)` call,
for the new element, plus those of the reallocations, and the reallocations
together perform exactly `m_capacity - 1` of them for the final capacity, which
is less than `2 * N`. -/
theorem growth_transfers_linear (env : Env T) (hnf : env.nofail) (m : Mem T)
    (args : List (Arg T)) (hN : 1 ≤ args.length) :
    ∃ v m1, push_all env args Vector.default_ctor m = .ok () (v, m1) ∧
      move_constructions m1.trace
        = move_constructions m.trace + rvalue_calls args + (v.m_capacity - 1) ∧
      v.m_capacity - 1 < 2 * args.length := by
  obtain ⟨v, m1, h, hcount⟩ :=
    push_all_moves env hnf args Vector.default_ctor m [] (owns_default m)
  obtain ⟨v', m1', h', hown, hcap, -⟩ :=
    push_all_spec env hnf args Vector.default_ctor m [] (owns_default m)
  rw [h] at h'
  cases h'
  have hsz : v.m_size = args.length := by simpa using hown.1
  have hci : capInv v.m_size v.m_capacity := hcap (Or.inl ⟨rfl, rfl⟩)
  refine ⟨v, m1, h, ?_, ?_⟩
  · simp only [Vector.default_ctor] at hcount
    omega
  · rcases hci with ⟨h0, -⟩ | ⟨k, -, -, hlt⟩
    · omega
    · omega

/-- Instance of C15: three appends, one of them of an rvalue. -/
theorem growth_transfers_linear_witness :
    intEnv.nofail ∧ 1 ≤ [Arg.lvalue (1 : Int), Arg.rvalue 2, Arg.lvalue 3].length ∧
    ∃ v m1, push_all intEnv [Arg.lvalue (1 : Int), Arg.rvalue 2, Arg.lvalue 3]
        Vector.default_ctor { heap := [], trace := [] } = .ok () (v, m1) ∧
      move_constructions m1.trace
        = move_constructions ([] : List Event)
          + rvalue_calls [Arg.lvalue (1 : Int), Arg.rvalue 2, Arg.lvalue 3]
          + (v.m_capacity - 1) ∧
      v.m_capacity - 1 < 2 * [Arg.lvalue (1 : Int), Arg.rvalue 2, Arg.lvalue 3].length :=
  ⟨intEnv_nofail, by decide,
    growth_transfers_linear intEnv intEnv_nofail { heap := [], trace := [] }
      [Arg.lvalue 1, Arg.rvalue 2, Arg.lvalue 3] (by decide)⟩

/-- C16: for a well-formed vector, `begin()` and `end()` point into the same
buffer at distance `m_size`, and the traversal from `begin()` to `end()`
terminates and visits exactly the offsets `0, 1, ..., m_size - 1` in that
order, reading the elements of the vector (each visited slot holds an
object); for a default-constructed vector and for the source left by a move
`begin() == end()`. -/
theorem begin_end_live_range (m : Mem T) (v : Vector) (xs : List T) (hown : Owns m v xs) :
    (Vector.end_ v).1 = (Vector.begin_ v).1 ∧
    (Vector.end_ v).2 - (Vector.begin_ v).2 = v.m_size ∧
    (∀ fuel, v.m_size ≤ fuel →
      traverse m (Vector.end_ v) fuel (Vector.begin_ v)
        = some ((List.range v.m_size).zip xs)) ∧
    Vector.begin_ Vector.default_ctor = Vector.end_ Vector.default_ctor ∧
    (∀ (other : Vector) (r : Vector) (o1 : Vector) (m1 : Mem T),
      Vector.move_ctor other m = .ok r (o1, m1) → Vector.begin_ o1 = Vector.end_ o1) := by
  obtain ⟨hsz, hcap, hblk⟩ := hown
  refine ⟨rfl, by simp [Vector.end_, Vector.begin_], ?_, rfl, ?_⟩
  · intro fuel hf
    cases hd : v.data with
    | none =>
      rw [hd] at hblk
      simp only at hblk
      have h0 : v.m_size = 0 := by omega
      have hx : xs = [] := List.eq_nil_of_length_eq_zero (by omega)
      subst hx
      cases fuel <;> simp [traverse, Vector.begin_, Vector.end_, h0]
    | some b =>
      rw [hd] at hblk
      simp only at hblk
      have := traverse_spec m b v.m_size (List.replicate (v.m_capacity - xs.length) none)
        xs [] fuel (by omega) (by simp [hsz]) (by simpa [blockOf] using hblk)
      simp only [List.length_nil] at this
      simp only [Vector.begin_, Vector.end_, hd, Nat.zero_add]
      rw [this, hsz, List.range_eq_range']
  · intro other r o1 m1 h
    simp only [Vector.move_ctor, Outcome.ok.injEq, Prod.mk.injEq] at h
    obtain ⟨-, h1, -⟩ := h
    subst h1
    rfl

/-- Instance of C16: traversing the vector `[5, 10, 15]`. -/
theorem begin_end_live_range_witness :
    Owns demoMem demoVec [5, 10, 15] ∧
    (Vector.end_ demoVec).2 - (Vector.begin_ demoVec).2 = demoVec.m_size ∧
    (∀ fuel, demoVec.m_size ≤ fuel →
      traverse demoMem (Vector.end_ demoVec) fuel (Vector.begin_ demoVec)
        = some ((List.range demoVec.m_size).zip [5, 10, 15])) :=
  ⟨demo_owns, (begin_end_live_range demoMem demoVec [5, 10, 15] demo_owns).2.1,
    (begin_end_live_range demoMem demoVec [5, 10, 15] demo_owns).2.2.1⟩

/-- C17, the failing case evaluated: after `Vector<int> v; v.push_back(5);`
the vector is full (size 1, capacity 1), `v[0]` refers to slot 0 of block 0
holding 5, and `v.push_back(v[0])` is undefined: the growth moves the element
out, destroys it and releases block 0 before the new element is constructed
from the reference. -/
theorem push_back_own_element_undefined :
    ∃ v m,
      push_all intEnv [Arg.lvalue 5] Vector.default_ctor { heap := [], trace := [] }
        = .ok () (v, m) ∧
      v.m_size = v.m_capacity ∧ Vector.index v 0 = some (0, 0) ∧ m.load 0 0 = some 5 ∧
      Vector.push_back intEnv (Ref.slot 0 0) v m = .ub :=
  ⟨_, _, rfl, rfl, rfl, rfl, by decide⟩

/-- C18 fails as stated: the file of `2^30` empty lines followed by `2^30`
lines `x` has `2^31` lines, and `analyzeFile` returns `totalLines = -2^31`,
`blankLines = 2^30`, `commentLines = 0`, `codeLines = 2^30`: `totalLines` is
neither the number of lines read nor the sum of the three class counters,
which is `2^31`. -/
theorem analyzeFile_partition_counterexample :
    lines_read (some (blank_then_code 1073741824)) = 2147483648 ∧
    analyzeFile (some (blank_then_code 1073741824)) Language.CPP
      = { totalLines := -2147483648, blankLines := 1073741824, commentLines := 0,
          codeLines := 1073741824 } ∧
    ¬ ((analyzeFile (some (blank_then_code 1073741824)) Language.CPP).totalLines
        = (lines_read (some (blank_then_code 1073741824)) : Int)) ∧
    ¬ ((analyzeFile (some (blank_then_code 1073741824)) Language.CPP).totalLines
        = (analyzeFile (some (blank_then_code 1073741824)) Language.CPP).blankLines
          + (analyzeFile (some (blank_then_code 1073741824)) Language.CPP).commentLines
          + (analyzeFile (some (blank_then_code 1073741824)) Language.CPP).codeLines) := by
  have hlen : lines_read (some (blank_then_code 1073741824)) = 2147483648 := by
    show (List.replicate 1073741824 ([] : List Char)
      ++ List.replicate 1073741824 ['x']).length = 2147483648
    rw [List.length_append, List.length_replicate, List.length_replicate]
  have h1 : int_inc^[1073741824] 0 = 1073741824 := by
    rw [int_inc_iterate_of_lt 1073741824 0 (by omega) (by omega)]
    omega
  have h2 : int_inc^[1073741824] 1073741824 = -2147483648 := by
    rw [int_inc_iterate_wrap 1073741824 (by omega) 1073741824]
    unfold int_wrap
    omega
  have hval : analyzeFile (some (blank_then_code 1073741824)) Language.CPP
      = { totalLines := -2147483648, blankLines := 1073741824, commentLines := 0,
          codeLines := 1073741824 } := by
    rw [analyzeFile_blank_then_code, h1, h2]
  refine ⟨hlen, hval, ?_, ?_⟩
  · rw [hval, hlen]
    show ¬ ((-2147483648 : Int) = ((2147483648 : Nat) : Int))
    omega
  · rw [hval]
    show ¬ ((-2147483648 : Int) = 1073741824 + 0 + 1073741824)
    omega

/-- C18 as the code has it: for every language and every file content of
fewer than `2^31` lines, the statistics returned by `analyzeFile` satisfy
`totalLines = blankLines + commentLines + codeLines`, and `totalLines` is the
number of lines read (0 when the file cannot be opened); no counter is
negative. Each line increments `totalLines` and exactly one of the three other
counters, and an increment of a counter below `INT_MAX` adds one. -/
theorem analyzeFile_partition (content : Option (List (List Char))) (lang : Language)
    (hlen : lines_read content < 2147483648) :
    (analyzeFile content lang).totalLines
      = (analyzeFile content lang).blankLines + (analyzeFile content lang).commentLines
        + (analyzeFile content lang).codeLines ∧
    (analyzeFile content lang).totalLines = (lines_read content : Int) ∧
    0 ≤ (analyzeFile content lang).blankLines ∧
    0 ≤ (analyzeFile content lang).commentLines ∧
    0 ≤ (analyzeFile content lang).codeLines ∧
    (∀ (stats : FileStats) (inB : Bool) (line : List Char),
      (analyze_line lang stats inB line).1.totalLines = int_inc stats.totalLines ∧
      ((analyze_line lang stats inB line).1.blankLines = int_inc stats.blankLines ∧
          (analyze_line lang stats inB line).1.commentLines = stats.commentLines ∧
          (analyze_line lang stats inB line).1.codeLines = stats.codeLines ∨
        (analyze_line lang stats inB line).1.blankLines = stats.blankLines ∧
          (analyze_line lang stats inB line).1.commentLines = int_inc stats.commentLines ∧
          (analyze_line lang stats inB line).1.codeLines = stats.codeLines ∨
        (analyze_line lang stats inB line).1.blankLines = stats.blankLines ∧
          (analyze_line lang stats inB line).1.commentLines = stats.commentLines ∧
          (analyze_line lang stats inB line).1.codeLines = int_inc stats.codeLines)) ∧
    (∀ x : Int, int_inc x ≠ x ∧
      (-2147483648 ≤ x → x < 2147483647 → int_inc x = x + 1)) := by
  refine ⟨?_, ?_, ?_, ?_, ?_, analyze_line_counts lang,
    fun x => ⟨int_inc_ne x, int_inc_of_lt x⟩⟩ <;>
  · cases content with
    | none => simp [analyzeFile, lines_read]
    | some lines =>
      obtain ⟨h1, h2, h3, h4, h5⟩ := analyze_lines_counts lang lines
        { totalLines := 0, blankLines := 0, commentLines := 0, codeLines := 0 } false
        (le_refl _) (le_refl _) (le_refl _) (by simp)
        (by simp only [lines_read] at hlen; simp only [zero_add]; exact_mod_cast hlen)
      simp only [analyzeFile, lines_read]
      simp only [zero_add] at h1
      first
        | exact h5
        | exact h1
        | exact h2
        | exact h3
        | exact h4

/-- Instance of C18: the C++ file with the three lines ` `, `//` and `x`. -/
theorem analyzeFile_partition_witness :
    lines_read (some [[' '], ['/', '/'], ['x']]) < 2147483648 ∧
    (analyzeFile (some [[' '], ['/', '/'], ['x']]) Language.CPP).totalLines
      = (analyzeFile (some [[' '], ['/', '/'], ['x']]) Language.CPP).blankLines
        + (analyzeFile (some [[' '], ['/', '/'], ['x']]) Language.CPP).commentLines
        + (analyzeFile (some [[' '], ['/', '/'], ['x']]) Language.CPP).codeLines ∧
    (analyzeFile (some [[' '], ['/', '/'], ['x']]) Language.CPP).totalLines
      = (lines_read (some [[' '], ['/', '/'], ['x']]) : Int) ∧
    analyzeFile (some [[' '], ['/', '/'], ['x']]) Language.CPP
      = { totalLines := 3, blankLines := 1, commentLines := 1, codeLines := 1 } :=
  ⟨by decide,
    (analyzeFile_partition (some [[' '], ['/', '/'], ['x']]) Language.CPP (by decide)).1,
    (analyzeFile_partition (some [[' '], ['/', '/'], ['x']]) Language.CPP (by decide)).2.1,
    by decide⟩

/-- C19: for C/C++ and Java input the loop body of `analyzeFile` is this state
machine on `inBlockComment`. A line of spaces and tabs only counts as blank
and leaves the state alone. While a block is open, any other line counts as a
comment line, and the block stays open exactly when the line contains no
`*/`; so a block stays open across any lines without `*/`, the blank ones
counting as blank and the others as comment (each counted line is one `++`
on its counter, and `n` of them add `n` as long as the counter stays below
`2^31`). Outside a block, a line whose
first characters after the leading spaces and tabs are `/*` counts as a
comment line and opens a block exactly when no `*/` occurs at or after the
offset two past the opener. The loop applies this body to the lines in
order. -/
theorem block_comment_state_machine (lang : Language)
    (hlang : lang = Language.CPP ∨ lang = Language.JAVA)
    (stats : FileStats) (inB : Bool) (line : List Char) :
    (only_spaces_tabs line →
      analyze_line lang stats inB line
        = ({ stats with totalLines := int_inc stats.totalLines,
                        blankLines := int_inc stats.blankLines }, inB)) ∧
    (¬ only_spaces_tabs line →
      (analyze_line lang stats true line).1
        = { stats with totalLines := int_inc stats.totalLines,
                       commentLines := int_inc stats.commentLines } ∧
      ((analyze_line lang stats true line).2 = true ↔ ¬ occurs_from ['*', '/'] line 0)) ∧
    (∀ w rest, only_spaces_tabs w → line = w ++ '/' :: '*' :: rest →
      (analyze_line lang stats false line).1
        = { stats with totalLines := int_inc stats.totalLines,
                       commentLines := int_inc stats.commentLines } ∧
      ((analyze_line lang stats false line).2 = true
        ↔ ¬ occurs_from ['*', '/'] line (w.length + 2))) ∧
    (∀ lines, analyze_lines lang (line :: lines) stats inB
      = analyze_lines lang lines (analyze_line lang stats inB line).1
          (analyze_line lang stats inB line).2) ∧
    (∀ body rest : List (List Char), (∀ l ∈ body, ¬ occurs_from ['*', '/'] l 0) →
      analyze_lines lang (body ++ rest) stats true
        = analyze_lines lang rest
            { totalLines := int_inc^[body.length] stats.totalLines,
              blankLines := int_inc^[blank_count body] stats.blankLines,
              commentLines := int_inc^[body.length - blank_count body] stats.commentLines,
              codeLines := stats.codeLines } true) ∧
    (∀ (x : Int) (n : Nat), -2147483648 ≤ x → x + n < 2147483648 →
      int_inc^[n] x = x + n) := by
  have hpy : lang ≠ Language.PYTHON := by
    rcases hlang with h | h <;> rw [h] <;> decide
  refine ⟨analyze_line_blank lang stats inB line, analyze_line_in_block lang hpy stats line,
    ?_, fun _ => rfl, fun body rest h => analyze_lines_open_block lang hpy body rest stats h,
    fun x n => int_inc_iterate_of_lt n x⟩
  intro w rest hw hl
  subst hl
  exact analyze_line_opener lang hpy stats w rest hw

/-- Instance of C19: the C++ line ` /* x` outside a block. -/
theorem block_comment_state_machine_witness :
    (Language.CPP = Language.CPP ∨ Language.CPP = Language.JAVA) ∧
    only_spaces_tabs [' '] ∧
    (analyze_line Language.CPP
        { totalLines := 0, blankLines := 0, commentLines := 0, codeLines := 0 } false
        [' ', '/', '*', ' ', 'x']).1
      = { totalLines := 1, blankLines := 0, commentLines := 1, codeLines := 0 } ∧
    ((analyze_line Language.CPP
        { totalLines := 0, blankLines := 0, commentLines := 0, codeLines := 0 } false
        [' ', '/', '*', ' ', 'x']).2 = true
      ↔ ¬ occurs_from ['*', '/'] [' ', '/', '*', ' ', 'x'] (([' '] : List Char).length + 2)) :=
  ⟨Or.inl rfl, by intro c hc; simp at hc; exact Or.inl hc,
    ((block_comment_state_machine Language.CPP (Or.inl rfl)
      { totalLines := 0, blankLines := 0, commentLines := 0, codeLines := 0 } false
      [' ', '/', '*', ' ', 'x']).2.2.1 [' '] [' ', 'x']
        (by intro c hc; simp at hc; exact Or.inl hc) rfl).1,
    ((block_comment_state_machine Language.CPP (Or.inl rfl)
      { totalLines := 0, blankLines := 0, commentLines := 0, codeLines := 0 } false
      [' ', '/', '*', ' ', 'x']).2.2.1 [' '] [' ', 'x']
        (by intro c hc; simp at hc; exact Or.inl hc) rfl).2⟩

/-- C20: a directory entry is counted by the scan loop (analysed and added to
the totals) exactly when it is a regular file whose extension is `.cpp`, `.h`,
`.java` or `.py`; `isSourceFile(p) && detectLanguage(p) != UNKOWN` holds
exactly for these four extensions; `.c` passes `isSourceFile` but is mapped to
`UNKOWN`, so a `.c` file leaves the accumulators as they were. -/
theorem scan_counts_four_extensions (t : Totals) (e : Entry) (ext : String) :
    ((isSourceFile ext = true ∧ detectLanguage ext ≠ Language.UNKOWN)
      ↔ (ext = ".cpp" ∨ ext = ".h" ∨ ext = ".java" ∨ ext = ".py")) ∧
    isSourceFile ".c" = true ∧ detectLanguage ".c" = Language.UNKOWN ∧
    ((scan_entry t e).fileCount = int_inc t.fileCount
      ↔ (e.is_regular_file = true ∧
          (e.extension = ".cpp" ∨ e.extension = ".h" ∨ e.extension = ".java"
            ∨ e.extension = ".py"))) ∧
    (¬ (e.is_regular_file = true ∧
          (e.extension = ".cpp" ∨ e.extension = ".h" ∨ e.extension = ".java"
            ∨ e.extension = ".py")) → scan_entry t e = t) ∧
    (e.is_regular_file = true →
      (e.extension = ".cpp" ∨ e.extension = ".h" ∨ e.extension = ".java"
        ∨ e.extension = ".py") →
      (scan_entry t e).totalStats.totalLines = int_add t.totalStats.totalLines
        (analyzeFile e.content (detectLanguage e.extension)).totalLines) := by
  have key : ∀ x : String, (isSourceFile x = true ∧ detectLanguage x ≠ Language.UNKOWN)
      ↔ (x = ".cpp" ∨ x = ".h" ∨ x = ".java" ∨ x = ".py") := by
    intro x
    unfold isSourceFile detectLanguage
    constructor
    · rintro ⟨-, h2⟩
      by_contra hc
      simp only [not_or] at hc
      obtain ⟨h1, h3, h4, h5⟩ := hc
      simp [h1, h3, h4, h5] at h2
    · rintro (h | h | h | h) <;> subst h <;> decide
  refine ⟨key ext, by decide, by decide, ?_, ?_, ?_⟩
  · unfold scan_entry
    constructor
    · intro h
      by_contra hc
      have : ¬ (e.is_regular_file = true ∧ isSourceFile e.extension = true ∧
          detectLanguage e.extension ≠ Language.UNKOWN) := by
        intro ⟨h1, h2, h3⟩
        exact hc ⟨h1, (key e.extension).mp ⟨h2, h3⟩⟩
      revert h
      simp only
      split
      · exact fun h => int_inc_ne _ h.symm
      · split
        · exact fun h => int_inc_ne _ h.symm
        · split
          · exact fun h => int_inc_ne _ h.symm
          · rename_i h1 h2 h3
            exact absurd ⟨by simpa using h1, by simpa using h2, h3⟩ this
    · rintro ⟨h1, h2⟩
      obtain ⟨h3, h4⟩ := (key e.extension).mpr h2
      simp [h1, h3, h4]
  · intro hc
    have : ¬ (e.is_regular_file = true ∧ isSourceFile e.extension = true ∧
        detectLanguage e.extension ≠ Language.UNKOWN) := by
      intro ⟨h1, h2, h3⟩
      exact hc ⟨h1, (key e.extension).mp ⟨h2, h3⟩⟩
    unfold scan_entry
    simp only
    split
    · rfl
    · split
      · rfl
      · split
        · rfl
        · rename_i h1 h2 h3
          exact absurd ⟨by simpa using h1, by simpa using h2, h3⟩ this
  · intro h1 h2
    obtain ⟨h3, h4⟩ := (key e.extension).mpr h2
    simp [scan_entry, h1, h3, h4]

end LearnCPP
